import Mathlib

/-!
# Auto-chess combat engine: formal model and verification

A shallow embedding of the combat core of the `auto-chess-v2` repository
(`unit.js`, the combat module, the trait system, and the game data module),
together with theorems settling the specification claims.

Conventions of the embedding:
* JavaScript numbers are modelled by `ℕ` where the source only ever stores
  non-negative integers (hit points, mana, flat damage, buff magnitudes),
  by `ℤ` for board coordinates, and by the exact fraction type `Frac`
  below for time, attack speed and the fractional slow amount
  (the source uses IEEE doubles; we give them exact rational semantics).
  `Math.floor` is `Frac.floorF`.
* Mutation of a unit object is modelled by functions `Unit → Unit`;
  mutation of the combat instance by functions on a `Battlefield`/`Combat`
  state record.  Object references are modelled by the unit ids that the
  combat start assigns (pairwise distinct by construction, mirroring the
  fresh-id generator of the source).
* `Math.random()` is an explicit oracle `o : ℕ → ℕ` of draws; the state
  keeps the index of the next unconsumed draw.  A Fisher–Yates step at
  position `i` uses `o k % (i+1)` and the crit roll uses `o k % 100`,
  integer-valued stand-ins for the uniform real draw.
-/

namespace AutoChess

/-! ## Exact fractions

An executable, non-normalising fraction type: numerator over positive
denominator.  All operations the engine needs reduce in the kernel, unlike
`ℚ` whose normalisation blocks `decide`.  `toRat` interprets a `Frac` as
the rational it denotes; the bridge lemmas below connect the executable
operations to genuine rational arithmetic. -/

structure Frac where
  num : ℤ
  den : ℕ
deriving DecidableEq, Repr

instance : OfNat Frac n := ⟨⟨(n : ℤ), 1⟩⟩

def Frac.ofInt (n : ℤ) : Frac := ⟨n, 1⟩

def Frac.ofN (n : ℕ) : Frac := ⟨(n : ℤ), 1⟩

def Frac.add (a b : Frac) : Frac := ⟨a.num * b.den + b.num * a.den, a.den * b.den⟩

def Frac.sub (a b : Frac) : Frac := ⟨a.num * b.den - b.num * a.den, a.den * b.den⟩

def Frac.mul (a b : Frac) : Frac := ⟨a.num * b.num, a.den * b.den⟩

/-- Multiplicative inverse; the sign is moved to the numerator so that the
denominator stays non-negative. -/
def Frac.inv (a : Frac) : Frac :=
  if 0 ≤ a.num then ⟨(a.den : ℤ), a.num.toNat⟩ else ⟨-(a.den : ℤ), (-a.num).toNat⟩

def Frac.div (a b : Frac) : Frac := a.mul b.inv

instance : Add Frac := ⟨Frac.add⟩
instance : Sub Frac := ⟨Frac.sub⟩
instance : Mul Frac := ⟨Frac.mul⟩
instance : Div Frac := ⟨Frac.div⟩

/-- Boolean `≤` on denoted values (cross multiplication; dens are ≥ 0). -/
def Frac.ble (a b : Frac) : Bool := decide (a.num * (b.den : ℤ) ≤ b.num * (a.den : ℤ))

/-- Boolean `<` on denoted values. -/
def Frac.blt (a b : Frac) : Bool := decide (a.num * (b.den : ℤ) < b.num * (a.den : ℤ))

/-- `Math.max` on fractions. -/
def Frac.maxF (a b : Frac) : Frac := if a.ble b then b else a

/-- `Math.floor` (floor division of numerator by denominator). -/
def Frac.floorF (a : Frac) : ℤ := a.num.fdiv (a.den : ℤ)

/-- JavaScript truthiness of a number: falsy exactly when zero. -/
def Frac.isZero (a : Frac) : Bool := a.num == 0

/-- The rational denoted by a `Frac`. -/
def Frac.toRat (a : Frac) : ℚ := (a.num : ℚ) / (a.den : ℚ)

/-! ## Game data model (`unit.js` constructor) -/

/-- Side tag (`ownerId` in the source: `'player'` or `'enemy'`). -/
inductive Owner where
  | player
  | enemy
deriving DecidableEq, Repr

/-- `UnitState` from `unit.js`. -/
inductive UState where
  | idle
  | moving
  | attacking
  | casting
  | dead
deriving DecidableEq, Repr

/-- Damage type argument of `takeDamage`. -/
inductive DamageType where
  | physical
  | magic
deriving DecidableEq, Repr

/-- The `buffs` record of a unit (`unit.js` constructor). -/
structure Buffs where
  attackBonus : ℕ := 0
  armorBonus : ℕ := 0
  magicResistBonus : ℕ := 0
  attackSpeedBonus : Frac := 0
  hpBonus : ℕ := 0
  spellPower : ℕ := 0
  critChance : ℕ := 0
  critDamage : ℕ := 0
  damageReduction : ℕ := 0
  magicDamage : ℕ := 0
  manaRegen : ℕ := 0
deriving DecidableEq, Repr

/-- The `statusEffects` record of a unit (`unit.js` constructor). -/
structure StatusEffects where
  stunned : Bool := false
  stunDuration : Frac := 0
  slowed : Bool := false
  slowAmount : Frac := 0
  slowDuration : Frac := 0
deriving DecidableEq, Repr

/-- An ability descriptor (the optional `ability` object of a unit template
in the data module).  JavaScript reads the fields with truthiness checks
(`if (ability.damage)`), so an absent field and a `0` field behave
identically; we therefore store plain numbers with `0` meaning "absent".
The `manaCost`, `name` and `teleport` fields are never read by the combat
code and are omitted. -/
structure Ability where
  damage : ℕ := 0
  aoe : Bool := false
  stun : Frac := 0
  slow : Frac := 0
  duration : Frac := 0
  damageMultiplier : Frac := 0
  armorBonus : ℕ := 0
  attackBonus : ℕ := 0
  chainTargets : ℕ := 0
  hits : ℕ := 0
deriving DecidableEq, Repr

/-- A unit instance (`unit.js`).  Template-derived base stats are stored
directly on the unit; `id` plays the role of the object reference (targets
are stored as ids), `pos = none` is the off-board `x = y = null` state. -/
structure Unit where
  id : ℕ := 0
  starLevel : ℕ := 1
  traits : List String := []
  ability : Option Ability := none
  maxHp : ℕ := 0
  baseAttack : ℕ := 0
  attackSpeed : Frac := 1
  range : ℕ := 1
  armor : ℕ := 0
  magicResist : ℕ := 0
  currentHp : ℕ := 0
  currentMana : ℕ := 0
  maxMana : ℕ := 100
  pos : Option (ℤ × ℤ) := none
  state : UState := UState.idle
  target : Option ℕ := none
  attackCooldown : Frac := 0
  buffs : Buffs := {}
  statusEffects : StatusEffects := {}
  ownerId : Owner := Owner.player
deriving DecidableEq, Repr

/-! ## Game configuration (`GAME_CONFIG` in the data module) -/

def BOARD_COLS : ℤ := 8

def BOARD_ROWS : ℤ := 8

def MAX_MANA : ℕ := 100

def MANA_PER_ATTACK : ℕ := 10

def MANA_PER_DAMAGE_TAKEN : ℕ := 5

/-- `COMBAT_TICK_MS / 1000`: the per-tick time step in seconds. -/
def deltaTime : Frac := (1 : Frac) / 10

/-! ## Unit computed properties and combat methods (`unit.js`) -/

/-- Getter `attack`: effective attack damage including buffs. -/
def Unit.attack (u : Unit) : ℕ := u.baseAttack + u.buffs.attackBonus

/-- Getter `effectiveArmor`. -/
def Unit.effectiveArmor (u : Unit) : ℕ := u.armor + u.buffs.armorBonus

/-- Getter `effectiveMagicResist`. -/
def Unit.effectiveMagicResist (u : Unit) : ℕ := u.magicResist + u.buffs.magicResistBonus

/-- Getter `effectiveAttackSpeed`: buffs and slows applied, then a floor of
`0.1` attacks per second. -/
def Unit.effectiveAttackSpeed (u : Unit) : Frac :=
  let speed := u.attackSpeed + u.buffs.attackSpeedBonus
  let speed := if u.statusEffects.slowed then speed * ((1 : Frac) - u.statusEffects.slowAmount) else speed
  Frac.maxF ((1 : Frac) / 10) speed

/-- Getter `effectiveMaxHp`. -/
def Unit.effectiveMaxHp (u : Unit) : ℕ := u.maxHp + u.buffs.hpBonus

/-- Getter `isAlive`: `currentHp > 0 && state !== DEAD`. -/
def Unit.alive (u : Unit) : Bool :=
  decide (0 < u.currentHp) && decide (u.state ≠ UState.dead)

/-- Getter `isOnBoard`. -/
def Unit.onBoard (u : Unit) : Bool := u.pos.isSome

/-- Getter `canAct`: alive and not stunned. -/
def Unit.canAct (u : Unit) : Bool := u.alive && !u.statusEffects.stunned

/-- `getDistanceTo`: Chebyshev distance in grid cells, `none` standing for
the `Infinity` returned when either unit is off the board. -/
def Unit.getDistanceTo (u other : Unit) : Option ℕ :=
  match u.pos, other.pos with
  | some (x, y), some (x', y') => some (max (x - x').natAbs (y - y').natAbs)
  | _, _ => none

/-- `die`: zero HP, DEAD state, target cleared. -/
def Unit.die (u : Unit) : Unit :=
  { u with currentHp := 0, state := UState.dead, target := none }

/-- `gainMana`: add `amount + manaRegen`, clamp to `maxMana`; no-op when
dead. -/
def Unit.gainMana (u : Unit) (amount : ℕ) : Unit :=
  if ¬ u.alive then u
  else { u with currentMana := min u.maxMana (u.currentMana + (amount + u.buffs.manaRegen)) }

/-- The damage number computed by the body of `takeDamage`: mitigation by
the defense stat (armor for physical, magic resist for magic), then the
`damageReduction` buff when positive, then the source's unconditional
`Math.max(1, actualDamage)` clamp.  (A negative intermediate floor is
clamped by the `max 1`, so the final `Int.toNat` coercion is exact.) -/
def codeDamage (u : Unit) (amount : ℕ) (ty : DamageType) : ℕ :=
  let defense : ℕ := match ty with
    | DamageType.physical => u.effectiveArmor
    | DamageType.magic => u.effectiveMagicResist
  let mitigated : ℤ :=
    (Frac.ofN amount * ((1 : Frac) - Frac.ofN defense / (Frac.ofN defense + 100))).floorF
  let reduced : ℤ :=
    if 0 < u.buffs.damageReduction then
      (Frac.ofInt mitigated * ((1 : Frac) - Frac.ofN u.buffs.damageReduction / 100)).floorF
    else mitigated
  (max 1 reduced).toNat

/-- `takeDamage(amount, type)`: a no-op returning 0 on a dead unit;
otherwise the mitigated damage (`codeDamage`) is subtracted from
`currentHp` clamped at 0, mana is gained for being hit, and a unit
reaching 0 HP dies.  Returns the actual damage with the updated unit. -/
def Unit.takeDamage (u : Unit) (amount : ℕ) (ty : DamageType) : ℕ × Unit :=
  if ¬ u.alive then (0, u)
  else
    let actual : ℕ := codeDamage u amount ty
    let u := { u with currentHp := u.currentHp - actual }
    let u := u.gainMana MANA_PER_DAMAGE_TAKEN
    let u := if u.currentHp = 0 then u.die else u
    (actual, u)

/-- `heal`: `currentHp += min(amount, effectiveMaxHp - currentHp)`, which
on natural numbers is `min (currentHp + amount) effectiveMaxHp` (also when
`currentHp` already exceeds `effectiveMaxHp`, where the source's negative
`actualHeal` clamps HP down to the cap); no-op when dead. -/
def Unit.heal (u : Unit) (amount : ℕ) : Unit :=
  if ¬ u.alive then u
  else { u with currentHp := min (u.currentHp + amount) u.effectiveMaxHp }

/-- `applyStun`: no-op when dead, otherwise the remaining duration becomes
the maximum of the current and the new duration. -/
def Unit.applyStun (u : Unit) (duration : Frac) : Unit :=
  if ¬ u.alive then u
  else { u with statusEffects :=
    { u.statusEffects with
        stunned := true
        stunDuration := Frac.maxF u.statusEffects.stunDuration duration } }

/-- `applySlow`: no-op when dead, otherwise both the slow fraction and the
remaining duration become the maximum of current and new. -/
def Unit.applySlow (u : Unit) (amount duration : Frac) : Unit :=
  if ¬ u.alive then u
  else { u with statusEffects :=
    { u.statusEffects with
        slowed := true
        slowAmount := Frac.maxF u.statusEffects.slowAmount amount
        slowDuration := Frac.maxF u.statusEffects.slowDuration duration } }

/-- `updateStatusEffects`: decrement the stun and slow timers by the
elapsed time and clear an effect whose timer drops to `≤ 0`. -/
def Unit.updateStatusEffects (u : Unit) (dt : Frac) : Unit :=
  let se := u.statusEffects
  let se :=
    if se.stunned then
      let d := se.stunDuration - dt
      if d.ble 0 then { se with stunned := false, stunDuration := 0 }
      else { se with stunDuration := d }
    else se
  let se :=
    if se.slowed then
      let d := se.slowDuration - dt
      if d.ble 0 then { se with slowed := false, slowAmount := 0, slowDuration := 0 }
      else { se with slowDuration := d }
    else se
  { u with statusEffects := se }

/-- `resetForCombat`: full HP (at the unit's current effective max), zero
mana, idle, no target, no cooldown, status effects cleared. -/
def Unit.resetForCombat (u : Unit) : Unit :=
  { u with
      currentHp := u.effectiveMaxHp
      currentMana := 0
      state := UState.idle
      target := none
      attackCooldown := 0
      statusEffects := {} }

/-- `resetBuffs`: zero every buff accumulator. -/
def Unit.resetBuffs (u : Unit) : Unit := { u with buffs := {} }

/-! ## Trait data and the combat-start trait application
(`TRAITS` / `getTraitBonus` in the data module, `countTraits` /
`applyBonusToUnit` / `applyTraitBonuses` in the combat module) -/

/-- One bonus bundle of a trait threshold; field names follow the keys of
the `bonuses` objects in the data module (`bonusMapping` in the combat
module maps them onto unit buff keys; `range` is added to the unit's
range). -/
structure TraitBonus where
  armor : ℕ := 0
  attackBonus : ℕ := 0
  spellPower : ℕ := 0
  manaRegen : ℕ := 0
  critChance : ℕ := 0
  critDamage : ℕ := 0
  hpBonus : ℕ := 0
  damageReduction : ℕ := 0
  attackSpeedBonus : Frac := 0
  range : ℕ := 0
  magicDamage : ℕ := 0
  magicResist : ℕ := 0
deriving DecidableEq, Repr

/-- The `TRAITS` table: for each trait id its threshold-2 and threshold-4
bonus bundles (every trait uses exactly the thresholds `{2, 4}`). -/
def TRAITS : String → Option (TraitBonus × TraitBonus)
  | "warrior" => some ({ armor := 25 }, { armor := 55, attackBonus := 15 })
  | "mage" => some ({ spellPower := 20, manaRegen := 10 }, { spellPower := 50, manaRegen := 25 })
  | "assassin" => some ({ critChance := 15, critDamage := 25 }, { critChance := 35, critDamage := 50 })
  | "tank" => some ({ hpBonus := 200, damageReduction := 10 }, { hpBonus := 500, damageReduction := 25 })
  | "ranger" => some ({ attackSpeedBonus := (2 : Frac) / 10 }, { attackSpeedBonus := (5 : Frac) / 10, range := 1 })
  | "elemental" => some ({ magicDamage := 20, magicResist := 20 }, { magicDamage := 45, magicResist := 45 })
  | _ => none

/-- `getTraitBonus`: the highest threshold (4 before 2) that `count` meets,
with its bundle; `none` when the trait is unknown or no threshold is met. -/
def getTraitBonus (traitId : String) (count : ℕ) : Option (ℕ × TraitBonus) :=
  match TRAITS traitId with
  | none => none
  | some (b2, b4) =>
    if 4 ≤ count then some (4, b4)
    else if 2 ≤ count then some (2, b2)
    else none

/-- The loop body of `Combat.countTraits` for one trait of one unit: bump
the tally for `traitId` and extend the counted-pairs set, unless the
`(unit id, trait)` pair was counted before (for traits other than
`traitId` only the set is extended — the source tallies them in their own
keys, which do not affect `traitId`). -/
def countStep (uid : ℕ) (traitId : String) (p : ℕ × List (ℕ × String)) (s : String) :
    ℕ × List (ℕ × String) :=
  if s = traitId then
    if (uid, s) ∈ p.2 then p else (p.1 + 1, (uid, s) :: p.2)
  else
    if (uid, s) ∈ p.2 then p else (p.1, (uid, s) :: p.2)

/-- `Combat.countTraits`, specialised to one trait id: walk the units,
skipping dead ones (board position is **not** checked here, unlike the
planning-view `TraitSystem.calculateTraits`), and count each `(unit id,
trait)` pair at most once via the `countedUnits` set. -/
def countTraitsFrom (traitId : String) : List Unit → List (ℕ × String) → ℕ
  | [], _ => 0
  | u :: rest, counted =>
    if ¬ u.alive then countTraitsFrom traitId rest counted
    else
      let step := u.traits.foldl (countStep u.id traitId) ((0 : ℕ), counted)
      step.1 + countTraitsFrom traitId rest step.2

/-- `Combat.countTraits units[traitId]` (0 when the key is absent). -/
def countTraits (units : List Unit) (traitId : String) : ℕ :=
  countTraitsFrom traitId units []

/-- The keys of the `traitCounts` object in their JavaScript insertion
order: first occurrence across the trait lists of the living units. -/
def collectTraitIds (units : List Unit) : List String :=
  units.foldl
    (fun acc u =>
      if ¬ u.alive then acc
      else u.traits.foldl (fun acc t => if t ∈ acc then acc else acc ++ [t]) acc)
    []

/-- `Combat.applyBonusToUnit`: accumulate a bonus bundle into the unit's
buffs via `bonusMapping`; the `range` bonus is added to the unit's range. -/
def applyBonusToUnit (u : Unit) (b : TraitBonus) : Unit :=
  { u with
      range := u.range + b.range
      buffs :=
        { u.buffs with
            armorBonus := u.buffs.armorBonus + b.armor
            attackBonus := u.buffs.attackBonus + b.attackBonus
            spellPower := u.buffs.spellPower + b.spellPower
            manaRegen := u.buffs.manaRegen + b.manaRegen
            critChance := u.buffs.critChance + b.critChance
            critDamage := u.buffs.critDamage + b.critDamage
            hpBonus := u.buffs.hpBonus + b.hpBonus
            damageReduction := u.buffs.damageReduction + b.damageReduction
            attackSpeedBonus := u.buffs.attackSpeedBonus + b.attackSpeedBonus
            magicDamage := u.buffs.magicDamage + b.magicDamage
            magicResistBonus := u.buffs.magicResistBonus + b.magicResist } }

/-- `Combat.applyTraitBonuses` on one side's unit list: reset all buffs,
count traits, and for every trait whose count meets a threshold add its
bundle to every living unit carrying the trait. -/
def applyTraitBonusesList (units : List Unit) : List Unit :=
  let base := units.map Unit.resetBuffs
  (collectTraitIds base).foldl
    (fun us traitId =>
      match getTraitBonus traitId (countTraits base traitId) with
      | none => us
      | some (_, bonus) =>
        us.map (fun u => if traitId ∈ u.traits ∧ u.alive then applyBonusToUnit u bonus else u))
    base

/-- The action of one trait of the `applyTraitBonuses` loop on one unit
(the whole loop is a fold of these, see `applyTraitBonusesList_eq`). -/
def traitStepUnit (base : List Unit) (u : Unit) (t : String) : Unit :=
  match getTraitBonus t (countTraits base t) with
  | none => u
  | some (_, bonus) => if t ∈ u.traits ∧ u.alive then applyBonusToUnit u bonus else u

/-- The whole trait pass as it acts on a single unit of the side. -/
def traitFoldUnit (base : List Unit) (u : Unit) : Unit :=
  (collectTraitIds base).foldl (traitStepUnit base) u

/-! ## The planning-phase trait system (`TraitSystem` in part_002)

`game.js` runs `traitSystem.calculateTraits(playerUnits)` followed by
`traitSystem.applyBonuses(playerUnits)` on the very array it then hands to
`combat.start` / `runSync`, so the player roster reaches the combat with
planning trait buffs (e.g. the tank `hpBonus`) already applied.  The
planning system differs from the combat-side pass: it filters on
`isOnBoard && isAlive` (both for counting and application) and tallies
per trait-list occurrence instead of per `(id, trait)` pair. -/

/-- `TraitSystem.calculateTraits`: per-occurrence tally of a trait over
the living, on-board units. -/
def planningCount (units : List Unit) (t : String) : ℕ :=
  ((units.filter (fun u => u.onBoard && u.alive)).map (fun u => u.traits.count t)).sum

/-- `TraitSystem._calculateActiveTraits` for one trait: the highest
threshold (2, then 4, keeping the last met) whose bonus bundle exists. -/
def planningActive (units : List Unit) (t : String) : Option TraitBonus :=
  match TRAITS t with
  | none => none
  | some (b2, b4) =>
    if 4 ≤ planningCount units t then some b4
    else if 2 ≤ planningCount units t then some b2
    else none

/-- `TraitSystem.applyBonuses` on one unit: living on-board units have
their buffs reset and every active trait they carry applied
(`_applyTraitBonus` uses the same bonus mapping, range included, as the
combat module's `applyBonusToUnit`); other units are untouched. -/
def planningApplyUnit (units : List Unit) (u : Unit) : Unit :=
  if u.onBoard && u.alive then
    u.traits.foldl
      (fun v t =>
        match planningActive units t with
        | some b => applyBonusToUnit v b
        | none => v)
      u.resetBuffs
  else u

/-- `traitSystem.calculateTraits(units); traitSystem.applyBonuses(units)`
(the game's pre-combat step, `game.js` lines 246-247). -/
def planningApply (units : List Unit) : List Unit :=
  units.map (planningApplyUnit units)

/-- The HP-bonus the combat's own trait pass grants a unit of a side
roster: one bundle per distinct trait it carries, at the roster-wide
carrier count (every fresh clone is alive when the combat counts, and the
fresh clone ids are pairwise distinct, so `countTraits` degenerates to
the plain carrier count). -/
def hpGrant (side : List Unit) (u : Unit) : ℕ :=
  (u.traits.dedup.map (fun t =>
    match getTraitBonus t ((side.filter (fun v => decide (t ∈ v.traits))).length) with
    | some p => p.2.hpBonus
    | none => 0)).sum

/-- Admissible combat-start side roster: every unit has positive max HP
and enters with at most the HP-bonus the combat's own trait pass will
re-grant it.  Rosters with no buffs at all, the boss-buffed enemy rosters
(`applyBossBuffs` adds no `hpBonus`), and the planning-buffed player
rosters of `game.js` (which compute the same counts on an all-alive
board roster, see `planning_start_ok`) all satisfy it. -/
def StartSideOk (l : List Unit) : Prop :=
  ∀ u ∈ l, 0 < u.maxHp ∧ u.buffs.hpBonus ≤ hpGrant l u

/-! ## Battlefield state and reference plumbing

The two unit arrays of the combat instance are modelled as one list
(player clones first), each unit's `ownerId` telling its side.  A
JavaScript object reference is modelled by the unit's id: reading a
reference is `getUnit`, mutating through it is `updateUnit`. -/

/-- The unit-and-board part of a combat instance. -/
structure Battlefield where
  units : List Unit := []
  occupied : List (ℤ × ℤ) := []
  damageLog : List ℕ := []
  randIdx : ℕ := 0
deriving DecidableEq, Repr

/-- Dereference a unit id. -/
def getUnit (bf : Battlefield) (uid : ℕ) : Option Unit :=
  bf.units.find? (fun u => u.id == uid)

/-- Mutate the unit(s) with the given id. -/
def updateUnit (bf : Battlefield) (uid : ℕ) (f : Unit → Unit) : Battlefield :=
  { bf with units := bf.units.map (fun u => if u.id == uid then f u else u) }

/-- One side's unit array (`this.playerUnits` / `this.enemyUnits`). -/
def sideUnits (bf : Battlefield) (w : Owner) : List Unit :=
  bf.units.filter (fun u => u.ownerId == w)

/-- `side.filter(u => u.isAlive)`. -/
def aliveSide (bf : Battlefield) (w : Owner) : List Unit :=
  (sideUnits bf w).filter Unit.alive

/-- Ids of one side's living units. -/
def aliveSideIds (bf : Battlefield) (w : Owner) : List ℕ :=
  (aliveSide bf w).map Unit.id

/-- `takeDamage` through a reference, recording the dealt damage in the
damage log (the source logs every damage number into `combatLog`). -/
def dealDamage (bf : Battlefield) (tid amount : ℕ) (ty : DamageType) : ℕ × Battlefield :=
  match getUnit bf tid with
  | none => (0, bf)
  | some t =>
    let dealt := (t.takeDamage amount ty).1
    let bf := updateUnit bf tid (fun v => (v.takeDamage amount ty).2)
    (dealt, { bf with damageLog := bf.damageLog ++ [dealt] })

/-- `Combat.updateOccupiedPositions`: rebuild the occupied-cell cache from
the living, on-board units of both sides. -/
def updateOccupiedPositions (bf : Battlefield) : Battlefield :=
  { bf with occupied := bf.units.filterMap (fun u => if u.alive && u.onBoard then u.pos else none) }

/-- `Combat.isValidPosition`: inside the 8×8 board. -/
def isValidPosition (p : ℤ × ℤ) : Bool :=
  decide (0 ≤ p.1) && decide (p.1 < BOARD_COLS) && decide (0 ≤ p.2) && decide (p.2 < BOARD_ROWS)

/-- Strict `<` on distances, `none` standing for `Infinity`. -/
def optLt : Option ℕ → Option ℕ → Bool
  | some x, some y => decide (x < y)
  | some _, none => true
  | none, _ => false

/-- Non-strict `≤` on distances, `none` standing for `Infinity`. -/
def optLe : Option ℕ → Option ℕ → Bool
  | some x, some y => decide (x ≤ y)
  | some _, none => true
  | none, some _ => false
  | none, none => true

/-- The body of `findTarget`'s closest-enemy reduction: keep the running
champion unless the candidate is strictly closer. -/
def ftStep (bf : Battlefield) (u : Unit) (best : Option ℕ × Option ℕ) (eid : ℕ) :
    Option ℕ × Option ℕ :=
  match getUnit bf eid with
  | none => best
  | some e => if optLt (u.getDistanceTo e) best.2 then (some eid, u.getDistanceTo e) else best

/-- `Combat.findTarget`: among the given enemies, keep those alive and on
the board, pick the first one at minimal Chebyshev distance, and store it
in the unit's `target` field (`none` when no valid enemy exists, or when
every distance is `Infinity` because the seeker is off the board). -/
def Combat.findTarget (bf : Battlefield) (uid : ℕ) (enemyIds : List ℕ) : Battlefield :=
  match getUnit bf uid with
  | none => bf
  | some u =>
    if ¬ u.alive ∨ enemyIds.isEmpty then
      updateUnit bf uid (fun v => { v with target := none })
    else
      let validIds := enemyIds.filter (fun eid =>
        match getUnit bf eid with
        | some e => e.alive && e.onBoard
        | none => false)
      if validIds.isEmpty then updateUnit bf uid (fun v => { v with target := none })
      else
        let best := validIds.foldl (ftStep bf u) (none, none)
        updateUnit bf uid (fun v => { v with target := best.1 })

/-- `Combat.generateMoveOptions`: candidate next cells ordered by
preference (diagonal first, then the axis steps). -/
def generateMoveOptions (ux uy dx dy : ℤ) : List (ℤ × ℤ) :=
  if dx ≠ 0 ∧ dy ≠ 0 then [(ux + dx, uy + dy), (ux + dx, uy), (ux, uy + dy)]
  else if dx ≠ 0 then [(ux + dx, uy), (ux + dx, uy + 1), (ux + dx, uy - 1)]
  else if dy ≠ 0 then [(ux, uy + dy), (ux + 1, uy + dy), (ux - 1, uy + dy)]
  else []

/-- `Combat.moveToward`: greedy one-cell step toward the target; the first
in-bounds unoccupied candidate is taken (vacating the old cell in the
occupancy cache), otherwise the unit goes IDLE and stays put. -/
def Combat.moveToward (bf : Battlefield) (uid tid : ℕ) : Battlefield :=
  match getUnit bf uid, getUnit bf tid with
  | some u, some t =>
    match u.pos, t.pos with
    | some (ux, uy), some (tx, ty) =>
      if ¬ u.canAct then bf
      else
        let dx := (tx - ux).sign
        let dy := (ty - uy).sign
        if dx = 0 ∧ dy = 0 then bf
        else
          match (generateMoveOptions ux uy dx dy).find?
              (fun p => isValidPosition p && !(bf.occupied.contains p)) with
          | some p =>
            let bf := { bf with occupied := p :: bf.occupied.erase (ux, uy) }
            updateUnit bf uid (fun v => { v with pos := some p, state := UState.moving })
          | none => updateUnit bf uid (fun v => { v with state := UState.idle })
    | _, _ => bf
  | _, _ => bf

/-! ## Ability resolver (`Combat.castAbility`) -/

/-- `ability.duration || 2`: a zero (or absent) duration falls back to 2
seconds, by JavaScript truthiness. -/
def durationOr2 (d : Frac) : Frac := if d.isZero then 2 else d

/-- Stable insertion into a `le`-sorted list (after all `le`-smaller-or-
equal elements), used to model the stable `Array.prototype.sort`. -/
def insertLe (le : α → α → Bool) (x : α) : List α → List α
  | [] => [x]
  | y :: ys => if le y x then y :: insertLe le x ys else x :: y :: ys

/-- Stable sort by a boolean total preorder. -/
def sortByLe (le : α → α → Bool) (l : List α) : List α :=
  l.foldl (fun acc x => insertLe le x acc) []

/-- `[...enemies].sort((a, b) => caster.getDistanceTo(a) - caster.getDistanceTo(b))`. -/
def sortByDistance (bf : Battlefield) (casterId : ℕ) (ids : List ℕ) : List ℕ :=
  match getUnit bf casterId with
  | none => ids
  | some c =>
    sortByLe
      (fun a b =>
        optLe
          (match getUnit bf a with | some e => c.getDistanceTo e | none => none)
          (match getUnit bf b with | some e => c.getDistanceTo e | none => none))
      ids

/-- One victim of the `ability.damage` branch: magic damage, then the
stun and slow riders when present. -/
def aoeStep (ab : Ability) (baseDamage : ℕ) (bf : Battlefield) (eid : ℕ) : Battlefield :=
  let bf := (dealDamage bf eid baseDamage DamageType.magic).2
  let bf := if ¬ ab.stun.isZero then updateUnit bf eid (fun v => v.applyStun ab.stun) else bf
  if ¬ ab.slow.isZero then updateUnit bf eid (fun v => v.applySlow ab.slow (durationOr2 ab.duration)) else bf

/-- `if (ability.damage)`: flat magic damage (AoE over the captured living
enemies, or single-target), plus the stun/slow riders. -/
def castDamageBranch (targetId : ℕ) (enemyIds : List ℕ) (ab : Ability) (spm : Frac)
    (bf : Battlefield) : Battlefield :=
  if 0 < ab.damage then
    let baseDamage := ((Frac.ofN ab.damage) * spm).floorF.toNat
    if ab.aoe then enemyIds.foldl (aoeStep ab baseDamage) bf
    else aoeStep ab baseDamage bf targetId
  else bf

/-- `if (ability.damageMultiplier)`: physical hit scaled off the caster's
current attack. -/
def castMultBranch (casterId targetId : ℕ) (ab : Ability) (spm : Frac)
    (bf : Battlefield) : Battlefield :=
  if ¬ ab.damageMultiplier.isZero then
    match getUnit bf casterId with
    | some c =>
      (dealDamage bf targetId ((Frac.ofN c.attack * ab.damageMultiplier * spm).floorF.toNat) DamageType.physical).2
    | none => bf
  else bf

/-- `if (ability.armorBonus)`: permanent self armor buff. -/
def castArmorBranch (casterId : ℕ) (ab : Ability) (bf : Battlefield) : Battlefield :=
  if 0 < ab.armorBonus then
    updateUnit bf casterId
      (fun v => { v with buffs := { v.buffs with armorBonus := v.buffs.armorBonus + ab.armorBonus } })
  else bf

/-- `if (ability.attackBonus && ability.aoe)`: raid-wide ally attack buff. -/
def castAttackBuffBranch (casterOwner : Owner) (ab : Ability) (bf : Battlefield) : Battlefield :=
  if 0 < ab.attackBonus ∧ ab.aoe then
    (aliveSideIds bf casterOwner).foldl
      (fun bf aid =>
        updateUnit bf aid
          (fun v => { v with buffs := { v.buffs with attackBonus := v.buffs.attackBonus + ab.attackBonus } }))
      bf
  else bf

/-- `if (ability.chainTargets && ability.damage)`: chain lightning with a
20% falloff per hop over the distance-sorted captured enemies. -/
def castChainBranch (casterId : ℕ) (enemyIds : List ℕ) (ab : Ability) (spm : Frac)
    (bf : Battlefield) : Battlefield :=
  if 0 < ab.chainTargets ∧ 0 < ab.damage then
    let baseDamage := ((Frac.ofN ab.damage) * spm).floorF.toNat
    let sorted := sortByDistance bf casterId enemyIds
    let chainCount := min ab.chainTargets enemyIds.length
    (List.range chainCount).foldl
      (fun bf i =>
        match sorted.get? i with
        | some eid =>
          (dealDamage bf eid
            ((Frac.ofN baseDamage * ((1 : Frac) - Frac.ofN i * ((2 : Frac) / 10))).floorF.toNat)
            DamageType.magic).2
        | none => bf)
      bf
  else bf

/-- One cleave victim of the `ability.hits` branch: physical damage when
still alive and within melee range of the caster. -/
def hitStep (casterId : ℕ) (baseDamage : ℕ) (bf : Battlefield) (eid : ℕ) : Battlefield :=
  match getUnit bf casterId, getUnit bf eid with
  | some c, some e =>
    if e.alive && optLe (c.getDistanceTo e) (some 1) then
      (dealDamage bf eid baseDamage DamageType.physical).2
    else bf
  | _, _ => bf

/-- `if (ability.hits && ability.damage && ability.aoe)`: melee multi-hit
cleave. -/
def castHitsBranch (casterId : ℕ) (enemyIds : List ℕ) (ab : Ability) (spm : Frac)
    (bf : Battlefield) : Battlefield :=
  if 0 < ab.hits ∧ 0 < ab.damage ∧ ab.aoe then
    let baseDamage := ((Frac.ofN ab.damage) * spm).floorF.toNat
    (List.range ab.hits).foldl
      (fun bf _ => enemyIds.foldl (hitStep casterId baseDamage) bf)
      bf
  else bf

/-- `Combat.castAbility(caster, target)`: reset mana, enter CASTING, then
run every applicable effect branch in order (the branches are independent
checks, not an exclusive switch).  `enemies` is the list of the opposing
side's living units captured at cast time, as in the source. -/
def castAbility (bf : Battlefield) (casterId targetId : ℕ) : Battlefield :=
  match getUnit bf casterId with
  | none => bf
  | some caster0 =>
  match caster0.ability with
  | none => bf
  | some ab =>
    let bf := updateUnit bf casterId (fun v => { v with currentMana := 0, state := UState.casting })
    let otherSide := if caster0.ownerId == Owner.player then Owner.enemy else Owner.player
    let enemyIds := aliveSideIds bf otherSide
    let spm : Frac := (1 : Frac) + Frac.ofN caster0.buffs.spellPower / 100
    castHitsBranch casterId enemyIds ab spm
      (castChainBranch casterId enemyIds ab spm
        (castAttackBuffBranch caster0.ownerId ab
          (castArmorBranch casterId ab
            (castMultBranch casterId targetId ab spm
              (castDamageBranch targetId enemyIds ab spm bf)))))

/-! ## Attack resolution (`Combat.attack`) -/

/-- The crit-multiplied damage value: `floor(attack × (1.5 + critDamage/100))`. -/
def critDamageValue (u : Unit) : ℕ :=
  (Frac.ofN u.attack * ((3 : Frac) / 2 + Frac.ofN u.buffs.critDamage / 100)).floorF.toNat

/-- The tail of `Combat.attack` once the physical damage amount has been
determined: deal it, deal the flat bonus magic damage, grant attack mana,
and cast the ability if the attacker's mana is now full. -/
def attackResolve (bf : Battlefield) (aId dId damage : ℕ) : Battlefield :=
  let bf := (dealDamage bf dId damage DamageType.physical).2
  let bf :=
    match getUnit bf aId with
    | some atk =>
      if 0 < atk.buffs.magicDamage then (dealDamage bf dId atk.buffs.magicDamage DamageType.magic).2 else bf
    | none => bf
  let bf := updateUnit bf aId (fun v => v.gainMana MANA_PER_ATTACK)
  match getUnit bf aId with
  | some atk2 =>
    if atk2.maxMana ≤ atk2.currentMana ∧ atk2.ability.isSome then castAbility bf aId dId else bf
  | none => bf

/-- `Combat.attack(attacker, defender)`: guard, independent crit roll when
`critChance > 0`, then `attackResolve` with the rolled damage. -/
def Combat.attack (o : ℕ → ℕ) (bf : Battlefield) (aId dId : ℕ) : Battlefield :=
  match getUnit bf aId, getUnit bf dId with
  | some atk, some dfd =>
    if ¬ atk.canAct ∨ ¬ dfd.alive then bf
    else
      let rolled :=
        if 0 < atk.buffs.critChance then
          let roll := o bf.randIdx % 100
          (if roll < atk.buffs.critChance then critDamageValue atk else atk.attack,
           { bf with randIdx := bf.randIdx + 1 })
        else (atk.attack, bf)
      attackResolve rolled.2 aId dId rolled.1
  | _, _ => bf

/-! ## The tick (`Combat.tick`) -/

/-- Swap two positions of a list (both must be in range). -/
def swapL (l : List α) (i j : ℕ) : List α :=
  match l.get? i, l.get? j with
  | some a, some b => (l.set i b).set j a
  | _, _ => l

/-- The Fisher–Yates loop of `Combat.shuffleArray`: step `i` (from
`len − 1` down to 1) swaps position `i` with `o idx % (i+1)` and moves to
the next draw. -/
def fyGo (o : ℕ → ℕ) : ℕ → ℕ → List ℕ → List ℕ
  | _, 0, a => a
  | idx, i + 1, a => fyGo o (idx + 1) i (swapL a (i + 1) (o idx % (i + 2)))

/-- `Combat.shuffleArray` on a list of unit ids, consuming `len − 1`
draws. -/
def shuffleIds (o : ℕ → ℕ) (bf : Battlefield) (ids : List ℕ) : List ℕ × Battlefield :=
  (fyGo o bf.randIdx (ids.length - 1) ids, { bf with randIdx := bf.randIdx + (ids.length - 1) })

/-- The per-unit body of the tick loop: skip units dead (or despawned) by
earlier actions this tick, decay status effects, skip the stunned,
re-acquire a missing or dead target, tick the attack cooldown down, then
attack (cooldown permitting) when in range or step toward the target when
not. -/
def engageStage2 (o : ℕ → ℕ) (uid tid : ℕ) (bf : Battlefield) : Battlefield :=
  match getUnit bf uid, getUnit bf tid with
  | some u3, some tgt =>
    if optLe (u3.getDistanceTo tgt) (some u3.range) then
      if u3.attackCooldown.ble 0 then
        updateUnit (Combat.attack o bf uid tid) uid
          (fun v => { v with attackCooldown := (1 : Frac) / v.effectiveAttackSpeed, state := UState.attacking })
      else updateUnit bf uid (fun v => { v with state := UState.idle })
    else Combat.moveToward bf uid tid
  | _, _ => bf

/-- Tick the attack cooldown down (when still positive), then engage. -/
def engageStage (o : ℕ → ℕ) (uid tid : ℕ) (cd : Frac) (bf : Battlefield) : Battlefield :=
  engageStage2 o uid tid
    (if (0 : Frac).blt cd then
      updateUnit bf uid (fun v => { v with attackCooldown := v.attackCooldown - deltaTime })
    else bf)

/-- The tail of the per-unit body once retargeting is done: act on the
stored target, if any. -/
def targetStage (o : ℕ → ℕ) (uid : ℕ) (bf : Battlefield) : Battlefield :=
  match getUnit bf uid with
  | none => bf
  | some u2 =>
  match u2.target with
  | none => bf
  | some tid => engageStage o uid tid u2.attackCooldown bf

def processUnit (o : ℕ → ℕ) (apIds aeIds : List ℕ) (bf : Battlefield) (uid : ℕ) : Battlefield :=
  match getUnit bf uid with
  | none => bf
  | some u0 =>
  if ¬ u0.alive then bf
  else
    let bf := updateUnit bf uid (fun v => v.updateStatusEffects deltaTime)
    match getUnit bf uid with
    | none => bf
    | some u1 =>
    if ¬ u1.canAct then bf
    else
      let enemyIds := if u1.ownerId == Owner.player then aeIds else apIds
      let bf :=
        if (match u1.target with
            | none => true
            | some tid =>
              match getUnit bf tid with
              | some t => ¬ t.alive
              | none => true) then
          Combat.findTarget bf uid enemyIds
        else bf
      targetStage o uid bf

/-- The unit-processing part of one tick: capture both sides' living
units, refresh the occupancy cache, shuffle the combined list, and run the
per-unit body in the shuffled order. -/
def battleTick (o : ℕ → ℕ) (bf : Battlefield) : Battlefield :=
  let apIds := aliveSideIds bf Owner.player
  let aeIds := aliveSideIds bf Owner.enemy
  let bf := updateOccupiedPositions bf
  let shuffled := shuffleIds o bf (apIds ++ aeIds)
  shuffled.1.foldl (processUnit o apIds aeIds) shuffled.2

/-! ## Combat control level (`Combat.runSync` and friends) -/

/-- The `winner` strings of a `CombatResult`. -/
inductive CombatWinner where
  | player
  | enemy
  | draw
deriving DecidableEq, Repr

/-- `CombatResult` (combat log omitted; the damage numbers the log would
carry are in `Battlefield.damageLog`). -/
structure CombatResult where
  winner : Option CombatWinner := none
  damageToPlayer : ℕ := 0
  damageToEnemy : ℕ := 0
  survivingPlayerUnits : List Unit := []
  survivingEnemyUnits : List Unit := []
  totalTicks : ℕ := 0
deriving DecidableEq, Repr

/-- The combat instance: battlefield plus control state. -/
structure Combat where
  bf : Battlefield := {}
  isRunning : Bool := false
  tickCount : ℕ := 0
  result : CombatResult := {}
deriving DecidableEq, Repr

/-- `Combat.isOver`: some side has no living unit. -/
def isOver (bf : Battlefield) : Bool :=
  (aliveSide bf Owner.player).isEmpty || (aliveSide bf Owner.enemy).isEmpty

/-- `Combat.calculateDamage`: 2 base plus the star level of every
surviving winner-side unit. -/
def calculateDamage (survivingUnits : List Unit) : ℕ :=
  2 + (survivingUnits.map Unit.starLevel).sum

/-- `Combat.endCombat`: stop, and populate the result (survivor lists are
the current living units; the loser's owner takes `damageToLoser`). -/
def endCombat (c : Combat) (w : CombatWinner) (damageToLoser : ℕ) : Combat :=
  { c with
      isRunning := false
      result :=
        { winner := some w
          totalTicks := c.tickCount
          survivingPlayerUnits := aliveSide c.bf Owner.player
          survivingEnemyUnits := aliveSide c.bf Owner.enemy
          damageToPlayer := if w = CombatWinner.enemy then damageToLoser else 0
          damageToEnemy := if w = CombatWinner.player then damageToLoser else 0 } }

/-- `Combat.determinWinner` (sic): draw when both sides are empty,
otherwise the surviving side wins and the damage is computed from its
survivors (the final `else` of the source defaults to a player win). -/
def determinWinner (c : Combat) : Combat :=
  let ap := aliveSide c.bf Owner.player
  let ae := aliveSide c.bf Owner.enemy
  if ap.isEmpty ∧ ae.isEmpty then endCombat c CombatWinner.draw 0
  else if ap.isEmpty then endCombat c CombatWinner.enemy (calculateDamage ae)
  else endCombat c CombatWinner.player (calculateDamage ap)

/-- `Combat.tick`: a no-op once the combat has ended; otherwise count the
tick, end the combat if a side is gone (before anyone acts), else process
every unit. -/
def Combat.tick (o : ℕ → ℕ) (c : Combat) : Combat :=
  if ¬ c.isRunning then c
  else
    let c := { c with tickCount := c.tickCount + 1 }
    if isOver c.bf then determinWinner c
    else { c with bf := battleTick o c.bf }

/-- The clone a combat start makes of an input unit: a fresh id (our ids
are list positions, hence pairwise distinct), the side tag, and the
constructor defaults for `target`, `attackCooldown` and `maxMana`.  (The
source constructs a fresh `Unit` from the template and copies state onto
it; template-level stats live directly on our units.) -/
def combatClone (owner : Owner) (newId : ℕ) (u : Unit) : Unit :=
  { u with id := newId, ownerId := owner, target := none, attackCooldown := 0, maxMana := MAX_MANA }

/-- Clone a whole roster, assigning consecutive fresh ids from `k`. -/
def cloneAll (owner : Owner) : ℕ → List Unit → List Unit
  | _, [] => []
  | k, u :: rest => combatClone owner k u :: cloneAll owner (k + 1) rest

/-- The unit list after the start sequence of `Combat.start`/`runSync`:
clone and tag both rosters, `resetForCombat` every clone, then apply trait
bonuses to each side independently. -/
def startUnits (ps es : List Unit) : List Unit :=
  let pcl := (cloneAll Owner.player 0 ps).map Unit.resetForCombat
  let ecl := (cloneAll Owner.enemy ps.length es).map Unit.resetForCombat
  applyTraitBonusesList pcl ++ applyTraitBonusesList ecl

/-- The battlefield after the start sequence (occupancy cache built). -/
def startBf (ps es : List Unit) : Battlefield :=
  updateOccupiedPositions { units := startUnits ps es }

/-- The `while (isRunning && tickCount < maxTicks)` loop, fuelled (the
fuel is an upper bound on the remaining iterations; `runSync` passes
`maxTicks`, which suffices because every iteration increments
`tickCount`). -/
def runLoop (o : ℕ → ℕ) (maxTicks : ℕ) : ℕ → Combat → Combat
  | 0, c => c
  | fuel + 1, c =>
    if c.isRunning ∧ c.tickCount < maxTicks then runLoop o maxTicks fuel (Combat.tick o c)
    else c

/-- `Combat.runSync(playerUnits, enemyUnits, maxTicks)`: run the start
sequence, loop ticks up to the cap, and force a draw if the cap was hit
with the combat still running. -/
def runSync (o : ℕ → ℕ) (ps es : List Unit) (maxTicks : ℕ) : Combat :=
  let c : Combat := { bf := startBf ps es, isRunning := true }
  let c := runLoop o maxTicks maxTicks c
  if maxTicks ≤ c.tickCount ∧ c.isRunning then endCombat c CombatWinner.draw 0 else c

/-! ## Verification layer: invariants and reachability -/

/-- Per-unit safety invariant: HP below the effective cap, mana below the
cap, a unit at 0 HP is DEAD, and no unit targets itself.  (`0 ≤` bounds
are inherent to the `ℕ` representation, faithful because the source
clamps both HP and mana at 0.) -/
def InvU (u : Unit) : Prop :=
  u.currentHp ≤ u.effectiveMaxHp
  ∧ u.currentMana ≤ u.maxMana
  ∧ (u.currentHp = 0 → u.state = UState.dead)
  ∧ u.target ≠ some u.id

/-- The ids on a battlefield are pairwise distinct (true at combat start
by construction: the source's id generator never repeats). -/
def IdsOk (bf : Battlefield) : Prop := (bf.units.map Unit.id).Nodup

/-- Battlefield safety invariant. -/
def InvBf (bf : Battlefield) : Prop := IdsOk bf ∧ ∀ u ∈ bf.units, InvU u

/-- The id/owner skeleton of a battlefield: every combat operation
preserves it (units are never created, destroyed, re-identified or
re-tagged during a battle). -/
def skel (bf : Battlefield) : List (ℕ × Owner) :=
  bf.units.map (fun u => (u.id, u.ownerId))

/-- The unit at `uid` exists and has positive HP. -/
def AliveAt (bf : Battlefield) (uid : ℕ) : Prop :=
  ∃ u, getUnit bf uid = some u ∧ 0 < u.currentHp

/-- Battlefield states reachable during a combat: the combat-start state
of two input rosters — admissible per `StartSideOk`, which covers raw
zero-buff rosters, the boss-buffed enemy rosters (no `hpBonus`), and the
planning-buffed player rosters `game.js` passes in (`planning_start_ok`)
— closed under the mutating operations of the engine: `takeDamage`,
`heal`, `gainMana`, stuns and slows, full attack resolution (which
includes the ability cast; the engine only ever attacks a unit of the
opposing side, recorded by the owner side condition), and the per-tick
unit processing. -/
inductive Reach (ps es : List Unit) : Battlefield → Prop where
  | start (hps : StartSideOk ps) (hes : StartSideOk es) :
      Reach ps es (startBf ps es)
  | damage {bf} (hr : Reach ps es bf) (tid amount : ℕ) (ty : DamageType) :
      Reach ps es (dealDamage bf tid amount ty).2
  | heal {bf} (hr : Reach ps es bf) (uid amount : ℕ) :
      Reach ps es (updateUnit bf uid (fun v => v.heal amount))
  | mana {bf} (hr : Reach ps es bf) (uid amount : ℕ) :
      Reach ps es (updateUnit bf uid (fun v => v.gainMana amount))
  | stun {bf} (hr : Reach ps es bf) (uid : ℕ) (d : Frac) :
      Reach ps es (updateUnit bf uid (fun v => v.applyStun d))
  | slow {bf} (hr : Reach ps es bf) (uid : ℕ) (a d : Frac) :
      Reach ps es (updateUnit bf uid (fun v => v.applySlow a d))
  | decay {bf} (hr : Reach ps es bf) (uid : ℕ) (dt : Frac) :
      Reach ps es (updateUnit bf uid (fun v => v.updateStatusEffects dt))
  | attack {bf} (hr : Reach ps es bf) (o : ℕ → ℕ) (aId dId : ℕ)
      (hside : ∀ a d, getUnit bf aId = some a → getUnit bf dId = some d → a.ownerId ≠ d.ownerId) :
      Reach ps es (Combat.attack o bf aId dId)
  | tick {bf} (hr : Reach ps es bf) (o : ℕ → ℕ) :
      Reach ps es (battleTick o bf)

/-- The §4.1 mitigation formula as the specification writes it, with the
minimum-1 floor applied unconditionally (the amendment): rational
arithmetic and `Math.floor = Int.floor`. -/
def specMitigation (amount d dr : ℕ) : ℤ :=
  max 1 ⌊(⌊(amount : ℚ) * (1 - (d : ℚ) / ((d : ℚ) + 100))⌋ : ℚ) * (1 - (dr : ℚ) / 100)⌋

/-- The per-result bookkeeping contract of `endCombat`: the loser's owner
damage is `calculateDamage` of the winner's survivors, the winner's own
damage is 0, a non-draw winner's opposing survivor list is empty, and a
draw deals no damage. -/
def ResultInv (res : CombatResult) : Prop :=
  (res.winner = some CombatWinner.player →
    res.damageToEnemy = calculateDamage res.survivingPlayerUnits
    ∧ res.damageToPlayer = 0 ∧ res.survivingEnemyUnits = [])
  ∧ (res.winner = some CombatWinner.enemy →
    res.damageToPlayer = calculateDamage res.survivingEnemyUnits
    ∧ res.damageToEnemy = 0 ∧ res.survivingPlayerUnits = [])
  ∧ (res.winner = some CombatWinner.draw →
    res.damageToPlayer = 0 ∧ res.damageToEnemy = 0)

/-- Control-level loop invariant of `runSync`: the tick count never
exceeds the cap, and once the combat has ended the result satisfies
`ResultInv`, records at most `maxT` ticks, and names a winner. -/
def ControlInv (maxT : ℕ) (c : Combat) : Prop :=
  c.tickCount ≤ maxT
  ∧ (c.isRunning = false →
      ResultInv c.result ∧ c.result.totalTicks ≤ maxT ∧ c.result.winner.isSome = true)

/-- "Same unit up to buffs and range": the pointwise relation trait-bonus
application respects (it touches only the buff accumulators and the
range). -/
def TRel (v w : Unit) : Prop :=
  w.id = v.id ∧ w.ownerId = v.ownerId ∧ w.currentHp = v.currentHp ∧ w.state = v.state
  ∧ w.target = v.target ∧ w.currentMana = v.currentMana ∧ w.maxHp = v.maxHp
  ∧ w.maxMana = v.maxMana ∧ w.pos = v.pos ∧ w.starLevel = v.starLevel

/-! ## Concrete fixtures for witnesses and counterexamples -/

/-- A melee bruiser: 1000 HP, 100 attack, attack speed 10 (one attack per
tick), range 1, at cell (0,0). -/
def wAttacker : Unit :=
  { id := 99, starLevel := 1, maxHp := 1000, baseAttack := 100, attackSpeed := 10,
    range := 1, pos := some (0, 0), currentHp := 1000 }

/-- Its victim: 250 HP, 10 attack, same speed and range, adjacent at
(0,1) — an immobile equal-range target. -/
def wVictim : Unit :=
  { id := 98, starLevel := 2, maxHp := 250, baseAttack := 10, attackSpeed := 10,
    range := 1, pos := some (0, 1), currentHp := 250 }

/-- A plain living unit with zero armor and no buffs, for `takeDamage`
counterexamples. -/
def wPlain : Unit :=
  { id := 97, starLevel := 1, maxHp := 50, baseAttack := 5, currentHp := 50, pos := some (3, 3) }

/-- A living warrior standing **off the board** (`x = y = null`). -/
def wOffBoard : Unit :=
  { id := 96, starLevel := 1, maxHp := 500, baseAttack := 50, currentHp := 500,
    traits := ["warrior"], pos := none }

/-- A two-unit battlefield holding the attacker and the victim directly. -/
def wBf1 : Battlefield := { units := [wAttacker, { wVictim with ownerId := Owner.enemy }] }

/-- Every combatant on the battlefield is within its HP and mana caps
(the `0 ≤` halves are inherent to the `ℕ` representation, faithful
because the source clamps both quantities at 0). -/
def HpManaBounded (bf : Battlefield) : Prop :=
  ∀ u ∈ bf.units, u.currentHp ≤ u.effectiveMaxHp ∧ u.currentMana ≤ u.maxMana

/-- The always-zero random stream, for concrete engine runs. -/
def oZero : ℕ → ℕ := fun _ => 0

/-- A combatant at 0 HP is inert on this battlefield: it is DEAD, it is
never the target `findTarget` selects, the rebuilt occupancy cache owes
none of its cells to it (each cell comes from a living unit other than
it), and the per-unit tick body leaves the battlefield untouched when its
turn comes. -/
def DeadInert (bf : Battlefield) (u : Unit) : Prop :=
  u.state = UState.dead
  ∧ (∀ (uid : ℕ) (enemyIds : List ℕ) (u' : Unit) (t : ℕ),
      getUnit (Combat.findTarget bf uid enemyIds) uid = some u' →
      u'.target = some t → t ≠ u.id)
  ∧ (∀ p ∈ (updateOccupiedPositions bf).occupied,
      ∃ v ∈ bf.units, v ≠ u ∧ v.alive = true ∧ v.pos = some p)
  ∧ (∀ (o : ℕ → ℕ) (apIds aeIds : List ℕ), processUnit o apIds aeIds bf u.id = bf)

/-- The battlefield of `startBf [wPlain] [wVictim]` after 500 physical
damage to unit 0: the plain unit is dead. -/
def c4Bf : Battlefield := (dealDamage (startBf [wPlain] [wVictim]) 0 500 DamageType.physical).2

/-- The dead combat clone of `wPlain` on `c4Bf` (id 0, 0 HP, DEAD). -/
def c4DeadUnit : Unit :=
  { id := 0, starLevel := 1, maxHp := 50, baseAttack := 5, currentHp := 0,
    pos := some (3, 3), state := UState.dead, ownerId := Owner.player }

/-! ## Bridge lemmas: `Frac` versus rational arithmetic -/

theorem Frac.toRat_ofN (n : ℕ) : (Frac.ofN n).toRat = (n : ℚ) := by
  simp [Frac.ofN, Frac.toRat]

theorem Frac.toRat_ofInt (n : ℤ) : (Frac.ofInt n).toRat = (n : ℚ) := by
  simp [Frac.ofInt, Frac.toRat]

theorem Frac.toRat_ofNat (n : ℕ) : (OfNat.ofNat n : Frac).toRat = (n : ℚ) := by
  show Frac.toRat ⟨(n : ℤ), 1⟩ = _
  simp [Frac.toRat]

theorem Frac.toRat_mul (a b : Frac) : (a * b).toRat = a.toRat * b.toRat := by
  show (Frac.mul a b).toRat = _
  unfold Frac.mul Frac.toRat
  push_cast
  rw [div_mul_div_comm]

theorem Frac.toRat_add (a b : Frac) (ha : 0 < a.den) (hb : 0 < b.den) :
    (a + b).toRat = a.toRat + b.toRat := by
  show (Frac.add a b).toRat = _
  unfold Frac.add Frac.toRat
  have ha' : (a.den : ℚ) ≠ 0 := by positivity
  have hb' : (b.den : ℚ) ≠ 0 := by positivity
  push_cast
  field_simp

theorem Frac.toRat_sub (a b : Frac) (ha : 0 < a.den) (hb : 0 < b.den) :
    (a - b).toRat = a.toRat - b.toRat := by
  show (Frac.sub a b).toRat = _
  unfold Frac.sub Frac.toRat
  have ha' : (a.den : ℚ) ≠ 0 := by positivity
  have hb' : (b.den : ℚ) ≠ 0 := by positivity
  push_cast
  field_simp
  ring

theorem Frac.toRat_inv (a : Frac) : a.inv.toRat = a.toRat⁻¹ := by
  unfold Frac.inv Frac.toRat
  by_cases h0 : 0 ≤ a.num
  · rw [if_pos h0]
    have hc : ((a.num.toNat : ℕ) : ℚ) = (a.num : ℚ) := by
      exact_mod_cast Int.toNat_of_nonneg h0
    simp only [inv_div, hc]
    push_cast
    rfl
  · rw [if_neg h0]
    push_neg at h0
    have : ((-a.num).toNat : ℤ) = -a.num := Int.toNat_of_nonneg (by omega)
    have hc : (((-a.num).toNat : ℕ) : ℚ) = -(a.num : ℚ) := by
      exact_mod_cast congrArg (fun z : ℤ => (z : ℚ)) this
    simp only [inv_div, hc]
    push_cast
    rw [div_neg, neg_div, neg_neg]

theorem Frac.toRat_div (a b : Frac) : (a / b).toRat = a.toRat / b.toRat := by
  show (a.mul b.inv).toRat = _
  have : (a.mul b.inv).toRat = a.toRat * b.inv.toRat := Frac.toRat_mul a b.inv
  rw [this, Frac.toRat_inv b, div_eq_mul_inv]

theorem Frac.floorF_toRat (a : Frac) : a.floorF = ⌊a.toRat⌋ := by
  unfold Frac.floorF Frac.toRat
  rcases Nat.eq_zero_or_pos a.den with h | h
  · rw [h]
    push_cast
    rw [Int.fdiv_zero, div_zero]
    simp
  · rw [Int.fdiv_eq_ediv _ (by positivity), ← Rat.floor_intCast_div_natCast]

theorem Frac.ble_iff (a b : Frac) (ha : 0 < a.den) (hb : 0 < b.den) :
    a.ble b = true ↔ a.toRat ≤ b.toRat := by
  unfold Frac.ble Frac.toRat
  rw [decide_eq_true_iff]
  rw [div_le_div_iff₀ (by positivity) (by positivity)]
  exact_mod_cast Iff.rfl

theorem Frac.toRat_maxF (a b : Frac) (ha : 0 < a.den) (hb : 0 < b.den) :
    (Frac.maxF a b).toRat = max a.toRat b.toRat := by
  unfold Frac.maxF
  by_cases h : a.ble b = true
  · rw [if_pos h, max_eq_right ((Frac.ble_iff a b ha hb).1 h)]
  · rw [if_neg h]
    have : ¬ a.toRat ≤ b.toRat := fun hc => h ((Frac.ble_iff a b ha hb).2 hc)
    rw [max_eq_left (le_of_not_le this)]

theorem Frac.den_mul (a b : Frac) : (a * b).den = a.den * b.den := rfl

theorem Frac.den_add (a b : Frac) : (a + b).den = a.den * b.den := rfl

theorem Frac.den_sub (a b : Frac) : (a - b).den = a.den * b.den := rfl

theorem Frac.num_add (a b : Frac) : (a + b).num = a.num * b.den + b.num * a.den := rfl

theorem Frac.den_inv (a : Frac) : a.inv.den = a.num.natAbs := by
  unfold Frac.inv
  split <;> simp only [] <;> omega

theorem Frac.den_div (a b : Frac) : (a / b).den = a.den * b.num.natAbs := by
  show (a.mul b.inv).den = _
  show a.den * b.inv.den = _
  rw [Frac.den_inv]

/-- Evaluation of the armor/magic-resist mitigation expression: the
`Frac` floor the code computes is the claim's
`floor(amount × (1 − d/(d+100)))` in exact rational arithmetic. -/
theorem mitigationFloor (amount d : ℕ) :
    (Frac.ofN amount * ((1 : Frac) - Frac.ofN d / (Frac.ofN d + 100))).floorF
      = ⌊(amount : ℚ) * (1 - (d : ℚ) / ((d : ℚ) + 100))⌋ := by
  rw [Frac.floorF_toRat]
  congr 1
  have hden : 0 < (Frac.ofN d / (Frac.ofN d + 100)).den := by
    rw [Frac.den_div, Frac.num_add]
    show 0 < 1 * ((d : ℤ) * 1 + 100 * 1).natAbs
    omega
  rw [Frac.toRat_mul, Frac.toRat_ofN, Frac.toRat_sub _ _ Nat.one_pos hden, Frac.toRat_div,
    Frac.toRat_add _ _ Nat.one_pos Nat.one_pos, Frac.toRat_ofN, Frac.toRat_ofNat,
    Frac.toRat_ofNat]
  push_cast
  ring

/-- Evaluation of the `damageReduction` step. -/
theorem reductionFloor (m : ℤ) (dr : ℕ) :
    (Frac.ofInt m * ((1 : Frac) - Frac.ofN dr / (100 : Frac))).floorF
      = ⌊(m : ℚ) * (1 - (dr : ℚ) / 100)⌋ := by
  rw [Frac.floorF_toRat]
  congr 1
  have hden : 0 < (Frac.ofN dr / (100 : Frac)).den := by
    rw [Frac.den_div]
    show 0 < 1 * (100 : ℤ).natAbs
    omega
  rw [Frac.toRat_mul, Frac.toRat_ofInt, Frac.toRat_sub _ _ Nat.one_pos hden, Frac.toRat_div,
    Frac.toRat_ofN, Frac.toRat_ofNat, Frac.toRat_ofNat]
  push_cast
  ring

/-- `gainMana` never changes HP. -/
theorem gainMana_currentHp (u : Unit) (a : ℕ) : (u.gainMana a).currentHp = u.currentHp := by
  unfold Unit.gainMana
  split <;> rfl

/-- The damage component of `takeDamage` on a living unit, by definition. -/
theorem takeDamage_fst (u : Unit) (amount : ℕ) (ty : DamageType) (h : u.alive = true) :
    (u.takeDamage amount ty).1 = codeDamage u amount ty := by
  unfold Unit.takeDamage
  rw [if_neg (by simp [h])]

/-- `takeDamage` always lowers `currentHp` by exactly the damage it
returns (truncated subtraction: the source clamps at 0). -/
theorem takeDamage_snd_hp (u : Unit) (amount : ℕ) (ty : DamageType) :
    (u.takeDamage amount ty).2.currentHp = u.currentHp - (u.takeDamage amount ty).1 := by
  unfold Unit.takeDamage
  split
  · rfl
  · simp only []
    split
    · next h0 =>
      rw [gainMana_currentHp] at h0
      show (Unit.die _).currentHp = _
      unfold Unit.die
      simp only [] at h0 ⊢
      omega
    · rw [gainMana_currentHp]

/-- **C2 (amended).**  For every living combatant, `takeDamage(amount,
type)` returns
`max 1 (floor(floor(amount × (1 − d/(d+100))) × (1 − damageReduction/100)))`
— the specification's two-stage mitigation with the minimum-1 floor
applied **unconditionally**, also when the pre-mitigation amount is 0 —
where `d` is the effective armor for physical and the effective magic
resist for magic damage; and `currentHp` decreases by the returned value,
clamped at 0 (the truncated subtraction on `ℕ`). -/
theorem c2_takeDamage_mitigation (u : Unit) (amount : ℕ) (ty : DamageType)
    (h : u.alive = true) :
    ((u.takeDamage amount ty).1 : ℤ)
        = specMitigation amount
            (match ty with
             | DamageType.physical => u.effectiveArmor
             | DamageType.magic => u.effectiveMagicResist)
            u.buffs.damageReduction
      ∧ (u.takeDamage amount ty).2.currentHp = u.currentHp - (u.takeDamage amount ty).1 := by
  refine ⟨?_, takeDamage_snd_hp u amount ty⟩
  rw [takeDamage_fst u amount ty h]
  unfold codeDamage
  simp only []
  set d : ℕ := (match ty with
    | DamageType.physical => u.effectiveArmor
    | DamageType.magic => u.effectiveMagicResist) with hd
  set m : ℤ := (Frac.ofN amount * ((1 : Frac) - Frac.ofN d / (Frac.ofN d + 100))).floorF with hm
  have hm' : m = ⌊(amount : ℚ) * (1 - (d : ℚ) / ((d : ℚ) + 100))⌋ := mitigationFloor amount d
  have hred' : (if 0 < u.buffs.damageReduction then
        (Frac.ofInt m * ((1 : Frac) - Frac.ofN u.buffs.damageReduction / 100)).floorF
      else m) = ⌊(m : ℚ) * (1 - (u.buffs.damageReduction : ℚ) / 100)⌋ := by
    split
    · exact reductionFloor m u.buffs.damageReduction
    · next hdr =>
      have h0 : u.buffs.damageReduction = 0 := by omega
      rw [h0]
      push_cast
      simp
  rw [hred', specMitigation, ← hm', Int.toNat_of_nonneg (by omega)]

/-- **C2 (counterexample).**  The claim says an amount of 0 deals 0
damage; but the source applies `Math.max(1, actualDamage)`
unconditionally, so a living unit hit with `takeDamage(0, 'physical')`
still takes 1 damage and loses 1 HP. -/
theorem c2_zero_amount_counterexample :
    (wPlain.takeDamage 0 DamageType.physical).1 = 1
      ∧ ¬ (wPlain.takeDamage 0 DamageType.physical).1 = 0
      ∧ (wPlain.takeDamage 0 DamageType.physical).2.currentHp = wPlain.currentHp - 1 := by
  decide

/-- Witness for `c2_takeDamage_mitigation` at a concrete living unit. -/
theorem c2_takeDamage_mitigation_witness :
    wPlain.alive = true
      ∧ (((wPlain.takeDamage 30 DamageType.physical).1 : ℤ)
            = specMitigation 30 wPlain.effectiveArmor wPlain.buffs.damageReduction
          ∧ (wPlain.takeDamage 30 DamageType.physical).2.currentHp
            = wPlain.currentHp - (wPlain.takeDamage 30 DamageType.physical).1) :=
  ⟨by decide, c2_takeDamage_mitigation wPlain 30 DamageType.physical (by decide)⟩

/-- **C1.**  When the combat engine resolves an attack whose attacker
cannot crit (crit chance 0 — a "normal attack"), the base physical damage
handed to the defender's `takeDamage` is exactly the attacker's effective
attack, and the effective attack is `baseAttack + attackBonus`
(`Unit.attack` getter). -/
theorem c1_attack_base_damage (o : ℕ → ℕ) (bf : Battlefield) (aId dId : ℕ) (atk dfd : Unit)
    (ha : getUnit bf aId = some atk) (hd : getUnit bf dId = some dfd)
    (hact : atk.canAct = true) (halive : dfd.alive = true)
    (hcrit : atk.buffs.critChance = 0) :
    Combat.attack o bf aId dId = attackResolve bf aId dId (atk.baseAttack + atk.buffs.attackBonus)
      ∧ atk.attack = atk.baseAttack + atk.buffs.attackBonus := by
  constructor
  · unfold Combat.attack
    rw [ha, hd]
    simp only [hact, halive]
    rw [if_neg (by simp)]
    rw [hcrit]
    rw [if_neg (lt_irrefl 0)]
    rfl
  · rfl

/-- Witness for `c1_attack_base_damage` on a concrete battlefield. -/
theorem c1_attack_base_damage_witness :
    (getUnit wBf1 99 = some wAttacker
        ∧ getUnit wBf1 98 = some { wVictim with ownerId := Owner.enemy }
        ∧ wAttacker.canAct = true
        ∧ ({ wVictim with ownerId := Owner.enemy } : Unit).alive = true
        ∧ wAttacker.buffs.critChance = 0)
      ∧ (Combat.attack (fun _ => 3) wBf1 99 98
          = attackResolve wBf1 99 98 (wAttacker.baseAttack + wAttacker.buffs.attackBonus)
        ∧ wAttacker.attack = wAttacker.baseAttack + wAttacker.buffs.attackBonus) :=
  ⟨by decide,
   c1_attack_base_damage (fun _ => 3) wBf1 99 98 wAttacker
     { wVictim with ownerId := Owner.enemy }
     (by decide) (by decide) (by decide) (by decide) (by decide)⟩

/-- **C10.**  On a living combatant, `applyStun` sets the remaining stun
duration to the maximum of the current and the new duration, and
`applySlow` sets both the slow fraction and its remaining duration to the
maximum of current and new — repeated crowd control never stacks
additively and never shortens an effect already in progress.  On a dead
combatant both are no-ops. -/
theorem c10_crowd_control_max (u : Unit) (d a d2 : Frac)
    (hd : 0 < d.den) (ha : 0 < a.den) (hd2 : 0 < d2.den)
    (hsd : 0 < u.statusEffects.stunDuration.den)
    (hsa : 0 < u.statusEffects.slowAmount.den)
    (hsd2 : 0 < u.statusEffects.slowDuration.den) :
    (u.alive = true →
        (u.applyStun d).statusEffects.stunned = true
      ∧ (u.applyStun d).statusEffects.stunDuration.toRat
          = max u.statusEffects.stunDuration.toRat d.toRat
      ∧ (u.applySlow a d2).statusEffects.slowed = true
      ∧ (u.applySlow a d2).statusEffects.slowAmount.toRat
          = max u.statusEffects.slowAmount.toRat a.toRat
      ∧ (u.applySlow a d2).statusEffects.slowDuration.toRat
          = max u.statusEffects.slowDuration.toRat d2.toRat)
    ∧ (u.alive = false → u.applyStun d = u ∧ u.applySlow a d2 = u) := by
  constructor
  · intro hl
    unfold Unit.applyStun Unit.applySlow
    rw [if_neg (by simp [hl]), if_neg (by simp [hl])]
    refine ⟨rfl, ?_, rfl, ?_, ?_⟩
    · exact Frac.toRat_maxF _ _ hsd hd
    · exact Frac.toRat_maxF _ _ hsa ha
    · exact Frac.toRat_maxF _ _ hsd2 hd2
  · intro hl
    unfold Unit.applyStun Unit.applySlow
    rw [if_pos (by simp [hl]), if_pos (by simp [hl])]
    exact ⟨rfl, rfl⟩

/-- Witness for `c10_crowd_control_max` on a living unit and on a dead
one would need two instantiations; the living one discharges every
hypothesis. -/
theorem c10_crowd_control_max_witness :
    ((0 : ℕ) < (Frac.ofN 2).den ∧ wPlain.alive = true)
      ∧ ((wPlain.applyStun (Frac.ofN 2)).statusEffects.stunned = true
        ∧ (wPlain.applyStun (Frac.ofN 2)).statusEffects.stunDuration.toRat
            = max wPlain.statusEffects.stunDuration.toRat (Frac.ofN 2).toRat
        ∧ (wPlain.applySlow ((3 : Frac) / 10) (Frac.ofN 2)).statusEffects.slowed = true
        ∧ (wPlain.applySlow ((3 : Frac) / 10) (Frac.ofN 2)).statusEffects.slowAmount.toRat
            = max wPlain.statusEffects.slowAmount.toRat ((3 : Frac) / 10).toRat
        ∧ (wPlain.applySlow ((3 : Frac) / 10) (Frac.ofN 2)).statusEffects.slowDuration.toRat
            = max wPlain.statusEffects.slowDuration.toRat (Frac.ofN 2).toRat) :=
  ⟨⟨by decide, by decide⟩,
   (c10_crowd_control_max wPlain (Frac.ofN 2) ((3 : Frac) / 10) (Frac.ofN 2)
     (by decide) (by decide) (by decide) (by decide) (by decide) (by decide)).1 (by decide)⟩



/-! ## C6: the combat-start trait count -/

/-- Behaviour of the per-unit inner loop of `countTraits`: walking one
unit's trait list bumps the accumulator exactly once for the counted
trait if the unit carries it and its pair is not in the counted set yet,
and every pair added to the set belongs to this unit. -/
theorem countTraits_inner (uid : ℕ) (t : String) (ts : List String) :
    ∀ (c : ℕ) (acc : List (ℕ × String)),
      (((uid, t) ∉ acc →
          (ts.foldl (countStep uid t) (c, acc)).1 = c + (if t ∈ ts then 1 else 0))
        ∧ ((uid, t) ∈ acc → (ts.foldl (countStep uid t) (c, acc)).1 = c))
      ∧ ∀ p ∈ (ts.foldl (countStep uid t) (c, acc)).2, p ∈ acc ∨ p.1 = uid := by
  induction ts with
  | nil =>
    intro c acc
    refine ⟨⟨fun _ => by simp, fun _ => rfl⟩, fun p hp => Or.inl hp⟩
  | cons s ts ih =>
    intro c acc
    rw [List.foldl_cons]
    by_cases hst : s = t
    · subst hst
      by_cases hmem : ((uid, s) : ℕ × String) ∈ acc
      · have hstep : countStep uid s (c, acc) s = (c, acc) := by
          unfold countStep
          rw [if_pos rfl, if_pos hmem]
        rw [hstep]
        refine ⟨⟨fun hno => absurd hmem hno, fun _ => (ih c acc).1.2 hmem⟩, (ih c acc).2⟩
      · have hstep : countStep uid s (c, acc) s = (c + 1, (uid, s) :: acc) := by
          unfold countStep
          rw [if_pos rfl, if_neg hmem]
        rw [hstep]
        have hin : ((uid, s) : ℕ × String) ∈ (uid, s) :: acc := List.mem_cons_self _ _
        refine ⟨⟨fun _ => ?_, fun hyes => absurd hyes hmem⟩, fun p hp => ?_⟩
        · rw [(ih (c + 1) ((uid, s) :: acc)).1.2 hin]
          simp
        · rcases (ih (c + 1) ((uid, s) :: acc)).2 p hp with h | h
          · rcases List.mem_cons.1 h with h' | h'
            · exact Or.inr (by rw [h'])
            · exact Or.inl h'
          · exact Or.inr h
    · by_cases hmem : ((uid, s) : ℕ × String) ∈ acc
      · have hstep : countStep uid t (c, acc) s = (c, acc) := by
          unfold countStep
          rw [if_neg hst, if_pos hmem]
        rw [hstep]
        refine ⟨⟨fun hno => ?_, fun hyes => (ih c acc).1.2 hyes⟩, (ih c acc).2⟩
        rw [(ih c acc).1.1 hno]
        have : (t ∈ s :: ts) ↔ (t ∈ ts) := by
          simp only [List.mem_cons]
          constructor
          · rintro (h | h)
            · exact absurd h.symm hst
            · exact h
          · exact Or.inr
        rw [if_congr this rfl rfl]
      · have hstep : countStep uid t (c, acc) s = (c, (uid, s) :: acc) := by
          unfold countStep
          rw [if_neg hst, if_neg hmem]
        rw [hstep]
        have hnotpair : ((uid, t) : ℕ × String) ∉ acc → ((uid, t) : ℕ × String) ∉ (uid, s) :: acc := by
          intro h hx
          rcases List.mem_cons.1 hx with h' | h'
          · exact hst (congrArg Prod.snd h').symm
          · exact h h'
        refine ⟨⟨fun hno => ?_, fun hyes => ?_⟩, fun p hp => ?_⟩
        · rw [(ih c ((uid, s) :: acc)).1.1 (hnotpair hno)]
          have : (t ∈ s :: ts) ↔ (t ∈ ts) := by
            simp only [List.mem_cons]
            constructor
            · rintro (h | h)
              · exact absurd h.symm hst
              · exact h
            · exact Or.inr
          rw [if_congr this rfl rfl]
        · rw [(ih c ((uid, s) :: acc)).1.2 (List.mem_cons_of_mem _ hyes)]
        · rcases (ih c ((uid, s) :: acc)).2 p hp with h | h
          · rcases List.mem_cons.1 h with h' | h'
            · exact Or.inr (by rw [h'])
            · exact Or.inl h'
          · exact Or.inr h

/-- `countTraits` counts, for a trait `t`, exactly the living units
carrying `t`, provided the unit ids are pairwise distinct (as the combat
start guarantees) and no processed pair is pre-counted. -/
theorem countTraitsFrom_spec (t : String) :
    ∀ (units : List Unit) (counted : List (ℕ × String)),
      (units.map Unit.id).Nodup →
      (∀ u ∈ units, ∀ s, ((u.id, s) : ℕ × String) ∉ counted) →
      countTraitsFrom t units counted
        = (units.filter (fun u => u.alive && decide (t ∈ u.traits))).length := by
  intro units
  induction units with
  | nil => intro counted _ _; rfl
  | cons u rest ih =>
    intro counted hids hdisj
    have hids' : (rest.map Unit.id).Nodup := (List.nodup_cons.1 hids).2
    have hhead : u.id ∉ rest.map Unit.id := (List.nodup_cons.1 hids).1
    unfold countTraitsFrom
    by_cases hal : u.alive = true
    · rw [if_neg (by simp [hal])]
      simp only []
      have hinner := countTraits_inner u.id t u.traits 0 counted
      have hstep1 := hinner.1.1 (hdisj u (List.mem_cons_self u rest) t)
      rw [hstep1]
      have hrest : countTraitsFrom t rest
          (u.traits.foldl (countStep u.id t) ((0 : ℕ), counted)).2
          = (rest.filter (fun u => u.alive && decide (t ∈ u.traits))).length := by
        refine ih _ hids' ?_
        intro v hv s hvs
        rcases hinner.2 (v.id, s) hvs with h | h
        · exact hdisj v (List.mem_cons_of_mem _ hv) s h
        · exact hhead (h ▸ List.mem_map_of_mem Unit.id hv)
      rw [hrest, List.filter_cons]
      by_cases hmem : t ∈ u.traits
      · rw [if_pos hmem]
        rw [if_pos (show (u.alive && decide (t ∈ u.traits)) = true by simp [hal, hmem])]
        simp only [List.length_cons]
        omega
      · rw [if_neg hmem]
        rw [if_neg (show ¬ (u.alive && decide (t ∈ u.traits)) = true by simp [hmem])]
        omega
    · rw [if_pos (by simp [hal])]
      rw [ih counted hids' (fun v hv => hdisj v (List.mem_cons_of_mem _ hv))]
      rw [List.filter_cons, if_neg (by simp [hal])]

/-- **C6 (amended).**  The trait count the combat start computes
(`Combat.countTraits`) counts, per trait, exactly the **living** units
carrying it — board position is *not* consulted, unlike the claim's
"living, on-board"; each unit contributes at most once per trait (two
distinct board units of the same template still count as 2 since their
ids differ). -/
theorem c6_countTraits_living (units : List Unit) (t : String)
    (hids : (units.map Unit.id).Nodup) :
    countTraits units t
      = (units.filter (fun u => u.alive && decide (t ∈ u.traits))).length :=
  countTraitsFrom_spec t units [] hids (by intro u _ s h; exact (List.not_mem_nil _ h))

/-- **C6 (counterexample).**  A living warrior standing off the board
(`x = y = null`) is still counted by `Combat.countTraits` — the claim's
"only living, on-board combatants count" fails on the combat-start
counter, which checks `isAlive` but not `isOnBoard`. -/
theorem c6_offboard_counterexample :
    wOffBoard.alive = true ∧ wOffBoard.onBoard = false
      ∧ countTraits [wOffBoard] "warrior" = 1 := by
  decide

/-- Witness for `c6_countTraits_living`: two distinct living warriors
(one off-board) both count. -/
theorem c6_countTraits_living_witness :
    ((List.map Unit.id [wOffBoard, { wPlain with traits := ["warrior"] }]).Nodup)
      ∧ countTraits [wOffBoard, { wPlain with traits := ["warrior"] }] "warrior"
        = (List.filter (fun u => u.alive && decide ("warrior" ∈ u.traits))
            [wOffBoard, { wPlain with traits := ["warrior"] }]).length :=
  ⟨by decide,
   c6_countTraits_living [wOffBoard, { wPlain with traits := ["warrior"] }] "warrior" (by decide)⟩

/-! ## The combat-start unit list -/

theorem TRel_refl (u : Unit) : TRel u u :=
  ⟨rfl, rfl, rfl, rfl, rfl, rfl, rfl, rfl, rfl, rfl⟩

theorem TRel.trans {a b c : Unit} (h1 : TRel a b) (h2 : TRel b c) : TRel a c := by
  obtain ⟨e1, e2, e3, e4, e5, e6, e7, e8, e9, e10⟩ := h1
  obtain ⟨f1, f2, f3, f4, f5, f6, f7, f8, f9, f10⟩ := h2
  exact ⟨f1.trans e1, f2.trans e2, f3.trans e3, f4.trans e4, f5.trans e5,
    f6.trans e6, f7.trans e7, f8.trans e8, f9.trans e9, f10.trans e10⟩

theorem forall₂_TRel_refl (l : List Unit) : List.Forall₂ TRel l l := by
  induction l with
  | nil => exact List.Forall₂.nil
  | cons u rest ih => exact List.Forall₂.cons (TRel_refl u) ih

theorem forall₂_TRel_trans :
    ∀ {a b c : List Unit}, List.Forall₂ TRel a b → List.Forall₂ TRel b c →
      List.Forall₂ TRel a c := by
  intro a b c h1 h2
  induction h2 generalizing a with
  | nil => cases h1; exact List.Forall₂.nil
  | cons hbc _ ih =>
    cases h1 with
    | cons hab htl => exact List.Forall₂.cons (hab.trans hbc) (ih htl)

theorem forall₂_TRel_map (l : List Unit) (g : Unit → Unit) (h : ∀ u, TRel u (g u)) :
    List.Forall₂ TRel l (l.map g) := by
  induction l with
  | nil => exact List.Forall₂.nil
  | cons u rest ih => exact List.Forall₂.cons (h u) ih

theorem forall₂_mem_right {R : Unit → Unit → Prop} :
    ∀ {l1 l2 : List Unit}, List.Forall₂ R l1 l2 → ∀ y ∈ l2, ∃ x ∈ l1, R x y := by
  intro l1 l2 h
  induction h with
  | nil => intro y hy; exact absurd hy (List.not_mem_nil y)
  | cons hr _ ih =>
    intro y hy
    rcases List.mem_cons.1 hy with h' | h'
    · exact ⟨_, List.mem_cons_self _ _, h' ▸ hr⟩
    · obtain ⟨x, hx, hxy⟩ := ih y h'
      exact ⟨x, List.mem_cons_of_mem _ hx, hxy⟩

theorem forall₂_mem_left {R : Unit → Unit → Prop} :
    ∀ {l1 l2 : List Unit}, List.Forall₂ R l1 l2 → ∀ x ∈ l1, ∃ y ∈ l2, R x y := by
  intro l1 l2 h
  induction h with
  | nil => intro x hx; exact absurd hx (List.not_mem_nil x)
  | cons hr _ ih =>
    intro x hx
    rcases List.mem_cons.1 hx with h' | h'
    · exact ⟨_, List.mem_cons_self _ _, h' ▸ hr⟩
    · obtain ⟨y, hy, hxy⟩ := ih x h'
      exact ⟨y, List.mem_cons_of_mem _ hy, hxy⟩

theorem TRel_applyBonus (u : Unit) (b : TraitBonus) : TRel u (applyBonusToUnit u b) :=
  ⟨rfl, rfl, rfl, rfl, rfl, rfl, rfl, rfl, rfl, rfl⟩

theorem foldl_forall₂ {α : Type} (step : List Unit → α → List Unit)
    (hstep : ∀ acc x, List.Forall₂ TRel acc (step acc x)) :
    ∀ (l : List α) (acc0 acc : List Unit), List.Forall₂ TRel acc0 acc →
      List.Forall₂ TRel acc0 (l.foldl step acc) := by
  intro l
  induction l with
  | nil => intro acc0 acc h; exact h
  | cons x xs ih =>
    intro acc0 acc h
    exact ih acc0 (step acc x) (forall₂_TRel_trans h (hstep acc x))

/-- Trait-bonus application relates every output unit to the
buff-reset form of the corresponding input unit, touching only buffs and
range. -/
theorem applyTraitBonusesList_rel (us : List Unit) :
    List.Forall₂ TRel (us.map Unit.resetBuffs) (applyTraitBonusesList us) := by
  unfold applyTraitBonusesList
  refine foldl_forall₂ _ ?_ _ _ _ (forall₂_TRel_refl _)
  intro acc t
  cases getTraitBonus t (countTraits (us.map Unit.resetBuffs) t) with
  | none => exact forall₂_TRel_refl acc
  | some p =>
    refine forall₂_TRel_map acc _ ?_
    intro u
    by_cases hc : t ∈ u.traits ∧ u.alive = true
    · rw [if_pos hc]; exact TRel_applyBonus u p.2
    · rw [if_neg hc]; exact TRel_refl u

theorem cloneAll_mem_right (owner : Owner) :
    ∀ (k : ℕ) (ps : List Unit), ∀ w ∈ cloneAll owner k ps,
      ∃ u ∈ ps, ∃ j, w = combatClone owner j u := by
  intro k ps
  induction ps generalizing k with
  | nil => intro w hw; exact absurd hw (List.not_mem_nil w)
  | cons u rest ih =>
    intro w hw
    rcases List.mem_cons.1 hw with h | h
    · exact ⟨u, List.mem_cons_self _ _, k, h⟩
    · obtain ⟨v, hv, j, hj⟩ := ih (k + 1) w h
      exact ⟨v, List.mem_cons_of_mem _ hv, j, hj⟩

theorem cloneAll_mem_left (owner : Owner) :
    ∀ (k : ℕ) (ps : List Unit), ∀ u ∈ ps,
      ∃ j, combatClone owner j u ∈ cloneAll owner k ps := by
  intro k ps
  induction ps generalizing k with
  | nil => intro u hu; exact absurd hu (List.not_mem_nil u)
  | cons v rest ih =>
    intro u hu
    rcases List.mem_cons.1 hu with h | h
    · exact ⟨k, by rw [h]; exact List.mem_cons_self _ _⟩
    · obtain ⟨j, hj⟩ := ih (k + 1) u h
      exact ⟨j, List.mem_cons_of_mem _ hj⟩

/-- Shape of every unit on a freshly started battlefield: it differs only
in buffs and range from the reset clone of an input unit. -/
theorem startUnits_mem (ps es : List Unit) :
    ∀ w ∈ startUnits ps es,
      (∃ u ∈ ps, ∃ j, TRel ((combatClone Owner.player j u).resetForCombat.resetBuffs) w)
      ∨ (∃ u ∈ es, ∃ j, TRel ((combatClone Owner.enemy j u).resetForCombat.resetBuffs) w) := by
  intro w hw
  rcases List.mem_append.1 hw with h | h
  · left
    obtain ⟨v, hv, hrel⟩ := forall₂_mem_right (applyTraitBonusesList_rel _) w h
    rw [List.map_map] at hv
    obtain ⟨c, hc, hceq⟩ := List.mem_map.1 hv
    obtain ⟨u, hu, j, hj⟩ := cloneAll_mem_right Owner.player 0 ps c hc
    refine ⟨u, hu, j, ?_⟩
    rw [← hj]
    show TRel ((Unit.resetBuffs ∘ Unit.resetForCombat) c) w
    rw [← hceq] at hrel
    exact hrel
  · right
    obtain ⟨v, hv, hrel⟩ := forall₂_mem_right (applyTraitBonusesList_rel _) w h
    rw [List.map_map] at hv
    obtain ⟨c, hc, hceq⟩ := List.mem_map.1 hv
    obtain ⟨u, hu, j, hj⟩ := cloneAll_mem_right Owner.enemy ps.length es c hc
    refine ⟨u, hu, j, ?_⟩
    rw [← hj]
    show TRel ((Unit.resetBuffs ∘ Unit.resetForCombat) c) w
    rw [← hceq] at hrel
    exact hrel

/-- Every input unit has a representative on the started battlefield. -/
theorem startUnits_mem_of_input (ps es : List Unit) :
    (∀ u ∈ ps, ∃ j w, w ∈ startUnits ps es
        ∧ TRel ((combatClone Owner.player j u).resetForCombat.resetBuffs) w)
    ∧ (∀ u ∈ es, ∃ j w, w ∈ startUnits ps es
        ∧ TRel ((combatClone Owner.enemy j u).resetForCombat.resetBuffs) w) := by
  constructor
  · intro u hu
    obtain ⟨j, hj⟩ := cloneAll_mem_left Owner.player 0 ps u hu
    have hmem : ((combatClone Owner.player j u).resetForCombat.resetBuffs)
        ∈ ((cloneAll Owner.player 0 ps).map Unit.resetForCombat).map Unit.resetBuffs := by
      rw [List.map_map]
      exact List.mem_map.2 ⟨_, hj, rfl⟩
    obtain ⟨w, hw, hrel⟩ := forall₂_mem_left (applyTraitBonusesList_rel _) _ hmem
    exact ⟨j, w, List.mem_append.2 (Or.inl hw), hrel⟩
  · intro u hu
    obtain ⟨j, hj⟩ := cloneAll_mem_left Owner.enemy ps.length es u hu
    have hmem : ((combatClone Owner.enemy j u).resetForCombat.resetBuffs)
        ∈ ((cloneAll Owner.enemy ps.length es).map Unit.resetForCombat).map Unit.resetBuffs := by
      rw [List.map_map]
      exact List.mem_map.2 ⟨_, hj, rfl⟩
    obtain ⟨w, hw, hrel⟩ := forall₂_mem_left (applyTraitBonusesList_rel _) _ hmem
    exact ⟨j, w, List.mem_append.2 (Or.inr hw), hrel⟩

/-! ## C5: empty-roster auto-resolution -/

/-- Field values of a reset, buff-reset clone of an input unit. -/
theorem resetCloneFields (owner : Owner) (j : ℕ) (u : Unit) :
    ((combatClone owner j u).resetForCombat.resetBuffs).ownerId = owner
    ∧ ((combatClone owner j u).resetForCombat.resetBuffs).currentHp = u.maxHp + u.buffs.hpBonus
    ∧ ((combatClone owner j u).resetForCombat.resetBuffs).state = UState.idle
    ∧ ((combatClone owner j u).resetForCombat.resetBuffs).target = none
    ∧ ((combatClone owner j u).resetForCombat.resetBuffs).currentMana = 0
    ∧ ((combatClone owner j u).resetForCombat.resetBuffs).maxHp = u.maxHp
    ∧ ((combatClone owner j u).resetForCombat.resetBuffs).maxMana = MAX_MANA
    ∧ ((combatClone owner j u).resetForCombat.resetBuffs).id = j :=
  ⟨rfl, rfl, rfl, rfl, rfl, rfl, rfl, rfl⟩

theorem startBf_units (ps es : List Unit) : (startBf ps es).units = startUnits ps es := rfl

/-- With an empty enemy roster every started unit belongs to the player
side, so the enemy side is empty. -/
theorem aliveSide_enemy_nil (ps : List Unit) :
    aliveSide (startBf ps []) Owner.enemy = [] := by
  unfold aliveSide sideUnits
  rw [startBf_units]
  have hnone : List.filter (fun u => u.ownerId == Owner.enemy) (startUnits ps []) = [] := by
    rw [List.filter_eq_nil]
    intro w hw
    rcases startUnits_mem ps [] w hw with ⟨u, _, j, hrel⟩ | ⟨u, hu, _⟩
    · have howner : w.ownerId = Owner.player := by
        rw [hrel.2.1, (resetCloneFields Owner.player j u).1]
      simp [howner]
    · exact absurd hu (List.not_mem_nil u)
  rw [hnone]
  rfl

/-- With an empty player roster the player side is empty. -/
theorem aliveSide_player_nil (es : List Unit) :
    aliveSide (startBf [] es) Owner.player = [] := by
  unfold aliveSide sideUnits
  rw [startBf_units]
  have hnone : List.filter (fun u => u.ownerId == Owner.player) (startUnits [] es) = [] := by
    rw [List.filter_eq_nil]
    intro w hw
    rcases startUnits_mem [] es w hw with ⟨u, hu, _⟩ | ⟨u, _, j, hrel⟩
    · exact absurd hu (List.not_mem_nil u)
    · have howner : w.ownerId = Owner.enemy := by
        rw [hrel.2.1, (resetCloneFields Owner.enemy j u).1]
      simp [howner]
  rw [hnone]
  rfl

/-- An input unit with positive max HP yields a living started unit on
its side. -/
theorem aliveSide_start_ne_nil (ps es : List Unit) (w0 : Owner)
    (hex : match w0 with
      | Owner.player => ∃ u ∈ ps, 0 < u.maxHp
      | Owner.enemy => ∃ u ∈ es, 0 < u.maxHp) :
    aliveSide (startBf ps es) w0 ≠ [] := by
  have hkey : ∃ w ∈ startUnits ps es, w.ownerId = w0 ∧ w.alive = true := by
    cases w0 with
    | player =>
      obtain ⟨u, hu, hhp⟩ := hex
      obtain ⟨j, w, hw, hrel⟩ := (startUnits_mem_of_input ps es).1 u hu
      refine ⟨w, hw, ?_, ?_⟩
      · rw [hrel.2.1, (resetCloneFields Owner.player j u).1]
      · have h1 : w.currentHp = u.maxHp + u.buffs.hpBonus := by
          rw [hrel.2.2.1, (resetCloneFields Owner.player j u).2.1]
        have h2 : w.state = UState.idle := by
          rw [hrel.2.2.2.1, (resetCloneFields Owner.player j u).2.2.1]
        unfold Unit.alive
        rw [h1, h2]
        simp
        omega
    | enemy =>
      obtain ⟨u, hu, hhp⟩ := hex
      obtain ⟨j, w, hw, hrel⟩ := (startUnits_mem_of_input ps es).2 u hu
      refine ⟨w, hw, ?_, ?_⟩
      · rw [hrel.2.1, (resetCloneFields Owner.enemy j u).1]
      · have h1 : w.currentHp = u.maxHp + u.buffs.hpBonus := by
          rw [hrel.2.2.1, (resetCloneFields Owner.enemy j u).2.1]
        have h2 : w.state = UState.idle := by
          rw [hrel.2.2.2.1, (resetCloneFields Owner.enemy j u).2.2.1]
        unfold Unit.alive
        rw [h1, h2]
        simp
        omega
  obtain ⟨w, hw, howner, halive⟩ := hkey
  have hmem : w ∈ aliveSide (startBf ps es) w0 := by
    unfold aliveSide sideUnits
    rw [startBf_units]
    exact List.mem_filter.2 ⟨List.mem_filter.2 ⟨hw, by simp [howner]⟩, halive⟩
  exact List.ne_nil_of_mem hmem

/-- The loop is inert once the combat has ended. -/
theorem runLoop_of_ended (o : ℕ → ℕ) (maxT : ℕ) :
    ∀ (fuel : ℕ) (c : Combat), c.isRunning = false → runLoop o maxT fuel c = c := by
  intro fuel c h
  cases fuel with
  | zero => rfl
  | succ n =>
    unfold runLoop
    rw [if_neg (by simp [h])]

theorem determinWinner_not_running (c : Combat) : (determinWinner c).isRunning = false := by
  unfold determinWinner
  simp only []
  split
  · rfl
  · split <;> rfl

/-- When the started battlefield is already over, `runSync` performs
exactly one tick — the termination check — and resolves through
`determinWinner`. -/
theorem runSync_first_tick_over (o : ℕ → ℕ) (ps es : List Unit) (maxT : ℕ) (hmt : 1 ≤ maxT)
    (hover : isOver (startBf ps es) = true) :
    runSync o ps es maxT
      = determinWinner { bf := startBf ps es, isRunning := true, tickCount := 1, result := {} } := by
  unfold runSync
  simp only []
  obtain ⟨m, rfl⟩ : ∃ m, maxT = m + 1 := ⟨maxT - 1, by omega⟩
  have h1 : runLoop o (m + 1) (m + 1)
      { bf := startBf ps es, isRunning := true, tickCount := 0, result := {} }
      = runLoop o (m + 1) m
          (Combat.tick o { bf := startBf ps es, isRunning := true, tickCount := 0, result := {} }) := by
    conv_lhs => rw [runLoop]
    rw [if_pos ⟨rfl, Nat.succ_pos m⟩]
  have h2 : Combat.tick o { bf := startBf ps es, isRunning := true, tickCount := 0, result := {} }
      = determinWinner { bf := startBf ps es, isRunning := true, tickCount := 1, result := {} } := by
    unfold Combat.tick
    rw [if_neg (by simp)]
    simp only []
    rw [if_pos hover]
  rw [h1, h2, runLoop_of_ended o (m + 1) m _ (determinWinner_not_running _)]
  rw [if_neg (by simp [determinWinner_not_running])]

/-- **C5 (amended).**  If at combat start one roster is empty, the
synchronous combat resolves on its very first tick — the tick counter is
incremented before the termination check, so `totalTicks = 1`, not 0; no
unit ever acts.  The winner is the non-empty side (`draw` with both
rosters empty, and then no damage is recorded on either side). -/
theorem c5_empty_roster_resolution (o : ℕ → ℕ) (ps es : List Unit) (maxT : ℕ)
    (hmt : 1 ≤ maxT) :
    (es = [] → (∃ u ∈ ps, 0 < u.maxHp) →
        (runSync o ps es maxT).result.winner = some CombatWinner.player
        ∧ (runSync o ps es maxT).result.totalTicks = 1)
    ∧ (ps = [] → (∃ u ∈ es, 0 < u.maxHp) →
        (runSync o ps es maxT).result.winner = some CombatWinner.enemy
        ∧ (runSync o ps es maxT).result.totalTicks = 1)
    ∧ (ps = [] → es = [] →
        (runSync o ps es maxT).result.winner = some CombatWinner.draw
        ∧ (runSync o ps es maxT).result.totalTicks = 1
        ∧ (runSync o ps es maxT).result.damageToPlayer = 0
        ∧ (runSync o ps es maxT).result.damageToEnemy = 0) := by
  refine ⟨?_, ?_, ?_⟩
  · intro hes hex
    subst hes
    have hae := aliveSide_enemy_nil ps
    have hap := aliveSide_start_ne_nil ps [] Owner.player hex
    have hover : isOver (startBf ps []) = true := by
      unfold isOver
      rw [hae]
      simp
    rw [runSync_first_tick_over o ps [] maxT hmt hover]
    unfold determinWinner
    simp only []
    rw [if_neg (by simp [hae, hap])]
    rw [if_neg (by simp [hap])]
    exact ⟨rfl, rfl⟩
  · intro hps hex
    subst hps
    have hap := aliveSide_player_nil es
    have hae := aliveSide_start_ne_nil [] es Owner.enemy hex
    have hover : isOver (startBf [] es) = true := by
      unfold isOver
      rw [hap]
      simp
    rw [runSync_first_tick_over o [] es maxT hmt hover]
    unfold determinWinner
    simp only []
    rw [if_neg (by simp [hae])]
    rw [if_pos (by simp [hap])]
    exact ⟨rfl, rfl⟩
  · intro hps hes
    subst hps
    subst hes
    have hap := aliveSide_player_nil []
    have hae := aliveSide_enemy_nil []
    have hover : isOver (startBf [] []) = true := by
      unfold isOver
      rw [hap]
      simp
    rw [runSync_first_tick_over o [] [] maxT hmt hover]
    unfold determinWinner
    simp only []
    rw [if_pos (by simp [hap, hae])]
    exact ⟨rfl, rfl, rfl, rfl⟩

/-- Witness for `c5_empty_roster_resolution` at a concrete one-unit
roster against an empty enemy. -/
theorem c5_empty_roster_resolution_witness :
    ((1 : ℕ) ≤ 1000 ∧ ([] : List Unit) = [] ∧ ∃ u ∈ [wAttacker], 0 < u.maxHp)
      ∧ ((runSync (fun _ => 5) [wAttacker] [] 1000).result.winner = some CombatWinner.player
        ∧ (runSync (fun _ => 5) [wAttacker] [] 1000).result.totalTicks = 1) :=
  ⟨⟨by omega, rfl, ⟨wAttacker, List.mem_cons_self _ _, by decide⟩⟩,
   (c5_empty_roster_resolution (fun _ => 5) [wAttacker] [] 1000 (by omega)).1 rfl
     ⟨wAttacker, List.mem_cons_self _ _, by decide⟩⟩

/-- **C5 (counterexample).**  The claim as stated demands
`totalTicks == 0` for the empty-enemy auto-win; the engine increments the
tick counter before the termination check, so the result records 1 tick. -/
theorem c5_totalTicks_counterexample :
    (runSync (fun _ => 5) [wAttacker] [] 1000).result.totalTicks = 1
      ∧ ¬ (runSync (fun _ => 5) [wAttacker] [] 1000).result.totalTicks = 0 := by
  decide

/-! ## C8/C9: the loop cap and the end-of-combat bookkeeping -/

theorem calculateDamage_eq (l : List Unit) :
    calculateDamage l = 2 + (l.map Unit.starLevel).sum := rfl

theorem resultInv_endCombat_draw (c : Combat) :
    ResultInv (endCombat c CombatWinner.draw 0).result := by
  refine ⟨?_, ?_, ?_⟩ <;> intro h
  · simp [endCombat] at h
  · simp [endCombat] at h
  · exact ⟨rfl, rfl⟩

/-- `determinWinner`, invoked on an over battlefield (as the tick does),
fills the result according to `ResultInv` and stamps the tick count. -/
theorem resultInv_determinWinner (c : Combat) (hover : isOver c.bf = true) :
    ResultInv (determinWinner c).result
    ∧ (determinWinner c).result.totalTicks = c.tickCount
    ∧ (determinWinner c).result.winner.isSome = true := by
  unfold isOver at hover
  unfold determinWinner
  simp only []
  by_cases hd : (aliveSide c.bf Owner.player).isEmpty = true ∧ (aliveSide c.bf Owner.enemy).isEmpty = true
  · rw [if_pos hd]
    exact ⟨resultInv_endCombat_draw c, rfl, rfl⟩
  · rw [if_neg hd]
    by_cases hp : (aliveSide c.bf Owner.player).isEmpty = true
    · rw [if_pos hp]
      refine ⟨⟨?_, ?_, ?_⟩, rfl, rfl⟩ <;> intro h
      · simp [endCombat] at h
      · refine ⟨rfl, rfl, ?_⟩
        show aliveSide c.bf Owner.player = []
        exact List.isEmpty_iff.1 hp
      · simp [endCombat] at h
    · rw [if_neg hp]
      refine ⟨⟨?_, ?_, ?_⟩, rfl, rfl⟩ <;> intro h
      · refine ⟨rfl, rfl, ?_⟩
        show aliveSide c.bf Owner.enemy = []
        rcases Bool.or_eq_true_iff.1 hover with he | he
        · exact absurd he hp
        · exact List.isEmpty_iff.1 he
      · simp [endCombat] at h
      · simp [endCombat] at h

theorem determinWinner_tickCount (c : Combat) : (determinWinner c).tickCount = c.tickCount := by
  unfold determinWinner
  simp only []
  split
  · rfl
  · split <;> rfl

theorem tick_tickCount (o : ℕ → ℕ) (c : Combat) (hr : c.isRunning = true) :
    (Combat.tick o c).tickCount = c.tickCount + 1 := by
  unfold Combat.tick
  rw [if_neg (by simp [hr])]
  simp only []
  split
  · rw [determinWinner_tickCount]
  · rfl

/-- One tick preserves the control invariant (under the loop guard). -/
theorem controlInv_tick (o : ℕ → ℕ) (maxT : ℕ) (c : Combat)
    (hci : ControlInv maxT c) (hlt : c.tickCount < maxT) :
    ControlInv maxT (Combat.tick o c) := by
  by_cases hr : c.isRunning = true
  · unfold Combat.tick
    rw [if_neg (by simp [hr])]
    simp only []
    split
    · next hover =>
      have hdw := resultInv_determinWinner { c with tickCount := c.tickCount + 1 } hover
      refine ⟨?_, fun _ => ⟨hdw.1, ?_, hdw.2.2⟩⟩
      · rw [determinWinner_tickCount]
        exact (show c.tickCount + 1 ≤ maxT by omega)
      · rw [hdw.2.1]
        exact (show c.tickCount + 1 ≤ maxT by omega)
    · exact ⟨(show c.tickCount + 1 ≤ maxT by omega), fun hfalse => absurd hfalse (by simp [hr])⟩
  · unfold Combat.tick
    rw [if_pos (by simp [hr])]
    exact hci

theorem controlInv_runLoop (o : ℕ → ℕ) (maxT : ℕ) :
    ∀ (fuel : ℕ) (c : Combat), ControlInv maxT c → ControlInv maxT (runLoop o maxT fuel c) := by
  intro fuel
  induction fuel with
  | zero => intro c h; exact h
  | succ n ih =>
    intro c h
    unfold runLoop
    split
    · next hguard => exact ih _ (controlInv_tick o maxT c h hguard.2)
    · exact h

/-- Fuel adequacy: with fuel covering the remaining ticks the loop leaves
either an ended combat or one at the cap. -/
theorem runLoop_exits (o : ℕ → ℕ) (maxT : ℕ) :
    ∀ (fuel : ℕ) (c : Combat), maxT ≤ c.tickCount + fuel →
      (runLoop o maxT fuel c).isRunning = false ∨ maxT ≤ (runLoop o maxT fuel c).tickCount := by
  intro fuel
  induction fuel with
  | zero =>
    intro c h
    right
    simpa using h
  | succ n ih =>
    intro c h
    unfold runLoop
    split
    · next hguard =>
      refine ih (Combat.tick o c) ?_
      rw [tick_tickCount o c hguard.1]
      omega
    · next hguard =>
      rcases Decidable.em (c.isRunning = true) with hr | hr
      · right
        rcases Decidable.em (c.tickCount < maxT) with hlt | hlt
        · exact absurd ⟨hr, hlt⟩ hguard
        · omega
      · left
        exact Bool.not_eq_true _ ▸ (by revert hr; cases c.isRunning <;> simp)

/-- After `runSync` the combat has ended and the control invariant holds. -/
theorem runSync_ended (o : ℕ → ℕ) (ps es : List Unit) (maxT : ℕ) :
    (runSync o ps es maxT).isRunning = false ∧ ControlInv maxT (runSync o ps es maxT) := by
  unfold runSync
  simp only []
  set c0 : Combat := { bf := startBf ps es, isRunning := true, tickCount := 0, result := {} } with hc0
  have hci0 : ControlInv maxT c0 := ⟨by simp [hc0], fun hfalse => by simp [hc0] at hfalse⟩
  have hci1 := controlInv_runLoop o maxT maxT c0 hci0
  have hex := runLoop_exits o maxT maxT c0 (by simp [hc0])
  set c1 := runLoop o maxT maxT c0 with hc1
  by_cases hcond : maxT ≤ c1.tickCount ∧ c1.isRunning = true
  · rw [if_pos hcond]
    refine ⟨rfl, ?_, ?_⟩
    · show c1.tickCount ≤ maxT
      exact hci1.1
    · intro _
      refine ⟨resultInv_endCombat_draw c1, ?_, rfl⟩
      show c1.tickCount ≤ maxT
      exact hci1.1
  · rw [if_neg hcond]
    have hnr : c1.isRunning = false := by
      rcases hex with h | h
      · exact h
      · rcases Decidable.em (c1.isRunning = true) with hr | hr
        · exact absurd ⟨h, hr⟩ hcond
        · revert hr; cases c1.isRunning <;> simp
    exact ⟨hnr, hci1⟩

/-- **C8.**  `runSync` records at most `maxTicks` ticks; and whenever the
result leaves both sides with survivors (which only the cap path can),
the winner is `draw`. -/
theorem c8_runSync_cap (o : ℕ → ℕ) (ps es : List Unit) (maxT : ℕ) :
    (runSync o ps es maxT).result.totalTicks ≤ maxT
    ∧ ((runSync o ps es maxT).result.survivingPlayerUnits ≠ [] →
       (runSync o ps es maxT).result.survivingEnemyUnits ≠ [] →
       (runSync o ps es maxT).result.winner = some CombatWinner.draw) := by
  obtain ⟨hend, hci⟩ := runSync_ended o ps es maxT
  obtain ⟨hrinv, hticks, hsome⟩ := hci.2 hend
  refine ⟨hticks, fun hp he => ?_⟩
  rcases hw : (runSync o ps es maxT).result.winner with _ | w
  · rw [hw] at hsome
    simp at hsome
  · cases w with
    | player => exact absurd (hrinv.1 hw).2.2 he
    | enemy => exact absurd (hrinv.2.1 hw).2.2 hp
    | draw => rfl

/-- Witness for `c8_runSync_cap`: a two-tick cap on two sturdy units
forces a draw with both sides surviving. -/
theorem c8_runSync_cap_witness :
    ((runSync (fun _ => 1) [wAttacker] [wVictim] 2).result.survivingPlayerUnits ≠ []
      ∧ (runSync (fun _ => 1) [wAttacker] [wVictim] 2).result.survivingEnemyUnits ≠ [])
    ∧ ((runSync (fun _ => 1) [wAttacker] [wVictim] 2).result.totalTicks ≤ 2
      ∧ (runSync (fun _ => 1) [wAttacker] [wVictim] 2).result.winner
          = some CombatWinner.draw) :=
  ⟨⟨by decide, by decide⟩,
   ⟨(c8_runSync_cap (fun _ => 1) [wAttacker] [wVictim] 2).1,
    (c8_runSync_cap (fun _ => 1) [wAttacker] [wVictim] 2).2 (by decide) (by decide)⟩⟩

/-- **C9.**  When combat ends with a winner, the loser's owner damage is
`2 + Σ starLevel` over the winning side's survivors and the winner's own
recorded damage is 0; a draw records no damage on either side. -/
theorem c9_loser_damage (o : ℕ → ℕ) (ps es : List Unit) (maxT : ℕ) :
    ((runSync o ps es maxT).result.winner = some CombatWinner.player →
        (runSync o ps es maxT).result.damageToEnemy
          = 2 + (((runSync o ps es maxT).result.survivingPlayerUnits).map Unit.starLevel).sum
        ∧ (runSync o ps es maxT).result.damageToPlayer = 0)
    ∧ ((runSync o ps es maxT).result.winner = some CombatWinner.enemy →
        (runSync o ps es maxT).result.damageToPlayer
          = 2 + (((runSync o ps es maxT).result.survivingEnemyUnits).map Unit.starLevel).sum
        ∧ (runSync o ps es maxT).result.damageToEnemy = 0)
    ∧ ((runSync o ps es maxT).result.winner = some CombatWinner.draw →
        (runSync o ps es maxT).result.damageToPlayer = 0
        ∧ (runSync o ps es maxT).result.damageToEnemy = 0) := by
  obtain ⟨hend, hci⟩ := runSync_ended o ps es maxT
  obtain ⟨hrinv, _, _⟩ := hci.2 hend
  refine ⟨fun h => ?_, fun h => ?_, fun h => hrinv.2.2 h⟩
  · obtain ⟨hd, hz, _⟩ := hrinv.1 h
    exact ⟨by rw [hd, calculateDamage_eq], hz⟩
  · obtain ⟨hd, hz, _⟩ := hrinv.2.1 h
    exact ⟨by rw [hd, calculateDamage_eq], hz⟩

/-- Witness for `c9_loser_damage`: the auto-win against an empty enemy
roster records `2 + 1 = 3` damage (one surviving 1★ unit). -/
theorem c9_loser_damage_witness :
    ((runSync (fun _ => 2) [wAttacker] [] 50).result.winner = some CombatWinner.player)
    ∧ ((runSync (fun _ => 2) [wAttacker] [] 50).result.damageToEnemy
        = 2 + (((runSync (fun _ => 2) [wAttacker] [] 50).result.survivingPlayerUnits).map
            Unit.starLevel).sum
      ∧ (runSync (fun _ => 2) [wAttacker] [] 50).result.damageToPlayer = 0) :=
  ⟨by decide, (c9_loser_damage (fun _ => 2) [wAttacker] [] 50).1 (by decide)⟩

/-! ## C7: run-to-run determinism -/

/-- **C7 (counterexample).**  Two runs of the same single-unit rosters
(crit chance 0 on both, no abilities, adjacent equal-range units that
never move) with different random draws: the per-tick shuffle decides
whether the dying unit still lands its final-tick attack, so one run
deals 320 total damage and the other 330, although tick counts and winner
agree.  The claim's "identical total damage dealt" fails. -/
theorem c7_shuffle_counterexample :
    (wAttacker.buffs.critChance = 0 ∧ wVictim.buffs.critChance = 0
      ∧ wAttacker.ability = none ∧ wVictim.ability = none ∧ wAttacker.range = wVictim.range)
    ∧ (runSync (fun _ => 1) [wAttacker] [wVictim] 1000).result.totalTicks
        = (runSync (fun _ => 0) [wAttacker] [wVictim] 1000).result.totalTicks
    ∧ (runSync (fun _ => 1) [wAttacker] [wVictim] 1000).result.winner
        = (runSync (fun _ => 0) [wAttacker] [wVictim] 1000).result.winner
    ∧ (runSync (fun _ => 1) [wAttacker] [wVictim] 1000).bf.damageLog.sum = 320
    ∧ (runSync (fun _ => 0) [wAttacker] [wVictim] 1000).bf.damageLog.sum = 330
    ∧ ¬ ((runSync (fun _ => 1) [wAttacker] [wVictim] 1000).bf.damageLog.sum
        = (runSync (fun _ => 0) [wAttacker] [wVictim] 1000).bf.damageLog.sum) := by
  decide

/-- **C7 (amended).**  The synchronous engine is a deterministic function
of the rosters and the random draw stream: two runs that consume
identical draws produce identical results (tick counts, damage log and
all).  With independent draws the totals can differ, as
`c7_shuffle_counterexample` shows. -/
theorem c7_determinism_same_draws (o₁ o₂ : ℕ → ℕ) (ps es : List Unit) (maxT : ℕ)
    (h : ∀ n, o₁ n = o₂ n) :
    runSync o₁ ps es maxT = runSync o₂ ps es maxT := by
  have ho : o₁ = o₂ := funext h
  rw [ho]

/-- Witness for `c7_determinism_same_draws` with two definitionally
distinct oracles that agree on every draw. -/
theorem c7_determinism_same_draws_witness :
    (∀ n : ℕ, n % 2 = (n + 0) % 2)
    ∧ runSync (fun n => n % 2) [wAttacker] [wVictim] 1000
        = runSync (fun n => (n + 0) % 2) [wAttacker] [wVictim] 1000 :=
  ⟨fun _ => rfl,
   c7_determinism_same_draws (fun n => n % 2) (fun n => (n + 0) % 2) [wAttacker] [wVictim] 1000
     (fun _ => rfl)⟩

/-! ## C3/C4 plumbing: id-keyed reference reads and writes -/

theorem getUnit_some {bf : Battlefield} {uid : ℕ} {u : Unit} (h : getUnit bf uid = some u) :
    u ∈ bf.units ∧ u.id = uid := by
  refine ⟨List.mem_of_find?_eq_some h, ?_⟩
  have := List.find?_some h
  simpa using this

theorem find?_map_id_pres (g : Unit → Unit) (hg : ∀ u, (g u).id = u.id) (uid : ℕ) :
    ∀ l : List Unit,
      (l.map g).find? (fun u => u.id == uid) = (l.find? (fun u => u.id == uid)).map g := by
  intro l
  induction l with
  | nil => rfl
  | cons u rest ih =>
    rw [List.map_cons, List.find?_cons, List.find?_cons]
    by_cases h : (u.id == uid) = true
    · rw [show ((g u).id == uid) = true by rw [hg]; exact h, h]
      rfl
    · rw [show ((g u).id == uid) = false by rw [hg]; exact Bool.eq_false_iff.2 (fun hc => h hc),
        Bool.eq_false_iff.2 (fun hc => h hc)]
      exact ih

theorem getUnit_updateUnit_self (bf : Battlefield) (uid : ℕ) (f : Unit → Unit)
    (hf : ∀ u, (f u).id = u.id) :
    getUnit (updateUnit bf uid f) uid = (getUnit bf uid).map f := by
  unfold getUnit updateUnit
  rw [find?_map_id_pres _ (by intro u; by_cases h : (u.id == uid) = true <;> simp [h, hf]) uid]
  cases hfind : bf.units.find? (fun u => u.id == uid) with
  | none => rfl
  | some u =>
    have hid : u.id = uid := by
      have := List.find?_some hfind
      simpa using this
    simp [hid]

theorem getUnit_updateUnit_ne (bf : Battlefield) (uid vid : ℕ) (f : Unit → Unit)
    (hf : ∀ u, (f u).id = u.id) (hne : uid ≠ vid) :
    getUnit (updateUnit bf vid f) uid = getUnit bf uid := by
  unfold getUnit updateUnit
  rw [find?_map_id_pres _ (by intro u; by_cases h : (u.id == vid) = true <;> simp [h, hf]) uid]
  cases hfind : bf.units.find? (fun u => u.id == uid) with
  | none => rfl
  | some u =>
    have hid : u.id = uid := by
      have := List.find?_some hfind
      simpa using this
    have hne' : u.id ≠ vid := fun hc => hne (hid ▸ hc)
    simp [hne']

theorem mem_updateUnit {bf : Battlefield} {uid : ℕ} {f : Unit → Unit} {v : Unit}
    (h : v ∈ (updateUnit bf uid f).units) :
    ∃ u ∈ bf.units, v = if (u.id == uid) = true then f u else u := by
  obtain ⟨u, hu, heq⟩ := List.mem_map.1 h
  exact ⟨u, hu, heq.symm⟩

theorem find?_id_of_mem :
    ∀ (l : List Unit), (l.map Unit.id).Nodup → ∀ u ∈ l,
      l.find? (fun v => v.id == u.id) = some u := by
  intro l
  induction l with
  | nil => intro _ u hu; exact absurd hu (List.not_mem_nil u)
  | cons v rest ih =>
    intro hnd u hu
    rw [List.find?_cons]
    rw [List.map_cons, List.nodup_cons] at hnd
    rcases List.mem_cons.1 hu with h | h
    · rw [h]
      simp
    · have hvne : v.id ≠ u.id := by
        intro hc
        exact hnd.1 (hc ▸ List.mem_map_of_mem Unit.id h)
      rw [show (v.id == u.id) = false from beq_eq_false_iff_ne.2 hvne]
      exact ih hnd.2 u h

/-- On a battlefield with distinct ids, dereferencing a member's id finds
that member. -/
theorem mem_getUnit_of_idsOk {bf : Battlefield} (hids : IdsOk bf) {u : Unit}
    (hu : u ∈ bf.units) : getUnit bf u.id = some u :=
  find?_id_of_mem bf.units hids u hu

/-- Generic preservation through a left fold (with membership). -/
theorem foldl_pres {α : Type} (P : Battlefield → Prop) (step : Battlefield → α → Battlefield) :
    ∀ (l : List α) (bf : Battlefield), (∀ bf x, x ∈ l → P bf → P (step bf x)) → P bf →
      P (l.foldl step bf) := by
  intro l
  induction l with
  | nil => intro bf _ h; exact h
  | cons x xs ih =>
    intro bf hstep h
    exact ih (step bf x) (fun bf' y hy => hstep bf' y (List.mem_cons_of_mem x hy))
      (hstep bf x (List.mem_cons_self x xs) h)

theorem skel_updateUnit (bf : Battlefield) (uid : ℕ) (f : Unit → Unit)
    (hf : ∀ u, (f u).id = u.id ∧ (f u).ownerId = u.ownerId) :
    skel (updateUnit bf uid f) = skel bf := by
  unfold skel updateUnit
  rw [List.map_map]
  refine List.map_congr_left ?_
  intro u _
  by_cases h : u.id = uid <;> simp [h, (hf u).1, (hf u).2]

theorem skel_fst (bf : Battlefield) : (skel bf).map Prod.fst = bf.units.map Unit.id := by
  unfold skel
  rw [List.map_map]
  rfl

/-- Pairs of the skeleton are unique in their id once ids are distinct. -/
theorem skel_pair_unique {bf : Battlefield} (hids : IdsOk bf) {x : ℕ} {w1 w2 : Owner}
    (h1 : (x, w1) ∈ skel bf) (h2 : (x, w2) ∈ skel bf) : w1 = w2 := by
  obtain ⟨u1, hu1, he1⟩ := List.mem_map.1 h1
  obtain ⟨u2, hu2, he2⟩ := List.mem_map.1 h2
  have hid1 : u1.id = x := congrArg Prod.fst he1
  have hid2 : u2.id = x := congrArg Prod.fst he2
  have heq : u1 = u2 := by
    refine List.inj_on_of_nodup_map hids hu1 hu2 ?_
    rw [hid1, hid2]
  have hw1 : u1.ownerId = w1 := congrArg Prod.snd he1
  have hw2 : u2.ownerId = w2 := congrArg Prod.snd he2
  rw [← hw1, ← hw2, heq]

/-! ## C3/C4: single-unit facts about the mutating `Unit` methods -/

theorem alive_pos {u : Unit} (h : u.alive = true) : 0 < u.currentHp := by
  unfold Unit.alive at h
  simp at h
  exact h.1

theorem canAct_pos {u : Unit} (h : u.canAct = true) : 0 < u.currentHp := by
  unfold Unit.canAct at h
  simp at h
  exact alive_pos h.1

theorem gainMana_fixed (u : Unit) (a : ℕ) :
    (u.gainMana a).id = u.id ∧ (u.gainMana a).ownerId = u.ownerId
    ∧ (u.gainMana a).currentHp = u.currentHp ∧ (u.gainMana a).effectiveMaxHp = u.effectiveMaxHp
    ∧ (u.gainMana a).state = u.state ∧ (u.gainMana a).target = u.target
    ∧ (u.gainMana a).maxMana = u.maxMana := by
  unfold Unit.gainMana
  split <;> exact ⟨rfl, rfl, rfl, rfl, rfl, rfl, rfl⟩

theorem gainMana_mana_le {u : Unit} (h : u.currentMana ≤ u.maxMana) (a : ℕ) :
    (u.gainMana a).currentMana ≤ (u.gainMana a).maxMana := by
  unfold Unit.gainMana
  split
  · exact h
  · exact min_le_left _ _

theorem heal_fixed (u : Unit) (a : ℕ) :
    (u.heal a).id = u.id ∧ (u.heal a).ownerId = u.ownerId := by
  unfold Unit.heal
  split <;> exact ⟨rfl, rfl⟩

theorem applyStun_fixed (u : Unit) (d : Frac) :
    (u.applyStun d).id = u.id ∧ (u.applyStun d).ownerId = u.ownerId
    ∧ (u.applyStun d).currentHp = u.currentHp := by
  unfold Unit.applyStun
  split <;> exact ⟨rfl, rfl, rfl⟩

theorem applySlow_fixed (u : Unit) (a d : Frac) :
    (u.applySlow a d).id = u.id ∧ (u.applySlow a d).ownerId = u.ownerId
    ∧ (u.applySlow a d).currentHp = u.currentHp := by
  unfold Unit.applySlow
  split <;> exact ⟨rfl, rfl, rfl⟩

theorem takeDamage_fixed (u : Unit) (a : ℕ) (ty : DamageType) :
    ((u.takeDamage a ty).2.id = u.id) ∧ ((u.takeDamage a ty).2.ownerId = u.ownerId) := by
  unfold Unit.takeDamage Unit.gainMana Unit.die
  split
  · exact ⟨rfl, rfl⟩
  · simp only []
    repeat' split
    all_goals exact ⟨rfl, rfl⟩

/-- `gainMana` keeps the mana cap: corollary with the unchanged cap. -/
theorem invU_gainMana {u : Unit} (h : InvU u) (a : ℕ) : InvU (u.gainMana a) := by
  unfold Unit.gainMana
  split
  · exact h
  · exact ⟨h.1, min_le_left _ _, h.2.2.1, h.2.2.2⟩

theorem invU_heal {u : Unit} (h : InvU u) (a : ℕ) : InvU (u.heal a) := by
  unfold Unit.heal
  split
  · exact h
  · rename_i halive
    have hal : u.alive = true := not_not.1 halive
    have hhp : 0 < u.currentHp := alive_pos hal
    refine ⟨min_le_right _ _, h.2.1, ?_, h.2.2.2⟩
    intro hc
    have hc' : min (u.currentHp + a) u.effectiveMaxHp = 0 := hc
    have h2 : 0 < u.effectiveMaxHp := lt_of_lt_of_le hhp h.1
    exact absurd hc' (by omega)

theorem invU_applyStun {u : Unit} (h : InvU u) (d : Frac) : InvU (u.applyStun d) := by
  unfold Unit.applyStun
  split
  · exact h
  · exact h

theorem invU_applySlow {u : Unit} (h : InvU u) (a d : Frac) : InvU (u.applySlow a d) := by
  unfold Unit.applySlow
  split
  · exact h
  · exact h

theorem invU_updateStatusEffects {u : Unit} (h : InvU u) (dt : Frac) :
    InvU (u.updateStatusEffects dt) := h

theorem invU_takeDamage {u : Unit} (h : InvU u) (a : ℕ) (ty : DamageType) :
    InvU (u.takeDamage a ty).2 := by
  have hml : ∀ (w : Unit), w.currentMana ≤ w.maxMana →
      ∀ b, (w.gainMana b).currentMana ≤ (w.gainMana b).maxMana :=
    fun w hw b => gainMana_mana_le hw b
  have hm2 := hml { u with currentHp := u.currentHp - codeDamage u a ty } h.2.1
    MANA_PER_DAMAGE_TAKEN
  unfold Unit.takeDamage
  split
  · exact h
  · simp only []
    split
    · -- the hit was lethal: `die` leaves HP 0, state DEAD, no target
      exact ⟨Nat.zero_le _, hm2, fun _ => rfl, fun hc => Option.noConfusion hc⟩
    · -- survived the hit
      rename_i hzero
      have hfix := gainMana_fixed { u with currentHp := u.currentHp - codeDamage u a ty }
        MANA_PER_DAMAGE_TAKEN
      refine ⟨?_, hm2, fun hc => absurd hc hzero, ?_⟩
      · rw [hfix.2.2.1, hfix.2.2.2.1]
        exact le_trans (Nat.sub_le _ _) h.1
      · rw [hfix.2.2.2.2.2.1, hfix.1]
        exact h.2.2.2

/-- A unit write that keeps HP, max HP, HP buff, the state, the target and
the id, and respects the mana cap, preserves `InvU`. -/
theorem invU_of_changes {u v : Unit} (h : InvU u)
    (hhp : v.currentHp = u.currentHp) (hmx : v.maxHp = u.maxHp)
    (hhb : v.buffs.hpBonus = u.buffs.hpBonus)
    (hm : v.currentMana ≤ v.maxMana)
    (hst : u.currentHp = 0 → v.state = UState.dead)
    (htg : v.target ≠ some v.id) : InvU v := by
  refine ⟨?_, hm, fun hc => hst (by rw [← hhp]; exact hc), htg⟩
  unfold Unit.effectiveMaxHp
  rw [hhp, hmx, hhb]
  exact h.1

/-! ## C3/C4: battlefield-level preservation of `InvBf` and `skel` -/

theorem idsOk_of_skel {bf' bf : Battlefield} (hs : skel bf' = skel bf) (h : IdsOk bf) :
    IdsOk bf' := by
  unfold IdsOk
  rw [← skel_fst, hs, skel_fst]
  exact h

/-- A write through `updateUnit` that keeps id and owner and preserves
`InvU` on the id-matched members preserves the battlefield invariant and
the skeleton. -/
theorem updateUnit_ok {bf : Battlefield} (uid : ℕ) (f : Unit → Unit)
    (hio : ∀ u, (f u).id = u.id ∧ (f u).ownerId = u.ownerId)
    (hf : ∀ u ∈ bf.units, u.id = uid → InvU u → InvU (f u)) (h : InvBf bf) :
    InvBf (updateUnit bf uid f) ∧ skel (updateUnit bf uid f) = skel bf := by
  have hs := skel_updateUnit bf uid f hio
  refine ⟨⟨idsOk_of_skel hs h.1, ?_⟩, hs⟩
  intro v hv
  obtain ⟨u, hu, heq⟩ := mem_updateUnit hv
  by_cases hc : (u.id == uid) = true
  · rw [heq, if_pos hc]
    exact hf u hu (by simpa using hc) (h.2 u hu)
  · rw [heq, if_neg hc]
    exact h.2 u hu

/-- Variant for state-changing writes: they are only ever issued to a unit
known to be alive, which discharges the HP-zero-implies-DEAD clause. -/
theorem updateUnit_ok_alive {bf : Battlefield} (uid : ℕ) (f : Unit → Unit)
    (hio : ∀ u, (f u).id = u.id ∧ (f u).ownerId = u.ownerId)
    (hf : ∀ u ∈ bf.units, u.id = uid → 0 < u.currentHp → InvU u → InvU (f u))
    (h : InvBf bf) (ha : AliveAt bf uid) :
    InvBf (updateUnit bf uid f) ∧ skel (updateUnit bf uid f) = skel bf := by
  refine updateUnit_ok uid f hio ?_ h
  intro u hu hid hinv
  obtain ⟨w, hw, hwp⟩ := ha
  have hg : getUnit bf uid = some u := by
    rw [← hid]
    exact mem_getUnit_of_idsOk h.1 hu
  rw [hg] at hw
  injection hw with hw'
  exact hf u hu hid (hw' ▸ hwp) hinv

/-- An id-keyed write that does not touch `currentHp` keeps any unit
alive. -/
theorem aliveAt_updateUnit_hp {bf : Battlefield} {uid : ℕ} (vid : ℕ) {f : Unit → Unit}
    (hid : ∀ u, (f u).id = u.id) (hhp : ∀ u, (f u).currentHp = u.currentHp)
    (h : AliveAt bf uid) : AliveAt (updateUnit bf vid f) uid := by
  obtain ⟨u, hget, hpos⟩ := h
  by_cases hc : uid = vid
  · subst hc
    refine ⟨f u, ?_, ?_⟩
    · rw [getUnit_updateUnit_self bf uid f hid, hget]
      rfl
    · rw [hhp u]
      exact hpos
  · exact ⟨u, by rw [getUnit_updateUnit_ne bf uid vid f hid hc]; exact hget, hpos⟩

/-- Damage to a *different* unit keeps this one alive. -/
theorem aliveAt_dealDamage_ne {bf : Battlefield} {uid tid : ℕ} (a : ℕ) (ty : DamageType)
    (hne : uid ≠ tid) (h : AliveAt bf uid) : AliveAt (dealDamage bf tid a ty).2 uid := by
  unfold dealDamage
  cases hget : getUnit bf tid with
  | none => exact h
  | some t =>
    obtain ⟨u, hg, hp⟩ := h
    refine ⟨u, ?_, hp⟩
    show getUnit (updateUnit bf tid (fun v => (v.takeDamage a ty).2)) uid = some u
    rw [getUnit_updateUnit_ne bf uid tid _ (fun v => (takeDamage_fixed v a ty).1) hne]
    exact hg

/-- `dealDamage` (any target) preserves the battlefield invariant and the
skeleton. -/
theorem dealDamage_ok {bf : Battlefield} (tid a : ℕ) (ty : DamageType) (h : InvBf bf) :
    InvBf (dealDamage bf tid a ty).2 ∧ skel (dealDamage bf tid a ty).2 = skel bf := by
  unfold dealDamage
  cases hget : getUnit bf tid with
  | none => exact ⟨h, rfl⟩
  | some t =>
    have := updateUnit_ok tid (fun v => (v.takeDamage a ty).2)
      (fun v => takeDamage_fixed v a ty) (fun v _ _ hv => invU_takeDamage hv a ty) h
    exact ⟨this.1, this.2⟩

/-- Unpack membership in one side's living-unit id list. -/
theorem mem_aliveSideIds {bf : Battlefield} {w : Owner} {x : ℕ} (h : x ∈ aliveSideIds bf w) :
    ∃ u ∈ bf.units, u.id = x ∧ u.ownerId = w ∧ u.alive = true := by
  unfold aliveSideIds aliveSide sideUnits at h
  obtain ⟨u, hu, hid⟩ := List.mem_map.1 h
  have h1 := List.mem_filter.1 hu
  have h2 := List.mem_filter.1 h1.1
  exact ⟨u, h2.1, hid, by simpa using h2.2, h1.2⟩

/-- A living-side id is in the skeleton with that side's tag. -/
theorem aliveSideIds_skel {bf : Battlefield} {w : Owner} {x : ℕ}
    (h : x ∈ aliveSideIds bf w) : (x, w) ∈ skel bf := by
  obtain ⟨u, hu, hid, how, _⟩ := mem_aliveSideIds h
  exact List.mem_map.2 ⟨u, hu, by rw [hid, how]⟩

/-- A unit of the other side never appears in a side's living-id list
(given distinct ids). -/
theorem not_mem_aliveSideIds {bf : Battlefield} (hids : IdsOk bf) {x : ℕ} {w : Owner}
    {u : Unit} (hu : u ∈ bf.units) (hid : u.id = x) (how : u.ownerId ≠ w) :
    x ∉ aliveSideIds bf w := by
  intro hx
  obtain ⟨v, hv, hvid, hvw, _⟩ := mem_aliveSideIds hx
  have heq : u = v := List.inj_on_of_nodup_map hids hu hv (by rw [hid, hvid])
  exact how (by rw [heq]; exact hvw)

/-! ## C3/C4: preservation through the ability resolver -/

/-- Bundled preservation triple for an HP-preserving id-keyed write. -/
theorem triple_updateUnit_hp {bf : Battlefield} {cId : ℕ} (vid : ℕ) (f : Unit → Unit)
    (hio : ∀ u, (f u).id = u.id ∧ (f u).ownerId = u.ownerId)
    (hhp : ∀ u, (f u).currentHp = u.currentHp)
    (hf : ∀ u ∈ bf.units, u.id = vid → InvU u → InvU (f u))
    (h : InvBf bf) (ha : AliveAt bf cId) :
    InvBf (updateUnit bf vid f) ∧ skel (updateUnit bf vid f) = skel bf
    ∧ AliveAt (updateUnit bf vid f) cId := by
  have h1 := updateUnit_ok vid f hio hf h
  exact ⟨h1.1, h1.2, aliveAt_updateUnit_hp vid (fun u => (hio u).1) hhp ha⟩

/-- Bundled preservation triple for damage to a unit other than the one
being tracked. -/
theorem triple_dealDamage {bf : Battlefield} {cId : ℕ} (tid a : ℕ) (ty : DamageType)
    (hne : tid ≠ cId) (h : InvBf bf) (ha : AliveAt bf cId) :
    InvBf (dealDamage bf tid a ty).2 ∧ skel (dealDamage bf tid a ty).2 = skel bf
    ∧ AliveAt (dealDamage bf tid a ty).2 cId := by
  have h1 := dealDamage_ok tid a ty h
  exact ⟨h1.1, h1.2, aliveAt_dealDamage_ne a ty (Ne.symm hne) ha⟩

theorem triple_stunWrite {bf : Battlefield} {cId : ℕ} (vid : ℕ) (d : Frac)
    (h : InvBf bf) (ha : AliveAt bf cId) :
    InvBf (updateUnit bf vid (fun v => v.applyStun d))
    ∧ skel (updateUnit bf vid (fun v => v.applyStun d)) = skel bf
    ∧ AliveAt (updateUnit bf vid (fun v => v.applyStun d)) cId :=
  triple_updateUnit_hp vid _ (fun u => ⟨(applyStun_fixed u d).1, (applyStun_fixed u d).2.1⟩)
    (fun u => (applyStun_fixed u d).2.2) (fun u _ _ hu => invU_applyStun hu d) h ha

theorem triple_slowWrite {bf : Battlefield} {cId : ℕ} (vid : ℕ) (a d : Frac)
    (h : InvBf bf) (ha : AliveAt bf cId) :
    InvBf (updateUnit bf vid (fun v => v.applySlow a d))
    ∧ skel (updateUnit bf vid (fun v => v.applySlow a d)) = skel bf
    ∧ AliveAt (updateUnit bf vid (fun v => v.applySlow a d)) cId :=
  triple_updateUnit_hp vid _ (fun u => ⟨(applySlow_fixed u a d).1, (applySlow_fixed u a d).2.1⟩)
    (fun u => (applySlow_fixed u a d).2.2) (fun u _ _ hu => invU_applySlow hu a d) h ha

theorem triple_manaWrite {bf : Battlefield} {cId : ℕ} (vid a : ℕ)
    (h : InvBf bf) (ha : AliveAt bf cId) :
    InvBf (updateUnit bf vid (fun v => v.gainMana a))
    ∧ skel (updateUnit bf vid (fun v => v.gainMana a)) = skel bf
    ∧ AliveAt (updateUnit bf vid (fun v => v.gainMana a)) cId :=
  triple_updateUnit_hp vid _ (fun u => ⟨(gainMana_fixed u a).1, (gainMana_fixed u a).2.1⟩)
    (fun u => (gainMana_fixed u a).2.2.1) (fun u _ _ hu => invU_gainMana hu a) h ha

/-- Chain a one-step preservation triple onto an accumulated one. -/
theorem triple_trans {bf b b' : Battlefield} {cId : ℕ}
    (hb : InvBf b ∧ skel b = skel bf ∧ AliveAt b cId)
    (hstep : InvBf b → AliveAt b cId → InvBf b' ∧ skel b' = skel b ∧ AliveAt b' cId) :
    InvBf b' ∧ skel b' = skel bf ∧ AliveAt b' cId := by
  have h2 := hstep hb.1 hb.2.2
  exact ⟨h2.1, h2.2.1.trans hb.2.1, h2.2.2⟩

theorem aoeStep_triple {bf : Battlefield} {cId : ℕ} {ab : Ability} {base eid : ℕ}
    (heid : eid ≠ cId) (h : InvBf bf) (ha : AliveAt bf cId) :
    InvBf (aoeStep ab base bf eid) ∧ skel (aoeStep ab base bf eid) = skel bf
    ∧ AliveAt (aoeStep ab base bf eid) cId := by
  unfold aoeStep
  simp only []
  have h1 := triple_dealDamage eid base DamageType.magic heid h ha
  split
  · split
    · have h2 := triple_stunWrite eid ab.stun h1.1 h1.2.2
      have h3 := triple_slowWrite eid ab.slow (durationOr2 ab.duration) h2.1 h2.2.2
      exact ⟨h3.1, h3.2.1.trans (h2.2.1.trans h1.2.1), h3.2.2⟩
    · have h3 := triple_slowWrite eid ab.slow (durationOr2 ab.duration) h1.1 h1.2.2
      exact ⟨h3.1, h3.2.1.trans h1.2.1, h3.2.2⟩
  · split
    · have h2 := triple_stunWrite eid ab.stun h1.1 h1.2.2
      exact ⟨h2.1, h2.2.1.trans h1.2.1, h2.2.2⟩
    · exact h1

theorem castDamageBranch_triple {bf : Battlefield} {cId tId : ℕ} {enemyIds : List ℕ}
    (ab : Ability) (spm : Frac)
    (hno : ∀ e ∈ enemyIds, e ≠ cId) (hne : tId ≠ cId) (h : InvBf bf) (ha : AliveAt bf cId) :
    InvBf (castDamageBranch tId enemyIds ab spm bf)
    ∧ skel (castDamageBranch tId enemyIds ab spm bf) = skel bf
    ∧ AliveAt (castDamageBranch tId enemyIds ab spm bf) cId := by
  unfold castDamageBranch
  split
  · simp only []
    split
    · refine foldl_pres (fun b => InvBf b ∧ skel b = skel bf ∧ AliveAt b cId) _ enemyIds bf
        ?_ ⟨h, rfl, ha⟩
      intro b eid hmem hb
      exact triple_trans hb (fun hi hai => aoeStep_triple (hno eid hmem) hi hai)
    · exact aoeStep_triple hne h ha
  · exact ⟨h, rfl, ha⟩

theorem castMultBranch_triple {bf : Battlefield} {cId tId : ℕ} (ab : Ability) (spm : Frac)
    (hne : tId ≠ cId) (h : InvBf bf) (ha : AliveAt bf cId) :
    InvBf (castMultBranch cId tId ab spm bf)
    ∧ skel (castMultBranch cId tId ab spm bf) = skel bf
    ∧ AliveAt (castMultBranch cId tId ab spm bf) cId := by
  unfold castMultBranch
  split
  · cases hget : getUnit bf cId with
    | none => exact ⟨h, rfl, ha⟩
    | some c => exact triple_dealDamage tId _ DamageType.physical hne h ha
  · exact ⟨h, rfl, ha⟩

theorem castArmorBranch_triple {bf : Battlefield} {cId : ℕ} (ab : Ability)
    (h : InvBf bf) (ha : AliveAt bf cId) :
    InvBf (castArmorBranch cId ab bf) ∧ skel (castArmorBranch cId ab bf) = skel bf
    ∧ AliveAt (castArmorBranch cId ab bf) cId := by
  unfold castArmorBranch
  split
  · exact triple_updateUnit_hp cId _ (fun u => ⟨rfl, rfl⟩) (fun u => rfl)
      (fun u _ _ hu => hu) h ha
  · exact ⟨h, rfl, ha⟩

theorem castAttackBuffBranch_triple {bf : Battlefield} {cId : ℕ} (cw : Owner) (ab : Ability)
    (h : InvBf bf) (ha : AliveAt bf cId) :
    InvBf (castAttackBuffBranch cw ab bf) ∧ skel (castAttackBuffBranch cw ab bf) = skel bf
    ∧ AliveAt (castAttackBuffBranch cw ab bf) cId := by
  unfold castAttackBuffBranch
  split
  · refine foldl_pres (fun b => InvBf b ∧ skel b = skel bf ∧ AliveAt b cId) _ _ bf
      ?_ ⟨h, rfl, ha⟩
    intro b aid hmem hb
    exact triple_trans hb (fun hi hai =>
      triple_updateUnit_hp aid _ (fun u => ⟨rfl, rfl⟩) (fun u => rfl)
        (fun u _ _ hu => hu) hi hai)
  · exact ⟨h, rfl, ha⟩

theorem insertLe_mem {α : Type} (le : α → α → Bool) (x : α) :
    ∀ (l : List α) (y : α), y ∈ insertLe le x l → y = x ∨ y ∈ l := by
  intro l
  induction l with
  | nil =>
    intro y hy
    exact Or.inl (List.mem_singleton.1 hy)
  | cons z zs ih =>
    intro y hy
    unfold insertLe at hy
    by_cases hc : le z x = true
    · rw [if_pos hc] at hy
      rcases List.mem_cons.1 hy with h1 | h1
      · exact Or.inr (h1 ▸ List.mem_cons_self _ _)
      · rcases ih y h1 with h2 | h2
        · exact Or.inl h2
        · exact Or.inr (List.mem_cons_of_mem _ h2)
    · rw [if_neg hc] at hy
      rcases List.mem_cons.1 hy with h1 | h1
      · exact Or.inl h1
      · exact Or.inr h1

theorem sortFold_mem {α : Type} (le : α → α → Bool) :
    ∀ (l acc : List α) (y : α),
      y ∈ l.foldl (fun a x => insertLe le x a) acc → y ∈ acc ∨ y ∈ l := by
  intro l
  induction l with
  | nil => intro acc y h; exact Or.inl h
  | cons x xs ih =>
    intro acc y h
    rcases ih (insertLe le x acc) y h with h1 | h1
    · rcases insertLe_mem le x acc y h1 with h2 | h2
      · exact Or.inr (h2 ▸ List.mem_cons_self x xs)
      · exact Or.inl h2
    · exact Or.inr (List.mem_cons_of_mem x h1)

theorem sortByDistance_mem {bf : Battlefield} {cId : ℕ} {ids : List ℕ} {y : ℕ}
    (h : y ∈ sortByDistance bf cId ids) : y ∈ ids := by
  unfold sortByDistance at h
  cases hget : getUnit bf cId with
  | none => rw [hget] at h; exact h
  | some c =>
    rw [hget] at h
    unfold sortByLe at h
    rcases sortFold_mem _ _ _ _ h with h1 | h1
    · exact absurd h1 (List.not_mem_nil y)
    · exact h1

theorem castChainBranch_triple {bf : Battlefield} {cId : ℕ} {enemyIds : List ℕ}
    (ab : Ability) (spm : Frac)
    (hno : ∀ e ∈ enemyIds, e ≠ cId) (h : InvBf bf) (ha : AliveAt bf cId) :
    InvBf (castChainBranch cId enemyIds ab spm bf)
    ∧ skel (castChainBranch cId enemyIds ab spm bf) = skel bf
    ∧ AliveAt (castChainBranch cId enemyIds ab spm bf) cId := by
  unfold castChainBranch
  split
  · simp only []
    refine foldl_pres (fun b => InvBf b ∧ skel b = skel bf ∧ AliveAt b cId) _ _ bf
      ?_ ⟨h, rfl, ha⟩
    intro b i hmem hb
    cases hg : (sortByDistance bf cId enemyIds).get? i with
    | none => exact hb
    | some eid =>
      have hmem2 : eid ∈ enemyIds := sortByDistance_mem (List.get?_mem hg)
      exact triple_trans hb (fun hi hai =>
        triple_dealDamage eid _ DamageType.magic (hno eid hmem2) hi hai)
  · exact ⟨h, rfl, ha⟩

theorem hitStep_triple {bf : Battlefield} {cId : ℕ} {base eid : ℕ}
    (heid : eid ≠ cId) (h : InvBf bf) (ha : AliveAt bf cId) :
    InvBf (hitStep cId base bf eid) ∧ skel (hitStep cId base bf eid) = skel bf
    ∧ AliveAt (hitStep cId base bf eid) cId := by
  unfold hitStep
  cases h1 : getUnit bf cId with
  | none => exact ⟨h, rfl, ha⟩
  | some c =>
    cases h2 : getUnit bf eid with
    | none => exact ⟨h, rfl, ha⟩
    | some e =>
      simp only []
      split
      · exact triple_dealDamage eid base DamageType.physical heid h ha
      · exact ⟨h, rfl, ha⟩

theorem castHitsBranch_triple {bf : Battlefield} {cId : ℕ} {enemyIds : List ℕ}
    (ab : Ability) (spm : Frac)
    (hno : ∀ e ∈ enemyIds, e ≠ cId) (h : InvBf bf) (ha : AliveAt bf cId) :
    InvBf (castHitsBranch cId enemyIds ab spm bf)
    ∧ skel (castHitsBranch cId enemyIds ab spm bf) = skel bf
    ∧ AliveAt (castHitsBranch cId enemyIds ab spm bf) cId := by
  unfold castHitsBranch
  split
  · simp only []
    refine foldl_pres (fun b => InvBf b ∧ skel b = skel bf ∧ AliveAt b cId) _ _ bf
      ?_ ⟨h, rfl, ha⟩
    intro b _ _ hb
    refine foldl_pres (fun b' => InvBf b' ∧ skel b' = skel bf ∧ AliveAt b' cId) _ enemyIds b
      ?_ hb
    intro b' eid hmem hb'
    exact triple_trans hb' (fun hi hai => hitStep_triple (hno eid hmem) hi hai)
  · exact ⟨h, rfl, ha⟩

/-- `castAbility` preserves the battlefield invariant and the skeleton and
keeps the (living) caster alive, provided the explicit target is not the
caster itself (as holds at every call site). -/
theorem castAbility_ok {bf : Battlefield} {cId tId : ℕ} (hne : tId ≠ cId)
    (h : InvBf bf) (ha : AliveAt bf cId) :
    InvBf (castAbility bf cId tId) ∧ skel (castAbility bf cId tId) = skel bf
    ∧ AliveAt (castAbility bf cId tId) cId := by
  unfold castAbility
  cases hc : getUnit bf cId with
  | none => exact ⟨h, rfl, ha⟩
  | some caster0 =>
    simp only []
    cases hab : caster0.ability with
    | none => exact ⟨h, rfl, ha⟩
    | some ab =>
      simp only []
      have h0 := updateUnit_ok_alive cId
        (fun v => { v with currentMana := 0, state := UState.casting })
        (fun u => ⟨rfl, rfl⟩)
        (fun u _ _ hpos hinv =>
          ⟨hinv.1, Nat.zero_le _,
            fun hz => absurd (show u.currentHp = 0 from hz) (by omega), hinv.2.2.2⟩)
        h ha
      have ha1 : AliveAt
          (updateUnit bf cId (fun v => { v with currentMana := 0, state := UState.casting }))
          cId :=
        aliveAt_updateUnit_hp cId (fun u => rfl) (fun u => rfl) ha
      have hg1 : getUnit
          (updateUnit bf cId (fun v => { v with currentMana := 0, state := UState.casting }))
          cId = some { caster0 with currentMana := 0, state := UState.casting } := by
        rw [getUnit_updateUnit_self bf cId
          (fun v => { v with currentMana := 0, state := UState.casting }) (fun u => rfl), hc]
        rfl
      have hmem1 := (getUnit_some hg1).1
      have hid1 := (getUnit_some hg1).2
      have hos : ({ caster0 with currentMana := 0, state := UState.casting } : Unit).ownerId
          ≠ (if caster0.ownerId == Owner.player then Owner.enemy else Owner.player) := by
        show caster0.ownerId ≠ _
        cases how : caster0.ownerId <;> simp [how]
      have hno : ∀ e ∈ aliveSideIds
          (updateUnit bf cId (fun v => { v with currentMana := 0, state := UState.casting }))
          (if caster0.ownerId == Owner.player then Owner.enemy else Owner.player),
          e ≠ cId := by
        intro e he heq
        exact not_mem_aliveSideIds h0.1.1 hmem1 hid1 hos (heq ▸ he)
      have h1 := castDamageBranch_triple ab
        ((1 : Frac) + Frac.ofN caster0.buffs.spellPower / 100) hno hne h0.1 ha1
      have h2 := castMultBranch_triple ab
        ((1 : Frac) + Frac.ofN caster0.buffs.spellPower / 100) hne h1.1 h1.2.2
      have h3 := castArmorBranch_triple ab h2.1 h2.2.2
      have h4 := castAttackBuffBranch_triple caster0.ownerId ab h3.1 h3.2.2
      have h5 := castChainBranch_triple ab
        ((1 : Frac) + Frac.ofN caster0.buffs.spellPower / 100) hno h4.1 h4.2.2
      have h6 := castHitsBranch_triple ab
        ((1 : Frac) + Frac.ofN caster0.buffs.spellPower / 100) hno h5.1 h5.2.2
      exact ⟨h6.1,
        h6.2.1.trans (h5.2.1.trans (h4.2.1.trans (h3.2.1.trans
          (h2.2.1.trans (h1.2.1.trans h0.2))))), h6.2.2⟩

/-! ## C3/C4: preservation through attack resolution -/

theorem attackResolve_ok {bf : Battlefield} {aId dId : ℕ} (damage : ℕ) (hnd : aId ≠ dId)
    (h : InvBf bf) (ha : AliveAt bf aId) :
    InvBf (attackResolve bf aId dId damage) ∧ skel (attackResolve bf aId dId damage) = skel bf
    ∧ AliveAt (attackResolve bf aId dId damage) aId := by
  unfold attackResolve
  simp only []
  have h1 := triple_dealDamage dId damage DamageType.physical (Ne.symm hnd) h ha
  cases hga : getUnit (dealDamage bf dId damage DamageType.physical).2 aId with
  | none =>
    simp only []
    have h3 := triple_trans h1 (fun hi hai => triple_manaWrite aId MANA_PER_ATTACK hi hai)
    cases hga2 : getUnit
        (updateUnit (dealDamage bf dId damage DamageType.physical).2 aId
          (fun v => v.gainMana MANA_PER_ATTACK)) aId with
    | none => exact h3
    | some atk2 =>
      simp only []
      split
      · exact triple_trans h3 (fun hi hai => castAbility_ok (Ne.symm hnd) hi hai)
      · exact h3
  | some atk =>
    simp only []
    have h2 : InvBf (if 0 < atk.buffs.magicDamage then
          (dealDamage (dealDamage bf dId damage DamageType.physical).2 dId
            atk.buffs.magicDamage DamageType.magic).2
        else (dealDamage bf dId damage DamageType.physical).2)
        ∧ skel (if 0 < atk.buffs.magicDamage then
          (dealDamage (dealDamage bf dId damage DamageType.physical).2 dId
            atk.buffs.magicDamage DamageType.magic).2
        else (dealDamage bf dId damage DamageType.physical).2) = skel bf
        ∧ AliveAt (if 0 < atk.buffs.magicDamage then
          (dealDamage (dealDamage bf dId damage DamageType.physical).2 dId
            atk.buffs.magicDamage DamageType.magic).2
        else (dealDamage bf dId damage DamageType.physical).2) aId := by
      split
      · exact triple_trans h1 (fun hi hai =>
          triple_dealDamage dId atk.buffs.magicDamage DamageType.magic (Ne.symm hnd) hi hai)
      · exact h1
    have h3 := triple_trans h2 (fun hi hai => triple_manaWrite aId MANA_PER_ATTACK hi hai)
    cases hga2 : getUnit
        (updateUnit (if 0 < atk.buffs.magicDamage then
            (dealDamage (dealDamage bf dId damage DamageType.physical).2 dId
              atk.buffs.magicDamage DamageType.magic).2
          else (dealDamage bf dId damage DamageType.physical).2) aId
          (fun v => v.gainMana MANA_PER_ATTACK)) aId with
    | none => exact h3
    | some atk2 =>
      simp only []
      split
      · exact triple_trans h3 (fun hi hai => castAbility_ok (Ne.symm hnd) hi hai)
      · exact h3

/-- `Combat.attack` preserves the battlefield invariant and the skeleton,
and keeps a living attacker alive (every hit it deals lands on the other
unit). -/
theorem attack_ok (o : ℕ → ℕ) {bf : Battlefield} {aId dId : ℕ} (hnd : aId ≠ dId)
    (h : InvBf bf) :
    InvBf (Combat.attack o bf aId dId) ∧ skel (Combat.attack o bf aId dId) = skel bf
    ∧ (AliveAt bf aId → AliveAt (Combat.attack o bf aId dId) aId) := by
  unfold Combat.attack
  cases hga : getUnit bf aId with
  | none => exact ⟨h, rfl, fun x => x⟩
  | some atk =>
    simp only []
    cases hgd : getUnit bf dId with
    | none => exact ⟨h, rfl, fun x => x⟩
    | some dfd =>
      simp only []
      split
      · exact ⟨h, rfl, fun x => x⟩
      · rename_i hguard
        push_neg at hguard
        have halive : AliveAt bf aId := ⟨atk, hga, canAct_pos hguard.1⟩
        split
        · have hres := attackResolve_ok
            (if o bf.randIdx % 100 < atk.buffs.critChance then critDamageValue atk
              else atk.attack)
            hnd (show InvBf { bf with randIdx := bf.randIdx + 1 } from h)
            (show AliveAt { bf with randIdx := bf.randIdx + 1 } aId from halive)
          exact ⟨hres.1, hres.2.1, fun _ => hres.2.2⟩
        · have hres := attackResolve_ok atk.attack hnd h halive
          exact ⟨hres.1, hres.2.1, fun _ => hres.2.2⟩

/-! ## C3/C4: preservation through targeting and movement -/

theorem ftFold_mem (bf : Battlefield) (u : Unit) :
    ∀ (l : List ℕ) (acc : Option ℕ × Option ℕ) (t : ℕ),
      (l.foldl (ftStep bf u) acc).1 = some t → acc.1 = some t ∨ t ∈ l := by
  intro l
  induction l with
  | nil => intro acc t h; exact Or.inl h
  | cons x xs ih =>
    intro acc t h
    rcases ih (ftStep bf u acc x) t h with h1 | h1
    · unfold ftStep at h1
      cases hg : getUnit bf x with
      | none => rw [hg] at h1; exact Or.inl h1
      | some e =>
        rw [hg] at h1
        simp only [] at h1
        by_cases hlt : (optLt (u.getDistanceTo e) acc.2) = true
        · rw [if_pos hlt] at h1
          have hx : some x = some t := h1
          exact Or.inr ((Option.some.inj hx) ▸ List.mem_cons_self x xs)
        · rw [if_neg hlt] at h1
          exact Or.inl h1
    · exact Or.inr (List.mem_cons_of_mem x h1)

/-- `findTarget` preserves the invariants; the key point is that the
written target is one of the supplied enemy ids, which never include the
seeker itself. -/
theorem findTarget_ok {bf : Battlefield} {uid : ℕ} {enemyIds : List ℕ}
    (hno : uid ∉ enemyIds) (h : InvBf bf) :
    InvBf (Combat.findTarget bf uid enemyIds)
    ∧ skel (Combat.findTarget bf uid enemyIds) = skel bf
    ∧ (AliveAt bf uid → AliveAt (Combat.findTarget bf uid enemyIds) uid) := by
  unfold Combat.findTarget
  cases hg : getUnit bf uid with
  | none => exact ⟨h, rfl, fun x => x⟩
  | some u =>
    simp only []
    have hwrN := updateUnit_ok uid (fun v => { v with target := none }) (fun v => ⟨rfl, rfl⟩)
      (fun v _ _ hv => ⟨hv.1, hv.2.1, hv.2.2.1, fun hc => Option.noConfusion hc⟩) h
    have haN : AliveAt bf uid →
        AliveAt (updateUnit bf uid (fun v => { v with target := none })) uid :=
      fun haa => aliveAt_updateUnit_hp uid (fun v => rfl) (fun v => rfl) haa
    split
    · exact ⟨hwrN.1, hwrN.2, haN⟩
    · split
      · exact ⟨hwrN.1, hwrN.2, haN⟩
      · have hbest : ∀ t,
            ((enemyIds.filter (fun eid =>
              match getUnit bf eid with
              | some e => e.alive && e.onBoard
              | none => false)).foldl (ftStep bf u) (none, none)).1 = some t →
            t ∈ enemyIds := by
          intro t ht
          rcases ftFold_mem bf u _ (none, none) t ht with h1 | h1
          · exact absurd h1 (by simp)
          · exact (List.mem_filter.1 h1).1
        have hwrB := updateUnit_ok uid
          (fun v => { v with target :=
            ((enemyIds.filter (fun eid =>
              match getUnit bf eid with
              | some e => e.alive && e.onBoard
              | none => false)).foldl (ftStep bf u) (none, none)).1 })
          (fun v => ⟨rfl, rfl⟩)
          (fun v _ hvid hv => ⟨hv.1, hv.2.1, hv.2.2.1,
            fun hc => absurd (hvid ▸ hbest v.id hc) hno⟩) h
        exact ⟨hwrB.1, hwrB.2,
          fun haa => aliveAt_updateUnit_hp uid (fun v => rfl) (fun v => rfl) haa⟩

theorem moveToward_ok {bf : Battlefield} {uid tid : ℕ} (h : InvBf bf) :
    InvBf (Combat.moveToward bf uid tid) ∧ skel (Combat.moveToward bf uid tid) = skel bf
    ∧ (AliveAt bf uid → AliveAt (Combat.moveToward bf uid tid) uid) := by
  unfold Combat.moveToward
  cases hgu : getUnit bf uid with
  | none => exact ⟨h, rfl, fun x => x⟩
  | some u =>
    simp only []
    cases hgt : getUnit bf tid with
    | none => exact ⟨h, rfl, fun x => x⟩
    | some t =>
      simp only []
      cases hup : u.pos with
      | none => exact ⟨h, rfl, fun x => x⟩
      | some p =>
        cases hp : p with
        | mk ux uy =>
          cases htp : t.pos with
          | none => exact ⟨h, rfl, fun x => x⟩
          | some q =>
            cases hq : q with
            | mk tx ty =>
              simp only []
              split
              · exact ⟨h, rfl, fun x => x⟩
              · rename_i hcan
                have hcan' : u.canAct = true := not_not.1 hcan
                have haa : AliveAt bf uid := ⟨u, hgu, canAct_pos hcan'⟩
                split
                · exact ⟨h, rfl, fun x => x⟩
                · split
                  · -- a free candidate cell was found: move there
                    rename_i pnew hfind
                    have hwr := updateUnit_ok_alive uid
                      (fun v => { v with pos := some pnew, state := UState.moving })
                      (fun v => ⟨rfl, rfl⟩)
                      (fun v _ _ hpos hv =>
                        ⟨hv.1, hv.2.1,
                          fun hz => absurd (show v.currentHp = 0 from hz) (by omega),
                          hv.2.2.2⟩)
                      (show InvBf { bf with
                          occupied := pnew :: bf.occupied.erase (ux, uy) } from h)
                      (show AliveAt { bf with
                          occupied := pnew :: bf.occupied.erase (ux, uy) } uid from haa)
                    exact ⟨hwr.1, hwr.2,
                      fun _ => aliveAt_updateUnit_hp uid (fun v => rfl) (fun v => rfl) haa⟩
                  · -- blocked: go idle in place
                    have hwr := updateUnit_ok_alive uid
                      (fun v => { v with state := UState.idle })
                      (fun v => ⟨rfl, rfl⟩)
                      (fun v _ _ hpos hv =>
                        ⟨hv.1, hv.2.1,
                          fun hz => absurd (show v.currentHp = 0 from hz) (by omega),
                          hv.2.2.2⟩)
                      h haa
                    exact ⟨hwr.1, hwr.2,
                      fun _ => aliveAt_updateUnit_hp uid (fun v => rfl) (fun v => rfl) haa⟩

/-! ## C3/C4: preservation through the per-unit tick body -/

theorem engageStage2_ok (o : ℕ → ℕ) {uid tid : ℕ} {bf : Battlefield}
    (hnd : uid ≠ tid) (h : InvBf bf) (ha : AliveAt bf uid) :
    InvBf (engageStage2 o uid tid bf) ∧ skel (engageStage2 o uid tid bf) = skel bf := by
  unfold engageStage2
  cases hg3 : getUnit bf uid with
  | none => exact ⟨h, rfl⟩
  | some u3 =>
    cases hgt : getUnit bf tid with
    | none => exact ⟨h, rfl⟩
    | some tgt =>
      simp only []
      split
      · split
        · -- attack, then enter ATTACKING with a fresh cooldown
          have h2 := attack_ok o hnd h
          have ha2 := h2.2.2 ha
          have h3 := updateUnit_ok_alive uid
            (fun v => { v with attackCooldown := (1 : Frac) / v.effectiveAttackSpeed,
                               state := UState.attacking })
            (fun u => ⟨rfl, rfl⟩)
            (fun u _ _ hpos hu =>
              ⟨hu.1, hu.2.1,
                fun hz => absurd (show u.currentHp = 0 from hz) (by omega), hu.2.2.2⟩)
            h2.1 ha2
          exact ⟨h3.1, h3.2.trans h2.2.1⟩
        · -- cooldown still running: go IDLE
          have h3 := updateUnit_ok_alive uid (fun v => { v with state := UState.idle })
            (fun u => ⟨rfl, rfl⟩)
            (fun u _ _ hpos hu =>
              ⟨hu.1, hu.2.1,
                fun hz => absurd (show u.currentHp = 0 from hz) (by omega), hu.2.2.2⟩)
            h ha
          exact ⟨h3.1, h3.2⟩
      · -- out of range: step toward the target
        exact ⟨(moveToward_ok h).1, (moveToward_ok h).2.1⟩

theorem engageStage_ok {o : ℕ → ℕ} {uid tid : ℕ} {cd : Frac} {bf : Battlefield}
    (hnd : uid ≠ tid) (h : InvBf bf) (ha : AliveAt bf uid) :
    InvBf (engageStage o uid tid cd bf) ∧ skel (engageStage o uid tid cd bf) = skel bf := by
  unfold engageStage
  split
  · have h1 := triple_updateUnit_hp uid
      (fun v => { v with attackCooldown := v.attackCooldown - deltaTime })
      (fun u => ⟨rfl, rfl⟩) (fun u => rfl) (fun u _ _ hu => hu) h ha
    have h2 := engageStage2_ok o hnd h1.1 h1.2.2
    exact ⟨h2.1, h2.2.trans h1.2.1⟩
  · exact engageStage2_ok o hnd h ha

theorem targetStage_ok (o : ℕ → ℕ) {uid : ℕ} {bf : Battlefield}
    (h : InvBf bf) (ha : AliveAt bf uid) :
    InvBf (targetStage o uid bf) ∧ skel (targetStage o uid bf) = skel bf := by
  unfold targetStage
  cases hg2 : getUnit bf uid with
  | none => exact ⟨h, rfl⟩
  | some u2 =>
    simp only []
    cases htg : u2.target with
    | none => exact ⟨h, rfl⟩
    | some tid =>
      have hmem := (getUnit_some hg2).1
      have hid := (getUnit_some hg2).2
      have hnd : uid ≠ tid := by
        intro hc
        have := (h.2 u2 hmem).2.2.2
        rw [htg, hid, hc] at this
        exact this rfl
      exact engageStage_ok hnd h ha

theorem processUnit_ok {o : ℕ → ℕ} {apIds aeIds : List ℕ} {s0 : List (ℕ × Owner)}
    (hap : ∀ x ∈ apIds, (x, Owner.player) ∈ s0) (hae : ∀ x ∈ aeIds, (x, Owner.enemy) ∈ s0)
    {bf : Battlefield} (h : InvBf bf) (hs : skel bf = s0) (uid : ℕ) :
    InvBf (processUnit o apIds aeIds bf uid) ∧ skel (processUnit o apIds aeIds bf uid) = s0 := by
  unfold processUnit
  cases hg0 : getUnit bf uid with
  | none => exact ⟨h, hs⟩
  | some u0 =>
    simp only []
    split
    · exact ⟨h, hs⟩
    · have h1 := updateUnit_ok uid (fun v => v.updateStatusEffects deltaTime)
        (fun v => ⟨rfl, rfl⟩) (fun v _ _ hv => invU_updateStatusEffects hv deltaTime) h
      have hs1 : skel (updateUnit bf uid (fun v => v.updateStatusEffects deltaTime)) = s0 :=
        h1.2.trans hs
      cases hg1 : getUnit (updateUnit bf uid (fun v => v.updateStatusEffects deltaTime)) uid with
      | none => exact ⟨h1.1, hs1⟩
      | some u1 =>
        simp only []
        split
        · exact ⟨h1.1, hs1⟩
        · rename_i hcan
          have hcan' : u1.canAct = true := not_not.1 hcan
          have ha1 : AliveAt (updateUnit bf uid (fun v => v.updateStatusEffects deltaTime)) uid :=
            ⟨u1, hg1, canAct_pos hcan'⟩
          have hu1mem := (getUnit_some hg1).1
          have hu1id := (getUnit_some hg1).2
          have hids1 : IdsOk (updateUnit bf uid (fun v => v.updateStatusEffects deltaTime)) :=
            h1.1.1
          have hpair : (uid, u1.ownerId) ∈
              skel (updateUnit bf uid (fun v => v.updateStatusEffects deltaTime)) :=
            List.mem_map.2 ⟨u1, hu1mem, by rw [hu1id]⟩
          have hnoEnemy : uid ∉ (if u1.ownerId == Owner.player then aeIds else apIds) := by
            intro hmem
            by_cases hw : (u1.ownerId == Owner.player) = true
            · rw [if_pos hw] at hmem
              have hmem2 : (uid, Owner.enemy) ∈
                  skel (updateUnit bf uid (fun v => v.updateStatusEffects deltaTime)) := by
                rw [hs1]
                exact hae uid hmem
              have heq := skel_pair_unique hids1 hpair hmem2
              rw [show u1.ownerId = Owner.player from by simpa using hw] at heq
              exact Owner.noConfusion heq
            · rw [if_neg hw] at hmem
              have hmem2 : (uid, Owner.player) ∈
                  skel (updateUnit bf uid (fun v => v.updateStatusEffects deltaTime)) := by
                rw [hs1]
                exact hap uid hmem
              have heq := skel_pair_unique hids1 hpair hmem2
              simp [heq] at hw
          have hstage2 : InvBf (if (match u1.target with
                | none => true
                | some tid =>
                  match getUnit (updateUnit bf uid (fun v => v.updateStatusEffects deltaTime))
                      tid with
                  | some t => ¬ t.alive
                  | none => true) then
                Combat.findTarget (updateUnit bf uid (fun v => v.updateStatusEffects deltaTime))
                  uid (if u1.ownerId == Owner.player then aeIds else apIds)
              else updateUnit bf uid (fun v => v.updateStatusEffects deltaTime))
              ∧ skel (if (match u1.target with
                | none => true
                | some tid =>
                  match getUnit (updateUnit bf uid (fun v => v.updateStatusEffects deltaTime))
                      tid with
                  | some t => ¬ t.alive
                  | none => true) then
                Combat.findTarget (updateUnit bf uid (fun v => v.updateStatusEffects deltaTime))
                  uid (if u1.ownerId == Owner.player then aeIds else apIds)
              else updateUnit bf uid (fun v => v.updateStatusEffects deltaTime)) = s0
              ∧ AliveAt (if (match u1.target with
                | none => true
                | some tid =>
                  match getUnit (updateUnit bf uid (fun v => v.updateStatusEffects deltaTime))
                      tid with
                  | some t => ¬ t.alive
                  | none => true) then
                Combat.findTarget (updateUnit bf uid (fun v => v.updateStatusEffects deltaTime))
                  uid (if u1.ownerId == Owner.player then aeIds else apIds)
              else updateUnit bf uid (fun v => v.updateStatusEffects deltaTime)) uid := by
            split
            · have hf := findTarget_ok hnoEnemy h1.1
              exact ⟨hf.1, hf.2.1.trans hs1, hf.2.2 ha1⟩
            · exact ⟨h1.1, hs1, ha1⟩
          have htail := targetStage_ok o hstage2.1 hstage2.2.2
          exact ⟨htail.1, htail.2.trans hstage2.2.1⟩

/-! ## C3/C4: preservation through a whole tick -/

theorem swapL_subset {l : List ℕ} {i j : ℕ} {x : ℕ} (h : x ∈ swapL l i j) : x ∈ l := by
  unfold swapL at h
  cases hi : l.get? i with
  | none => rw [hi] at h; exact h
  | some a =>
    cases hj : l.get? j with
    | none => rw [hi, hj] at h; exact h
    | some b =>
      rw [hi, hj] at h
      simp only [] at h
      rcases List.mem_or_eq_of_mem_set h with h1 | h1
      · rcases List.mem_or_eq_of_mem_set h1 with h2 | h2
        · exact h2
        · exact h2 ▸ List.get?_mem hj
      · exact h1 ▸ List.get?_mem hi

theorem fyGo_subset (o : ℕ → ℕ) :
    ∀ (n idx : ℕ) (l : List ℕ) (x : ℕ), x ∈ fyGo o idx n l → x ∈ l := by
  intro n
  induction n with
  | zero => intro idx l x h; exact h
  | succ m ih =>
    intro idx l x h
    exact swapL_subset (ih (idx + 1) (swapL l (m + 1) (o idx % (m + 2))) x h)

/-- One whole `battleTick` preserves the battlefield invariant and the
skeleton. -/
theorem battleTick_ok {o : ℕ → ℕ} {bf : Battlefield} (h : InvBf bf) :
    InvBf (battleTick o bf) ∧ skel (battleTick o bf) = skel bf := by
  unfold battleTick shuffleIds
  simp only []
  refine foldl_pres (fun b => InvBf b ∧ skel b = skel bf)
    (processUnit o (aliveSideIds bf Owner.player) (aliveSideIds bf Owner.enemy)) _ _ ?_ ⟨h, rfl⟩
  intro b uid _ hb
  exact processUnit_ok
    (fun x hx => aliveSideIds_skel hx) (fun x hx => aliveSideIds_skel hx) hb.1 hb.2 uid

/-! ## C3/C4: the combat-start state satisfies the invariant -/

theorem forall₂_TRel_map_id {l1 l2 : List Unit} (h : List.Forall₂ TRel l1 l2) :
    l2.map Unit.id = l1.map Unit.id := by
  induction h with
  | nil => rfl
  | cons hrel _ ih =>
    rw [List.map_cons, List.map_cons, ih, hrel.1]

theorem applyTraitBonusesList_ids (us : List Unit) :
    (applyTraitBonusesList us).map Unit.id = us.map Unit.id := by
  have h := forall₂_TRel_map_id (applyTraitBonusesList_rel us)
  rw [h, List.map_map]
  exact List.map_congr_left (fun u _ => rfl)

theorem cloneAll_ids (w : Owner) : ∀ (k : ℕ) (l : List Unit),
    (cloneAll w k l).map Unit.id = List.range' k l.length := by
  intro k l
  induction l generalizing k with
  | nil => rfl
  | cons u rest ih =>
    rw [show cloneAll w k (u :: rest) = combatClone w k u :: cloneAll w (k + 1) rest from rfl,
      List.map_cons, ih (k + 1)]
    rfl

theorem startUnits_ids (ps es : List Unit) :
    (startUnits ps es).map Unit.id
      = List.range' 0 ps.length ++ List.range' ps.length es.length := by
  have h1 : ∀ (l : List Unit), (l.map Unit.resetForCombat).map Unit.id = l.map Unit.id := by
    intro l
    rw [List.map_map]
    exact List.map_congr_left (fun u _ => rfl)
  unfold startUnits
  rw [List.map_append, applyTraitBonusesList_ids, applyTraitBonusesList_ids, h1, h1,
    cloneAll_ids, cloneAll_ids]

/-- The started battlefield's ids are consecutive, hence distinct. -/
theorem idsOk_start (ps es : List Unit) : IdsOk (startBf ps es) := by
  show ((startUnits ps es).map Unit.id).Nodup
  rw [startUnits_ids]
  refine List.Nodup.append (List.nodup_range' _ _) (List.nodup_range' _ _) ?_
  intro x hx hx'
  have h1 := (List.mem_range'_1).1 hx
  have h2 := (List.mem_range'_1).1 hx'
  omega

/-! ### The trait pass as a per-unit fold, and the HP-bonus it grants -/

theorem foldl_map_eq {α β : Type} (g : β → α → β) :
    ∀ (ts : List α) (us : List β),
      ts.foldl (fun acc t => acc.map (fun u => g u t)) us = us.map (fun u => ts.foldl g u) := by
  intro ts
  induction ts with
  | nil => intro us; simp
  | cons t ts ih =>
    intro us
    rw [List.foldl_cons, ih (us.map (fun u => g u t)), List.map_map]
    rfl

theorem traitStep_map (base us : List Unit) (t : String) :
    (match getTraitBonus t (countTraits base t) with
      | none => us
      | some (_, bonus) =>
        us.map (fun u => if t ∈ u.traits ∧ u.alive then applyBonusToUnit u bonus else u))
      = us.map (fun u => traitStepUnit base u t) := by
  unfold traitStepUnit
  cases h : getTraitBonus t (countTraits base t) with
  | none => simp
  | some p =>
    obtain ⟨thr, bonus⟩ := p
    rfl

/-- The combat trait pass acts unit-by-unit: it is the map of a per-unit
fold over the collected trait ids. -/
theorem applyTraitBonusesList_eq (units : List Unit) :
    applyTraitBonusesList units
      = (units.map Unit.resetBuffs).map (traitFoldUnit (units.map Unit.resetBuffs)) := by
  have hsteps : ∀ (ts : List String) (us : List Unit),
      ts.foldl (fun us traitId =>
        match getTraitBonus traitId (countTraits (units.map Unit.resetBuffs) traitId) with
        | none => us
        | some (_, bonus) =>
          us.map (fun u => if traitId ∈ u.traits ∧ u.alive then applyBonusToUnit u bonus else u))
        us
      = ts.foldl (fun acc t => acc.map (fun u => traitStepUnit (units.map Unit.resetBuffs) u t))
        us := by
    intro ts
    induction ts with
    | nil => intro us; rfl
    | cons t ts ih =>
      intro us
      rw [List.foldl_cons, List.foldl_cons, traitStep_map, ih]
  show (collectTraitIds (units.map Unit.resetBuffs)).foldl
      (fun us traitId =>
        match getTraitBonus traitId (countTraits (units.map Unit.resetBuffs) traitId) with
        | none => us
        | some (_, bonus) =>
          us.map (fun u => if traitId ∈ u.traits ∧ u.alive then applyBonusToUnit u bonus else u))
      (units.map Unit.resetBuffs)
    = _
  rw [hsteps, foldl_map_eq]
  rfl

theorem applyBonusToUnit_fields (u : Unit) (b : TraitBonus) :
    (applyBonusToUnit u b).currentHp = u.currentHp
    ∧ (applyBonusToUnit u b).maxHp = u.maxHp
    ∧ (applyBonusToUnit u b).currentMana = u.currentMana
    ∧ (applyBonusToUnit u b).maxMana = u.maxMana
    ∧ (applyBonusToUnit u b).state = u.state
    ∧ (applyBonusToUnit u b).target = u.target
    ∧ (applyBonusToUnit u b).traits = u.traits
    ∧ (applyBonusToUnit u b).buffs.hpBonus = u.buffs.hpBonus + b.hpBonus :=
  ⟨rfl, rfl, rfl, rfl, rfl, rfl, rfl, rfl⟩

theorem traitStepUnit_fields (base : List Unit) (u : Unit) (t : String) :
    (traitStepUnit base u t).currentHp = u.currentHp
    ∧ (traitStepUnit base u t).maxHp = u.maxHp
    ∧ (traitStepUnit base u t).currentMana = u.currentMana
    ∧ (traitStepUnit base u t).maxMana = u.maxMana
    ∧ (traitStepUnit base u t).state = u.state
    ∧ (traitStepUnit base u t).target = u.target
    ∧ (traitStepUnit base u t).traits = u.traits
    ∧ (traitStepUnit base u t).buffs.hpBonus
        = u.buffs.hpBonus
          + (if t ∈ u.traits ∧ u.alive = true then
              match getTraitBonus t (countTraits base t) with
              | some p => p.2.hpBonus
              | none => 0
            else 0) := by
  unfold traitStepUnit
  cases h : getTraitBonus t (countTraits base t) with
  | none =>
    refine ⟨rfl, rfl, rfl, rfl, rfl, rfl, rfl, ?_⟩
    show u.buffs.hpBonus
      = u.buffs.hpBonus + (if t ∈ u.traits ∧ u.alive = true then 0 else 0)
    split <;> simp
  | some p =>
    obtain ⟨thr, b⟩ := p
    simp only []
    by_cases hc : t ∈ u.traits ∧ u.alive = true
    · rw [if_pos hc, if_pos hc]
      exact ⟨rfl, rfl, rfl, rfl, rfl, rfl, rfl, rfl⟩
    · rw [if_neg hc, if_neg hc]
      simp

theorem traitFold_fields (base : List Unit) :
    ∀ (ts : List String) (u0 : Unit),
      (ts.foldl (traitStepUnit base) u0).currentHp = u0.currentHp
      ∧ (ts.foldl (traitStepUnit base) u0).maxHp = u0.maxHp
      ∧ (ts.foldl (traitStepUnit base) u0).currentMana = u0.currentMana
      ∧ (ts.foldl (traitStepUnit base) u0).maxMana = u0.maxMana
      ∧ (ts.foldl (traitStepUnit base) u0).state = u0.state
      ∧ (ts.foldl (traitStepUnit base) u0).target = u0.target
      ∧ (ts.foldl (traitStepUnit base) u0).traits = u0.traits
      ∧ (ts.foldl (traitStepUnit base) u0).buffs.hpBonus
          = u0.buffs.hpBonus
            + (ts.map (fun t =>
                if t ∈ u0.traits ∧ u0.alive = true then
                  match getTraitBonus t (countTraits base t) with
                  | some p => p.2.hpBonus
                  | none => 0
                else 0)).sum := by
  intro ts
  induction ts with
  | nil =>
    intro u0
    exact ⟨rfl, rfl, rfl, rfl, rfl, rfl, rfl, by simp⟩
  | cons t ts ih =>
    intro u0
    rw [List.foldl_cons]
    have hstep := traitStepUnit_fields base u0 t
    have hih := ih (traitStepUnit base u0 t)
    have halive : (traitStepUnit base u0 t).alive = u0.alive := by
      unfold Unit.alive
      rw [hstep.1, hstep.2.2.2.2.1]
    refine ⟨hih.1.trans hstep.1, hih.2.1.trans hstep.2.1, hih.2.2.1.trans hstep.2.2.1,
      hih.2.2.2.1.trans hstep.2.2.2.1, hih.2.2.2.2.1.trans hstep.2.2.2.2.1,
      hih.2.2.2.2.2.1.trans hstep.2.2.2.2.2.1,
      hih.2.2.2.2.2.2.1.trans hstep.2.2.2.2.2.2.1, ?_⟩
    rw [hih.2.2.2.2.2.2.2, hstep.2.2.2.2.2.2.2]
    have hcong : (ts.map (fun s =>
          if s ∈ (traitStepUnit base u0 t).traits ∧ (traitStepUnit base u0 t).alive = true then
            match getTraitBonus s (countTraits base s) with
            | some p => p.2.hpBonus
            | none => 0
          else 0))
        = (ts.map (fun s =>
          if s ∈ u0.traits ∧ u0.alive = true then
            match getTraitBonus s (countTraits base s) with
            | some p => p.2.hpBonus
            | none => 0
          else 0)) := by
      refine List.map_congr_left ?_
      intro s _
      rw [hstep.2.2.2.2.2.2.1, halive]
    rw [hcong, List.map_cons, List.sum_cons]
    omega

/-! ### The collected trait ids: no duplicates, and complete -/

theorem collectInner_mem (ts : List String) :
    ∀ (acc : List String) (x : String), x ∈ acc ∨ x ∈ ts →
      x ∈ ts.foldl (fun acc t => if t ∈ acc then acc else acc ++ [t]) acc := by
  induction ts with
  | nil =>
    intro acc x h
    rcases h with h | h
    · exact h
    · exact absurd h (List.not_mem_nil x)
  | cons t ts ih =>
    intro acc x h
    rw [List.foldl_cons]
    apply ih
    by_cases hc : t ∈ acc
    · rw [if_pos hc]
      rcases h with h | h
      · exact Or.inl h
      · rcases List.mem_cons.1 h with h' | h'
        · exact Or.inl (h' ▸ hc)
        · exact Or.inr h'
    · rw [if_neg hc]
      rcases h with h | h
      · exact Or.inl (List.mem_append.2 (Or.inl h))
      · rcases List.mem_cons.1 h with h' | h'
        · exact Or.inl (List.mem_append.2 (Or.inr (List.mem_singleton.2 h')))
        · exact Or.inr h'

theorem collectInner_nodup (ts : List String) :
    ∀ (acc : List String), acc.Nodup →
      (ts.foldl (fun acc t => if t ∈ acc then acc else acc ++ [t]) acc).Nodup := by
  induction ts with
  | nil => intro acc h; exact h
  | cons t ts ih =>
    intro acc h
    rw [List.foldl_cons]
    apply ih
    by_cases hc : t ∈ acc
    · rw [if_pos hc]
      exact h
    · rw [if_neg hc]
      refine List.Nodup.append h (List.nodup_singleton t) ?_
      intro x hx hx'
      rw [List.mem_singleton] at hx'
      exact hc (hx' ▸ hx)

theorem collectTraitIds_nodup (units : List Unit) : (collectTraitIds units).Nodup := by
  unfold collectTraitIds
  suffices h : ∀ (us : List Unit) (acc : List String), acc.Nodup →
      (us.foldl
        (fun acc u =>
          if ¬ u.alive then acc
          else u.traits.foldl (fun acc t => if t ∈ acc then acc else acc ++ [t]) acc)
        acc).Nodup by
    exact h units [] List.nodup_nil
  intro us
  induction us with
  | nil => intro acc h; exact h
  | cons u rest ih =>
    intro acc h
    rw [List.foldl_cons]
    apply ih
    by_cases hc : u.alive = true
    · rw [if_neg (fun hcon => hcon hc)]
      exact collectInner_nodup u.traits acc h
    · rw [if_pos hc]
      exact h

theorem mem_collectTraitIds_of (units : List Unit) {u : Unit} (hu : u ∈ units)
    (hal : u.alive = true) {t : String} (ht : t ∈ u.traits) : t ∈ collectTraitIds units := by
  unfold collectTraitIds
  suffices h : ∀ (us : List Unit) (acc : List String),
      (∃ v ∈ us, v.alive = true ∧ t ∈ v.traits) ∨ t ∈ acc →
      t ∈ us.foldl
        (fun acc u =>
          if ¬ u.alive then acc
          else u.traits.foldl (fun acc t => if t ∈ acc then acc else acc ++ [t]) acc)
        acc by
    exact h units [] (Or.inl ⟨u, hu, hal, ht⟩)
  intro us
  induction us with
  | nil =>
    intro acc h
    rcases h with ⟨v, hv, _⟩ | h
    · exact absurd hv (List.not_mem_nil v)
    · exact h
  | cons v rest ih =>
    intro acc h
    rw [List.foldl_cons]
    apply ih
    rcases h with ⟨w, hw, hwal, hwt⟩ | hacc
    · rcases List.mem_cons.1 hw with h' | h'
      · subst h'
        rw [if_neg (fun hcon => hcon hwal)]
        exact Or.inr (collectInner_mem w.traits acc t (Or.inr hwt))
      · exact Or.inl ⟨w, h', hwal, hwt⟩
    · refine Or.inr ?_
      by_cases hc : v.alive = true
      · rw [if_neg (fun hcon => hcon hc)]
        exact collectInner_mem v.traits acc t (Or.inl hacc)
      · rw [if_pos hc]
        exact hacc

/-! ### The combat count on a started side is the plain carrier count -/

theorem resetCloneTraitsBuffs (owner : Owner) (j : ℕ) (u : Unit) :
    ((combatClone owner j u).resetForCombat.resetBuffs).traits = u.traits
    ∧ ((combatClone owner j u).resetForCombat.resetBuffs).buffs = ({} : Buffs) :=
  ⟨rfl, rfl⟩

theorem base_alive (owner : Owner) (j : ℕ) (u : Unit) (h : 0 < u.maxHp) :
    ((combatClone owner j u).resetForCombat.resetBuffs).alive = true := by
  unfold Unit.alive
  rw [(resetCloneFields owner j u).2.1, (resetCloneFields owner j u).2.2.1]
  simp
  omega

theorem base_unit_shape (owner : Owner) (k : ℕ) (l : List Unit) (w : Unit)
    (hw : w ∈ ((cloneAll owner k l).map Unit.resetForCombat).map Unit.resetBuffs) :
    ∃ u ∈ l, ∃ j, w = ((combatClone owner j u).resetForCombat).resetBuffs := by
  obtain ⟨w1, hw1, he1⟩ := List.mem_map.1 hw
  obtain ⟨c, hc, he2⟩ := List.mem_map.1 hw1
  obtain ⟨u, hu, j, hj⟩ := cloneAll_mem_right owner k l c hc
  exact ⟨u, hu, j, by rw [← he1, ← he2, hj]⟩

theorem base_ids (owner : Owner) (k : ℕ) (l : List Unit) :
    ((((cloneAll owner k l).map Unit.resetForCombat).map Unit.resetBuffs).map Unit.id)
      = List.range' k l.length := by
  calc ((((cloneAll owner k l).map Unit.resetForCombat).map Unit.resetBuffs).map Unit.id)
      = (cloneAll owner k l).map Unit.id := by
        rw [List.map_map, List.map_map]
        exact List.map_congr_left (fun u _ => rfl)
    _ = List.range' k l.length := cloneAll_ids owner k l

theorem map_filter_len_traits (g : Unit → Unit) (hg : ∀ u, (g u).traits = u.traits)
    (t : String) :
    ∀ l : List Unit,
      ((l.map g).filter (fun v => decide (t ∈ v.traits))).length
      = (l.filter (fun v => decide (t ∈ v.traits))).length := by
  intro l
  induction l with
  | nil => rfl
  | cons u rest ih =>
    rw [List.map_cons, List.filter_cons, List.filter_cons]
    by_cases hm : t ∈ u.traits
    · rw [if_pos (by simp [hg, hm]), if_pos (by simp [hm])]
      simp only [List.length_cons]
      rw [ih]
    · rw [if_neg (by simp [hg, hm]), if_neg (by simp [hm])]
      exact ih

theorem cloneAll_filter_len (owner : Owner) (t : String) :
    ∀ (k : ℕ) (l : List Unit),
      ((cloneAll owner k l).filter (fun v => decide (t ∈ v.traits))).length
      = (l.filter (fun v => decide (t ∈ v.traits))).length := by
  intro k l
  induction l generalizing k with
  | nil => rfl
  | cons u rest ih =>
    rw [show cloneAll owner k (u :: rest) = combatClone owner k u :: cloneAll owner (k + 1) rest
      from rfl]
    rw [List.filter_cons, List.filter_cons]
    by_cases hm : t ∈ u.traits
    · rw [if_pos (by simp [hm, show (combatClone owner k u).traits = u.traits from rfl]),
        if_pos (by simp [hm])]
      simp only [List.length_cons]
      rw [ih (k + 1)]
    · rw [if_neg (by simp [hm, show (combatClone owner k u).traits = u.traits from rfl]),
        if_neg (by simp [hm])]
      exact ih (k + 1)

/-- On a started side all clones are alive and their fresh ids distinct,
so `Combat.countTraits` is the plain carrier count of the input roster. -/
theorem base_count (owner : Owner) (k : ℕ) (l : List Unit)
    (hmax : ∀ u ∈ l, 0 < u.maxHp) (t : String) :
    countTraits (((cloneAll owner k l).map Unit.resetForCombat).map Unit.resetBuffs) t
      = (l.filter (fun v => decide (t ∈ v.traits))).length := by
  have hids : (((((cloneAll owner k l).map Unit.resetForCombat).map Unit.resetBuffs)).map
      Unit.id).Nodup := by
    rw [base_ids]
    exact List.nodup_range' _ _
  have hall : ∀ w ∈ ((cloneAll owner k l).map Unit.resetForCombat).map Unit.resetBuffs,
      w.alive = true := by
    intro w hw
    obtain ⟨u, hu, j, hj⟩ := base_unit_shape owner k l w hw
    rw [hj]
    exact base_alive owner j u (hmax u hu)
  rw [show countTraits (((cloneAll owner k l).map Unit.resetForCombat).map Unit.resetBuffs) t
    = ((((cloneAll owner k l).map Unit.resetForCombat).map Unit.resetBuffs).filter
        (fun u => u.alive && decide (t ∈ u.traits))).length
    from countTraitsFrom_spec t _ [] hids (by intro u _ s h; exact (List.not_mem_nil _ h))]
  have hcongr : List.filter (fun u => u.alive && decide (t ∈ u.traits))
      (((cloneAll owner k l).map Unit.resetForCombat).map Unit.resetBuffs)
      = List.filter (fun v => decide (t ∈ v.traits))
        (((cloneAll owner k l).map Unit.resetForCombat).map Unit.resetBuffs) := by
    refine List.filter_congr ?_
    intro w hw
    rw [hall w hw, Bool.true_and]
  rw [hcongr]
  rw [map_filter_len_traits Unit.resetBuffs (fun u => rfl) t,
    map_filter_len_traits Unit.resetForCombat (fun u => rfl) t,
    cloneAll_filter_len owner t k l]

/-! ### The HP-bonus a started unit ends up with -/

theorem sum_map_ite (f : String → ℕ) (p : String → Prop) [DecidablePred p] :
    ∀ l : List String,
      (l.map (fun x => if p x then f x else 0)).sum
      = ((l.filter (fun x => decide (p x))).map f).sum := by
  intro l
  induction l with
  | nil => rfl
  | cons x xs ih =>
    rw [List.map_cons, List.sum_cons, List.filter_cons]
    by_cases hp : p x
    · rw [if_pos hp, if_pos (by simpa using hp), List.map_cons, List.sum_cons, ih]
    · rw [if_neg hp, if_neg (by simpa using hp), ih]
      omega

theorem traitFold_hpBonus_grant (base l : List Unit) (u : Unit)
    (hcount : ∀ t, countTraits base t = (l.filter (fun v => decide (t ∈ v.traits))).length)
    {w0 : Unit} (hw0 : w0 ∈ base) (halw : w0.alive = true)
    (htr : w0.traits = u.traits) (hb0 : w0.buffs.hpBonus = 0) :
    (traitFoldUnit base w0).buffs.hpBonus = hpGrant l u := by
  have hprops := traitFold_fields base (collectTraitIds base) w0
  show ((collectTraitIds base).foldl (traitStepUnit base) w0).buffs.hpBonus = hpGrant l u
  rw [hprops.2.2.2.2.2.2.2, hb0, Nat.zero_add]
  have h1 : ((collectTraitIds base).map (fun t =>
        if t ∈ w0.traits ∧ w0.alive = true then
          match getTraitBonus t (countTraits base t) with
          | some p => p.2.hpBonus
          | none => 0
        else 0))
      = ((collectTraitIds base).map (fun t =>
        if t ∈ u.traits then
          match getTraitBonus t ((l.filter (fun v => decide (t ∈ v.traits))).length) with
          | some p => p.2.hpBonus
          | none => 0
        else 0)) := by
    refine List.map_congr_left ?_
    intro t _
    rw [htr, hcount t]
    by_cases hm : t ∈ u.traits
    · rw [if_pos ⟨hm, halw⟩, if_pos hm]
    · rw [if_neg (fun hc => hm hc.1), if_neg hm]
  rw [h1, sum_map_ite]
  have hperm : List.Perm
      ((collectTraitIds base).filter (fun t => decide (t ∈ u.traits))) u.traits.dedup := by
    refine (List.perm_ext_iff_of_nodup ((collectTraitIds_nodup base).filter _)
      (List.nodup_dedup _)).2 ?_
    intro t
    rw [List.mem_filter, List.mem_dedup]
    constructor
    · rintro ⟨_, h2⟩
      simpa using h2
    · intro h
      exact ⟨mem_collectTraitIds_of base hw0 halw (htr.symm ▸ h), by simpa using h⟩
  rw [(hperm.map _).sum_eq]
  rfl

/-! ### The started side satisfies the per-unit invariant -/

theorem side_start_invU (owner : Owner) (k : ℕ) (l : List Unit) (h : StartSideOk l) :
    ∀ w ∈ applyTraitBonusesList ((cloneAll owner k l).map Unit.resetForCombat), InvU w := by
  intro w hw
  rw [applyTraitBonusesList_eq] at hw
  obtain ⟨w0, hw0, hweq⟩ := List.mem_map.1 hw
  obtain ⟨u, hu, j, hj⟩ := base_unit_shape owner k l w0 hw0
  obtain ⟨hmax, hble⟩ := h u hu
  have rc := resetCloneFields owner j u
  have hal : w0.alive = true := by
    rw [hj]
    exact base_alive owner j u hmax
  have hprops := traitFold_fields
    (((cloneAll owner k l).map Unit.resetForCombat).map Unit.resetBuffs)
    (collectTraitIds (((cloneAll owner k l).map Unit.resetForCombat).map Unit.resetBuffs)) w0
  have hgrant : w.buffs.hpBonus = hpGrant l u := by
    rw [← hweq]
    exact traitFold_hpBonus_grant _ l u
      (base_count owner k l (fun v hv => (h v hv).1)) hw0 hal
      (by rw [hj]; exact (resetCloneTraitsBuffs owner j u).1)
      (by rw [hj]; rfl)
  have hhp : w.currentHp = u.maxHp + u.buffs.hpBonus := by
    rw [← hweq]
    show ((collectTraitIds _).foldl (traitStepUnit _) w0).currentHp = _
    rw [hprops.1, hj]
    exact rc.2.1
  have hmaxHp : w.maxHp = u.maxHp := by
    rw [← hweq]
    show ((collectTraitIds _).foldl (traitStepUnit _) w0).maxHp = _
    rw [hprops.2.1, hj]
    exact rc.2.2.2.2.2.1
  have hmana : w.currentMana = 0 := by
    rw [← hweq]
    show ((collectTraitIds _).foldl (traitStepUnit _) w0).currentMana = _
    rw [hprops.2.2.1, hj]
    exact rc.2.2.2.2.1
  have htgt : w.target = none := by
    rw [← hweq]
    show ((collectTraitIds _).foldl (traitStepUnit _) w0).target = _
    rw [hprops.2.2.2.2.2.1, hj]
    exact rc.2.2.2.1
  refine ⟨?_, ?_, ?_, ?_⟩
  · unfold Unit.effectiveMaxHp
    rw [hhp, hmaxHp, hgrant]
    omega
  · rw [hmana]
    exact Nat.zero_le _
  · intro hc
    rw [hhp] at hc
    exact absurd hc (by omega)
  · rw [htgt]
    exact fun hc => Option.noConfusion hc

theorem invBf_start (ps es : List Unit) (hps : StartSideOk ps) (hes : StartSideOk es) :
    InvBf (startBf ps es) := by
  refine ⟨idsOk_start ps es, ?_⟩
  intro w hw
  rw [startBf_units] at hw
  have hw' : w ∈ applyTraitBonusesList ((cloneAll Owner.player 0 ps).map Unit.resetForCombat)
      ++ applyTraitBonusesList ((cloneAll Owner.enemy ps.length es).map Unit.resetForCombat) :=
    hw
  rcases List.mem_append.1 hw' with h | h
  · exact side_start_invU Owner.player 0 ps hps w h
  · exact side_start_invU Owner.enemy ps.length es hes w h

/-! ### The rosters the game passes in are admissible -/

/-- A roster without HP-bonus buffs (raw rosters, and the boss-buffed
enemy rosters: `applyBossBuffs` adds only attack, armor and magic
resist) is an admissible combat-start side. -/
theorem zero_hpBonus_start_ok (l : List Unit)
    (h : ∀ u ∈ l, 0 < u.maxHp ∧ u.buffs.hpBonus = 0) : StartSideOk l := by
  intro u hu
  refine ⟨(h u hu).1, ?_⟩
  rw [(h u hu).2]
  exact Nat.zero_le _

theorem planningStep_fields (units : List Unit) (v : Unit) (t : String) :
    (match planningActive units t with
      | some b => applyBonusToUnit v b
      | none => v).maxHp = v.maxHp
    ∧ (match planningActive units t with
      | some b => applyBonusToUnit v b
      | none => v).traits = v.traits
    ∧ (match planningActive units t with
      | some b => applyBonusToUnit v b
      | none => v).buffs.hpBonus
        = v.buffs.hpBonus
          + (match planningActive units t with
            | some b => b.hpBonus
            | none => 0) := by
  cases h : planningActive units t with
  | none => exact ⟨rfl, rfl, by simp⟩
  | some b => exact ⟨rfl, rfl, rfl⟩

theorem planningFold_fields (units : List Unit) :
    ∀ (ts : List String) (v0 : Unit),
      (ts.foldl (fun v t =>
        match planningActive units t with
        | some b => applyBonusToUnit v b
        | none => v) v0).maxHp = v0.maxHp
      ∧ (ts.foldl (fun v t =>
        match planningActive units t with
        | some b => applyBonusToUnit v b
        | none => v) v0).traits = v0.traits
      ∧ (ts.foldl (fun v t =>
        match planningActive units t with
        | some b => applyBonusToUnit v b
        | none => v) v0).buffs.hpBonus
          = v0.buffs.hpBonus
            + (ts.map (fun t =>
                match planningActive units t with
                | some b => b.hpBonus
                | none => 0)).sum := by
  intro ts
  induction ts with
  | nil =>
    intro v0
    exact ⟨rfl, rfl, by simp⟩
  | cons t ts ih =>
    intro v0
    rw [List.foldl_cons]
    have hstep := planningStep_fields units v0 t
    have hih := ih (match planningActive units t with
      | some b => applyBonusToUnit v0 b
      | none => v0)
    refine ⟨hih.1.trans hstep.1, hih.2.1.trans hstep.2.1, ?_⟩
    rw [hih.2.2, hstep.2.2, List.map_cons, List.sum_cons]
    omega

theorem planningApplyUnit_traits (units : List Unit) (u : Unit) :
    (planningApplyUnit units u).traits = u.traits := by
  unfold planningApplyUnit
  split
  · exact (planningFold_fields units u.traits u.resetBuffs).2.1
  · rfl

theorem sum_count_eq_filter_len (t : String) :
    ∀ (l : List Unit), (∀ u ∈ l, u.traits.Nodup) →
      (l.map (fun u => u.traits.count t)).sum
      = (l.filter (fun v => decide (t ∈ v.traits))).length := by
  intro l
  induction l with
  | nil => intro _; rfl
  | cons u rest ih =>
    intro hnd
    rw [List.map_cons, List.sum_cons, List.filter_cons]
    have hrest := ih (fun v hv => hnd v (List.mem_cons_of_mem u hv))
    by_cases hm : t ∈ u.traits
    · rw [List.count_eq_one_of_mem (hnd u (List.mem_cons_self u rest)) hm,
        if_pos (by simpa using hm)]
      rw [List.length_cons, hrest]
      omega
    · rw [List.count_eq_zero_of_not_mem hm, if_neg (by simpa using hm), hrest]
      omega

/-- On a roster of living on-board units with duplicate-free trait lists
the planning tally is the plain carrier count. -/
theorem planningCount_eq (l : List Unit)
    (hact : ∀ u ∈ l, (u.onBoard && u.alive) = true)
    (hnd : ∀ u ∈ l, u.traits.Nodup) (t : String) :
    planningCount l t = (l.filter (fun v => decide (t ∈ v.traits))).length := by
  unfold planningCount
  rw [List.filter_eq_self.2 hact]
  exact sum_count_eq_filter_len t l hnd

/-- At equal counts, planning's active-trait bonus carries the same
HP-bonus as the combat module's `getTraitBonus` (the two threshold scans
agree: every known trait has both its tier bundles). -/
theorem planningActive_hp_eq (l : List Unit) (t : String) (cnt : ℕ)
    (hc : planningCount l t = cnt) :
    (match planningActive l t with
      | some b => b.hpBonus
      | none => 0)
      = (match getTraitBonus t cnt with
        | some p => p.2.hpBonus
        | none => 0) := by
  unfold planningActive getTraitBonus
  cases TRAITS t with
  | none => rfl
  | some p =>
    obtain ⟨b2, b4⟩ := p
    simp only []
    rw [hc]
    by_cases h4 : 4 ≤ cnt
    · rw [if_pos h4, if_pos h4]
    · rw [if_neg h4, if_neg h4]
      by_cases h2 : 2 ≤ cnt
      · rw [if_pos h2, if_pos h2]
      · rw [if_neg h2, if_neg h2]

/-- The rosters `game.js` passes to the combat — fresh living on-board
units (zero buffs, positive max HP, duplicate-free template trait lists)
run through the planning `TraitSystem` — are admissible start sides: the
planning HP-bonus each unit carries in is exactly what the combat's own
trait pass re-grants, because both passes count the same carriers on such
a roster. -/
theorem planning_start_ok (l : List Unit)
    (hl : ∀ u ∈ l, 0 < u.maxHp ∧ u.buffs = ({} : Buffs) ∧ (u.onBoard && u.alive) = true
      ∧ u.traits.Nodup) :
    StartSideOk (planningApply l) := by
  intro w hw
  obtain ⟨u, hu, heq⟩ := List.mem_map.1 hw
  obtain ⟨hmax, hbuffs, hact, hnd⟩ := hl u hu
  have hfold := planningFold_fields l u.traits u.resetBuffs
  have hwform : w = u.traits.foldl (fun v t =>
      match planningActive l t with
      | some b => applyBonusToUnit v b
      | none => v) u.resetBuffs := by
    rw [← heq]
    unfold planningApplyUnit
    rw [if_pos hact]
  constructor
  · rw [hwform, hfold.1]
    exact hmax
  · have hwtraits : w.traits = u.traits := by
      rw [hwform, hfold.2.1]
      rfl
    have hwhp : w.buffs.hpBonus = (u.traits.map (fun t =>
        match planningActive l t with
        | some b => b.hpBonus
        | none => 0)).sum := by
      rw [hwform, hfold.2.2]
      rw [show (u.resetBuffs).buffs.hpBonus = 0 from rfl, Nat.zero_add]
    have hcnt : ∀ t, planningCount l t = (l.filter (fun v => decide (t ∈ v.traits))).length :=
      planningCount_eq l (fun v hv => (hl v hv).2.2.1) (fun v hv => (hl v hv).2.2.2)
    refine le_of_eq ?_
    rw [hwhp]
    unfold hpGrant
    rw [hwtraits, hnd.dedup]
    refine congrArg List.sum ?_
    refine List.map_congr_left ?_
    intro t _
    rw [planningActive_hp_eq l t _ (hcnt t)]
    rw [show ((planningApply l).filter (fun v => decide (t ∈ v.traits))).length
      = (l.filter (fun v => decide (t ∈ v.traits))).length
      from map_filter_len_traits (planningApplyUnit l) (planningApplyUnit_traits l) t l]

/-- Every battlefield reachable in a combat satisfies the safety
invariant: distinct ids, HP and mana within bounds, HP 0 exactly in the
DEAD state, and no self-targeting. -/
theorem invBf_reach {ps es : List Unit} {bf : Battlefield} (h : Reach ps es bf) : InvBf bf := by
  induction h with
  | start hps hes => exact invBf_start ps es hps hes
  | damage hr tid amount ty ih => exact (dealDamage_ok tid amount ty ih).1
  | heal hr uid amount ih =>
    exact (updateUnit_ok uid _ (fun v => heal_fixed v amount)
      (fun v _ _ hv => invU_heal hv amount) ih).1
  | mana hr uid amount ih =>
    exact (updateUnit_ok uid _
      (fun v => ⟨(gainMana_fixed v amount).1, (gainMana_fixed v amount).2.1⟩)
      (fun v _ _ hv => invU_gainMana hv amount) ih).1
  | stun hr uid d ih =>
    exact (updateUnit_ok uid _
      (fun v => ⟨(applyStun_fixed v d).1, (applyStun_fixed v d).2.1⟩)
      (fun v _ _ hv => invU_applyStun hv d) ih).1
  | slow hr uid a d ih =>
    exact (updateUnit_ok uid _
      (fun v => ⟨(applySlow_fixed v a d).1, (applySlow_fixed v a d).2.1⟩)
      (fun v _ _ hv => invU_applySlow hv a d) ih).1
  | decay hr uid dt ih =>
    exact (updateUnit_ok uid (fun v => v.updateStatusEffects dt) (fun v => ⟨rfl, rfl⟩)
      (fun v _ _ hv => invU_updateStatusEffects hv dt) ih).1
  | @attack bf' hr o aId dId hside ih =>
    by_cases hnd : aId = dId
    · subst hnd
      cases hga : getUnit bf' aId with
      | none =>
        have he : Combat.attack o bf' aId aId = bf' := by
          unfold Combat.attack
          rw [hga]
        rw [he]
        exact ih
      | some a => exact absurd rfl (hside a a hga hga)
    · exact (attack_ok o hnd ih).1
  | tick hr o ih => exact (battleTick_ok ih).1

/-! ## C3 and C4: the claims -/

/-- Whatever `findTarget` stores, when it stores an id it is the id of a
unit that was alive and on the board. -/
theorem findTarget_selects {bf : Battlefield} {uid : ℕ} {enemyIds : List ℕ} {u' : Unit} {t : ℕ}
    (hg : getUnit (Combat.findTarget bf uid enemyIds) uid = some u')
    (ht : u'.target = some t) :
    ∃ e, getUnit bf t = some e ∧ e.alive = true ∧ e.onBoard = true := by
  unfold Combat.findTarget at hg
  revert hg
  cases hg0 : getUnit bf uid with
  | none =>
    simp only []
    intro hg
    rw [hg0] at hg
    exact Option.noConfusion hg
  | some u0 =>
    simp only []
    intro hg
    split at hg
    · rw [getUnit_updateUnit_self bf uid (fun v => { v with target := none }) (fun v => rfl),
        hg0] at hg
      have hg2 : some ({ u0 with target := none } : Unit) = some u' := hg
      injection hg2 with hg'
      rw [← hg'] at ht
      exact Option.noConfusion (show (none : Option ℕ) = some t from ht)
    · split at hg
      · rw [getUnit_updateUnit_self bf uid (fun v => { v with target := none }) (fun v => rfl),
          hg0] at hg
        have hg2 : some ({ u0 with target := none } : Unit) = some u' := hg
        injection hg2 with hg'
        rw [← hg'] at ht
        exact Option.noConfusion (show (none : Option ℕ) = some t from ht)
      · rw [getUnit_updateUnit_self bf uid
            (fun v => { v with target :=
              ((enemyIds.filter (fun eid =>
                match getUnit bf eid with
                | some e => e.alive && e.onBoard
                | none => false)).foldl (ftStep bf u0) (none, none)).1 })
            (fun v => rfl), hg0] at hg
        have hg2 : some ({ u0 with target :=
            ((enemyIds.filter (fun eid =>
              match getUnit bf eid with
              | some e => e.alive && e.onBoard
              | none => false)).foldl (ftStep bf u0) (none, none)).1 } : Unit) = some u' := hg
        injection hg2 with hg'
        rw [← hg'] at ht
        have ht' : ((enemyIds.filter (fun eid =>
            match getUnit bf eid with
            | some e => e.alive && e.onBoard
            | none => false)).foldl (ftStep bf u0) (none, none)).1 = some t := ht
        have hmem : t ∈ enemyIds.filter (fun eid =>
            match getUnit bf eid with
            | some e => e.alive && e.onBoard
            | none => false) := by
          rcases ftFold_mem bf u0 _ (none, none) t ht' with h1 | h1
          · exact absurd h1 (by simp)
          · exact h1
        have hpred := (List.mem_filter.1 hmem).2
        cases hge : getUnit bf t with
        | none =>
          rw [hge] at hpred
          exact Bool.noConfusion hpred
        | some e =>
          rw [hge] at hpred
          have hpred' : e.alive = true ∧ e.onBoard = true := by simpa using hpred
          exact ⟨e, rfl, hpred'.1, hpred'.2⟩

/-- Every cell of the rebuilt occupancy cache is the position of a living
on-board unit. -/
theorem occupied_from_living {bf : Battlefield} {p : ℤ × ℤ}
    (hp : p ∈ (updateOccupiedPositions bf).occupied) :
    ∃ v ∈ bf.units, v.alive = true ∧ v.pos = some p := by
  unfold updateOccupiedPositions at hp
  obtain ⟨v, hv, hf⟩ := List.mem_filterMap.1 hp
  by_cases hc : (v.alive && v.onBoard) = true
  · rw [if_pos hc] at hf
    have hc' : v.alive = true ∧ v.onBoard = true := by simpa using hc
    exact ⟨v, hv, hc'.1, hf⟩
  · rw [if_neg hc] at hf
    exact Option.noConfusion hf

/-- The per-unit tick body skips a dead unit outright. -/
theorem processUnit_dead {o : ℕ → ℕ} {apIds aeIds : List ℕ} {bf : Battlefield} {uid : ℕ}
    {u : Unit} (hg : getUnit bf uid = some u) (hdead : ¬ u.alive = true) :
    processUnit o apIds aeIds bf uid = bf := by
  unfold processUnit
  rw [hg]
  simp only []
  rw [if_pos hdead]

/-- C3: in every state of a combat reachable from two input rosters (each
input unit having positive max HP and an incoming HP-bonus buff no larger
than the one combat's own trait pass re-grants after resetting all buffs —
`StartSideOk`; `planning_start_ok` shows the game's rosters, including
those carrying planning-phase tank HP bonuses, satisfy it with equality,
and `zero_hpBonus_start_ok` covers buff-free rosters such as the enemy
side) by the engine's mutating operations —
`takeDamage`, `heal`, `gainMana`, stuns, slows, status decay, full attack
resolution with its ability cast, and whole ticks — every combatant
satisfies `currentHp ≤ effectiveMaxHp` and `currentMana ≤ maxMana` (the
`0 ≤` halves hold because the embedding uses `ℕ`, faithful to the
source's clamping of both quantities at 0). -/
theorem c3_hp_mana_bounds {ps es : List Unit} {bf : Battlefield} (h : Reach ps es bf) :
    HpManaBounded bf :=
  fun u hu => ⟨((invBf_reach h).2 u hu).1, ((invBf_reach h).2 u hu).2.1⟩

theorem c3_hp_mana_bounds_witness :
    HpManaBounded (battleTick oZero (dealDamage (startBf [wPlain] [wVictim]) 0 500
      DamageType.physical).2) :=
  c3_hp_mana_bounds
    (Reach.tick (Reach.damage (Reach.start (zero_hpBonus_start_ok [wPlain] (by decide)) (zero_hpBonus_start_ok [wVictim] (by decide))) 0 500 DamageType.physical) oZero)

/-- C4: in every reachable combat state, a combatant at 0 HP is in the
DEAD state, is never the unit `findTarget` selects as a target, owes no
cell to the rebuilt occupied-positions cache (every cell there comes from
a living unit other than it), and the per-unit tick body leaves the
battlefield unchanged on its turn, so it never attacks, moves or casts. -/
theorem c4_dead_inert {ps es : List Unit} {bf : Battlefield} (h : Reach ps es bf)
    {u : Unit} (hu : u ∈ bf.units) (hz : u.currentHp = 0) : DeadInert bf u := by
  have hinv := invBf_reach h
  have hdeadState : u.state = UState.dead := (hinv.2 u hu).2.2.1 hz
  have halF : u.alive = false := by
    unfold Unit.alive
    rw [hz]
    rfl
  have hgu : getUnit bf u.id = some u := mem_getUnit_of_idsOk hinv.1 hu
  refine ⟨hdeadState, ?_, ?_, ?_⟩
  · intro uid enemyIds u' t hg ht heq
    obtain ⟨e, hge, hal, _⟩ := findTarget_selects hg ht
    rw [heq] at hge
    injection (hgu.symm.trans hge) with hUe
    rw [← hUe, halF] at hal
    exact Bool.noConfusion hal
  · intro p hp
    obtain ⟨v, hv, hvAl, hvp⟩ := occupied_from_living hp
    refine ⟨v, hv, ?_, hvAl, hvp⟩
    intro hc
    rw [hc, halF] at hvAl
    exact Bool.noConfusion hvAl
  · intro o apIds aeIds
    exact processUnit_dead hgu (by rw [halF]; exact fun hc => Bool.noConfusion hc)

theorem c4_dead_inert_witness :
    c4DeadUnit ∈ c4Bf.units ∧ c4DeadUnit.currentHp = 0 ∧ DeadInert c4Bf c4DeadUnit :=
  ⟨by decide, by decide,
    c4_dead_inert (Reach.damage (Reach.start (zero_hpBonus_start_ok [wPlain] (by decide)) (zero_hpBonus_start_ok [wVictim] (by decide))) 0 500 DamageType.physical)
      (by decide) (by decide)⟩

end AutoChess
